import Mathlib

/-!
Verification development for the normalized in-memory entity graph store
(`src/Repo.ts`, `src/Model.ts`, `src/Query.ts`).

The TypeScript sources are shallowly embedded below:

* JS values that appear in raw records are modelled by `RVal`; JS objects are
  modelled by insertion-ordered association lists (`aget` / `aset` / `adel`
  mirror property read, property write and `delete`, and `amerge` mirrors the
  spread-merge `\x7b...a, ...b\x7d`).
* `Model` instances become `ModelV`, `Query` instances become `QueryV`, and a
  `Repo` snapshot becomes `RepoV` (five tables, exactly as in the source).
* Code that can throw (`throw new Error(...)`, `TypeError`s raised by
  dereferencing `undefined`, validation failures) is modelled in
  `Except JsErr`.
* Relation slots on models hold entity keys rather than object references;
  queries likewise hold rows of entity keys.  Dereferencing a key through the
  model table corresponds to following the object reference in JS.
* The two worklist loops of `Repo#upsert` are driven by an explicit fuel
  parameter (the loops terminate in JS; the fuel is chosen generously and a
  run that exhausts it surfaces as the distinguished error `JsErr.stuck`).
-/

set_option autoImplicit false

namespace RepoSpec

/-- JS runtime values occurring in raw records, relation values and options. -/
inductive RVal where
  | num (n : Int)
  | str (s : String)
  | bool (b : Bool)
  | vnull
  | obj (fields : List (String × RVal))
  | arr (items : List RVal)

/-- An insertion-ordered association list modelling a JS object. -/
abbrev AList (κ : Type) (α : Type) : Type := List (κ × α)

/-- Property read `m[k]` (JS objects have unique keys; we read the first hit). -/
def aget {κ α : Type} [DecidableEq κ] (m : AList κ α) (k : κ) : Option α :=
  match m with
  | [] => none
  | (k₀, v) :: rest => if k₀ = k then some v else aget rest k

/-- Property write `m[k] = v`: updates in place if present, else appends
(matching JS insertion-order semantics). -/
def aset {κ α : Type} [DecidableEq κ] (m : AList κ α) (k : κ) (v : α) : AList κ α :=
  match m with
  | [] => [(k, v)]
  | (k₀, v₀) :: rest => if k₀ = k then (k₀, v) :: rest else (k₀, v₀) :: aset rest k v

/-- Property deletion `delete m[k]`. -/
def adel {κ α : Type} [DecidableEq κ] (m : AList κ α) (k : κ) : AList κ α :=
  match m with
  | [] => []
  | (k₀, v₀) :: rest => if k₀ = k then rest else (k₀, v₀) :: adel rest k

/-- `k in m`. -/
def ahas {κ α : Type} [DecidableEq κ] (m : AList κ α) (k : κ) : Bool :=
  (aget m k).isSome

/-- Spread-merge of two JS objects. -/
def amerge {κ α : Type} [DecidableEq κ] (a b : AList κ α) : AList κ α :=
  b.foldl (fun m p => aset m p.1 p.2) a

/-- A raw record (`RawRecord` in the source): a JS object. -/
abbrev RawR : Type := AList String RVal

/-- Model lifecycle states (`ModelState` in `Model.ts`). -/
inductive ModelState where
  | new | fetching | updating | deleting | loaded | deleted
deriving DecidableEq, Repr

/-- Query lifecycle states (`QueryState` in `Query.ts`). -/
inductive QueryState where
  | new | getting | loaded | error
deriving DecidableEq, Repr

/-- Relation cardinality. -/
inductive Card where
  | many | one
deriving DecidableEq, Repr

/-- One entry of a static relation-descriptor table
(`ModelClass.relations[name]`). -/
structure RelationDef where
  card : Card
  target : String
  inverse : Option String
deriving DecidableEq, Repr

/-- The static environment: per-class relation descriptor tables plus the
externally supplied schema engine (`defaultRecord` and ajv validation are
black boxes per the spec, represented as functions). -/
structure Env where
  classes : AList String (AList String RelationDef)
  defaults : String → RawR
  validate : String → RawR → Bool

/-- `modelClass.relations` (missing classes have no relations). -/
def classRelations (env : Env) (cls : String) : AList String RelationDef :=
  (aget env.classes cls).getD []

/-- A relation slot held on a model (`Model#relations[name]`); `one none` is a
null / undefined slot.  Keys stand for the object references of the source. -/
inductive Slot where
  | one (k : Option String)
  | many (ks : List String)
deriving DecidableEq, Repr

/-- The embedded `Model` instance. -/
structure ModelV where
  cls : String
  state : ModelState
  record : RawR
  errors : AList String String
  dirty : AList String Bool
  dirtyRelations : AList String Bool
  relations : AList String Slot

/-- Errors thrown by the embedded code: the four explicit `throw`s of the
source, validation failures raised by the `Model` constructor, `TypeError`s
from dereferencing `undefined`, and `stuck` for fuel exhaustion (an embedding
artifact: the JS loops always terminate). -/
inductive JsErr where
  | missingId (cls : String)
  | notArray (cls rel : String)
  | unloadable (cls rel : String)
  | validation (cls : String)
  | typeError
  | stuck
deriving DecidableEq, Repr

/-- Decimal digits of a natural number (fuel-driven; the fuel `n + 1` always
suffices). -/
def natDigits : Nat → Nat → List Char
  | 0, _ => []
  | fuel + 1, n =>
    if n < 10 then [Char.ofNat (48 + n)]
    else natDigits fuel (n / 10) ++ [Char.ofNat (48 + n % 10)]

/-- Decimal string of a natural number. -/
def natToStr (n : Nat) : String :=
  String.mk (natDigits (n + 1) n)

/-- Decimal string of an integer (JS number-to-string for integral values). -/
def intToStr : Int → String
  | .ofNat n => natToStr n
  | .negSucc m => "-" ++ natToStr (m + 1)

/-- String form of a JS value used in template keys (only numbers and strings
reach this in practice). -/
def rvalKeyStr : RVal → String
  | .num n => intToStr n
  | .str s => s
  | .bool b => if b then "true" else "false"
  | .vnull => "null"
  | .obj _ => "objectObject"
  | .arr _ => "array"

/-- Entity key (`Type|id`). -/
def mkKey (cls : String) (idv : RVal) : String :=
  cls ++ "|" ++ rvalKeyStr idv

/-- `defaultRelations` of the `Model` constructor. -/
def defaultRelations (env : Env) (cls : String) : AList String Slot :=
  (classRelations env cls).map fun p =>
    (p.1, match p.2.card with | .many => Slot.many [] | .one => Slot.one none)

/-- The `Model` constructor: merges schema defaults into the record and
validates unless validation is suppressed. -/
def mkModel (env : Env) (cls : String) (state : ModelState) (record : RawR)
    (errors : AList String String) (dirty dirtyRelations : AList String Bool)
    (relations : Option (AList String Slot)) (validate : Bool) :
    Except JsErr ModelV :=
  let merged := amerge (env.defaults cls) record
  if validate && !(env.validate cls merged) then
    .error (.validation cls)
  else
    .ok { cls := cls, state := state, record := merged, errors := errors,
          dirty := dirty, dirtyRelations := dirtyRelations,
          relations := relations.getD (defaultRelations env cls) }

/-- `Model#update`.  At every call site of the source the `record` argument is
either omitted or a freshly spread object, so the reference inequality
`record !== this.record` always holds and validation runs exactly when the
dirty map is empty. -/
def modelUpdate (env : Env) (m : ModelV) (state : Option ModelState)
    (record : Option RawR) (errors : Option (AList String String))
    (dirty dirtyRelations : Option (AList String Bool))
    (relations : Option (AList String Slot)) : Except JsErr ModelV :=
  let dirty := dirty.getD m.dirty
  mkModel env m.cls (state.getD m.state) (record.getD m.record)
    (errors.getD m.errors) dirty (dirtyRelations.getD m.dirtyRelations)
    (some (relations.getD m.relations)) (dirty.isEmpty)

/-- `Model#set`: shallow-merges the patch and marks every touched attribute
dirty. -/
def modelSet (env : Env) (m : ModelV) (patch : RawR) : Except JsErr ModelV :=
  let dirtyPatch : AList String Bool := patch.map fun p => (p.1, true)
  modelUpdate env m none (some (amerge m.record patch)) none
    (some (amerge m.dirty dirtyPatch)) none none

/-- `Model#setRelated`: replaces one relation slot and marks it dirty. -/
def modelSetRelated (env : Env) (m : ModelV) (relation : String) (value : Slot) :
    Except JsErr ModelV :=
  modelUpdate env m none none none none
    (some (amerge m.dirtyRelations [(relation, true)]))
    (some (aset m.relations relation value))

/-- `Model#id` (the raw `id` attribute; models always carry one). -/
def modelId (m : ModelV) : RVal :=
  (aget m.record "id").getD .vnull

/-- `Model#key`. -/
def modelKeyOf (m : ModelV) : String :=
  mkKey m.cls (modelId m)

/-- The embedded `Query` instance.  Rows (`models`) hold entity keys; `none`
is a sparse hole (or a JS `undefined` row). -/
structure QueryV where
  cls : String
  state : QueryState
  options : RawR
  error : Option String
  pageSize : Option Nat
  models : List (Option String)
  pendingPages : AList Nat Bool

/-- `Query#update` (from `Query.ts`): note that the source passes neither
`pageSize` nor a fresh `options` guard, so the derived query always has an
undefined `pageSize`, `state || this.state` keeps the old state only for an
absent argument (states are non-empty strings, hence truthy), and
`error || this.error` cannot clear an error with the empty string. -/
def queryUpdate (q : QueryV) (state : Option QueryState)
    (models : Option (List (Option String)))
    (pendingPages : Option (AList Nat Bool)) (error : Option String) : QueryV :=
  { cls := q.cls
    options := q.options
    state := state.getD q.state
    models := models.getD q.models
    pendingPages := pendingPages.getD q.pendingPages
    error := match error with
      | some e => if e = "" then q.error else some e
      | none => q.error
    pageSize := none }

/-- JS `array.length = n`: truncates, or extends with holes. -/
def setLength {α : Type} (l : List (Option α)) (n : Nat) : List (Option α) :=
  if n ≤ l.length then l.take n else l ++ List.replicate (n - l.length) none

/-- JS `Array.prototype.splice(start, deleteCount, ...items)` (clamping
`start` and `deleteCount` exactly as the runtime does). -/
def jsSplice {α : Type} (l : List α) (start delCount : Nat) (items : List α) :
    List α :=
  l.take (min start l.length) ++ items ++
    l.drop (min start l.length + min delCount (l.length - min start l.length))

/-- Order-independent content digest of an options value (the `object-hash`
dependency): object fields are serialized recursively and sorted, so two
options objects with the same key/value pairs in different insertion order
hash identically. -/
def charsLe : List Char → List Char → Bool
  | [], _ => true
  | _ :: _, [] => false
  | a :: as, b :: bs => if a = b then charsLe as bs else Nat.ble a.toNat b.toNat

/-- A total Boolean order on strings used to make the digest
insertion-order-independent. -/
def strLeB (a b : String) : Bool :=
  charsLe a.toList b.toList

/-- Insertion into a sorted list of strings. -/
def insSorted (s : String) : List String → List String
  | [] => [s]
  | t :: rest => if strLeB s t then s :: t :: rest else t :: insSorted s rest

/-- Sort a list of strings. -/
def sortStrings (l : List String) : List String :=
  l.foldr insSorted []

/-- Comma-join. -/
def joinComma : List String → String
  | [] => ""
  | [s] => s
  | s :: rest => s ++ "," ++ joinComma rest

def canonRVal : RVal → String
  | .num n => "n" ++ intToStr n
  | .str s => "s(" ++ s ++ ")"
  | .bool b => "b" ++ (if b then "t" else "f")
  | .vnull => "z"
  | .obj fs => "o(" ++ joinComma (sortStrings (canonFields fs)) ++ ")"
  | .arr xs => "a(" ++ joinComma (canonItems xs) ++ ")"
where
  canonFields : List (String × RVal) → List String
    | [] => []
    | (k, v) :: rest => (k ++ ":" ++ canonRVal v) :: canonFields rest
  canonItems : List RVal → List String
    | [] => []
    | v :: rest => canonRVal v :: canonItems rest

/-- `hash(options)` for an options object. -/
def optionsHash (options : RawR) : String :=
  canonRVal (.obj options)

/-- Query key `Type|hash(options)`. -/
def mkQueryId (cls : String) (options : RawR) : String :=
  cls ++ "|" ++ optionsHash options

/-- A value of the relation table (`string[] | string | null`). -/
inductive RelVal where
  | arr (ks : List String)
  | key (k : String)
  | null
deriving DecidableEq, Repr

/-- JS truthiness of a relation-table read: `undefined` and `null` are falsy,
arrays are truthy (even when empty), strings are truthy unless empty. -/
def relTruthy : Option RelVal → Bool
  | none => false
  | some .null => false
  | some (.key s) => !(s = "")
  | some (.arr _) => true

/-- `for (x of value)`: iterating an array yields its elements, iterating a
string yields its characters (this is what the source does when it iterates a
to-one relation value in the stale-inverse clearing loop). -/
def iterOf : RelVal → List String
  | .arr ks => ks
  | .key s => s.toList.map fun c => String.mk [c]
  | .null => []

/-- The embedded `Repo` snapshot: entity table, relation table, query table,
and the two reverse indexes. -/
structure RepoV where
  modelMap : AList String ModelV
  relationMap : AList String RelVal
  queryMap : AList String QueryV
  relationIndex : AList String (AList String Bool)
  queryIndex : AList String (AList String Bool)

/-- `new Repo()`. -/
def emptyRepo : RepoV :=
  { modelMap := [], relationMap := [], queryMap := [],
    relationIndex := [], queryIndex := [] }

/-- `Repo#getModel`. -/
def getModel (repo : RepoV) (cls : String) (idv : RVal) : Option ModelV :=
  aget repo.modelMap (mkKey cls idv)

/-- `Repo#getQuery`. -/
def getQuery (repo : RepoV) (cls : String) (options : RawR) : Option QueryV :=
  aget repo.queryMap (mkQueryId cls options)

/-- `isLoadable` from `Repo.ts`, embedded with its exact check: the third
conjunct is `typeof x.id === 'number' || typeof x === 'string'`, and since the
first conjunct already forces `typeof x === 'object'`, only numeric ids pass. -/
def isLoadable : RVal → Bool
  | .obj fs =>
    match aget fs "id" with
    | some (.num _) => true
    | _ => false
  | _ => false

/-- `isLoadable` applied to an arbitrary JS value: `'id' in null` throws a
`TypeError` at runtime. -/
def isLoadableE : RVal → Except JsErr Bool
  | .vnull => .error .typeError
  | v => .ok (isLoadable v)

/-- Char-list prefix test. -/
def charsPrefix : List Char → List Char → Bool
  | [], _ => true
  | _ :: _, [] => false
  | a :: as, b :: bs => a = b && charsPrefix as bs

/-- Char-list substring test. -/
def charsIncl (p : List Char) : List Char → Bool
  | [] => p.isEmpty
  | c :: t => charsPrefix p (c :: t) || charsIncl p t

/-- JS `String.prototype.includes` (substring containment). -/
def strIncludes (s pat : String) : Bool :=
  charsIncl pat.toList s.toList

/-- A work-queue item of `Repo#upsert`. -/
structure QItem where
  cls : String
  record : RawR

/-- The mutable working state of one `Repo#upsert` call. -/
structure UpSt where
  modelMap : AList String ModelV
  relationMap : AList String RelVal
  relationIndex : AList String (AList String Bool)
  queryMap : AList String QueryV
  dirty : AList String Bool

/-- One iteration of the stale-inverse clearing loop of `Repo#upsert`
(the body of `for (const relatedKey of relationMap[relationKey])`). -/
def clearStaleTarget (relationKey modelKey inverseName : String) (invCard : Card)
    (st : UpSt) (relatedKey : String) : Except JsErr UpSt :=
  let invKey := relatedKey ++ "|" ++ inverseName
  if !(relTruthy (aget st.relationMap invKey)) then .ok st
  else do
    let bucket ← match aget st.relationIndex relatedKey with
      | some b => Except.ok b
      | none => Except.error JsErr.typeError
    let ri := aset st.relationIndex relatedKey (adel bucket relationKey)
    let rm ← match invCard, aget st.relationMap invKey with
      | Card.many, some (RelVal.arr ks) =>
          Except.ok (aset st.relationMap invKey
            (RelVal.arr (ks.filter fun k => !(k = modelKey))))
      | Card.many, _ => Except.error JsErr.typeError
      | Card.one, _ => Except.ok (aset st.relationMap invKey RelVal.null)
    Except.ok { st with relationIndex := ri, relationMap := rm }

/-- Installing the inverse edge for one related key: record the inverse edge in
the source entity's reverse-index bucket, then append to (without duplicating)
or overwrite the inverse relation value. -/
def installInverse (modelKey inverseName : String) (invCard : Card)
    (st : UpSt) (relatedKey : String) : Except JsErr UpSt := do
  let invKey := relatedKey ++ "|" ++ inverseName
  let bucket := (aget st.relationIndex modelKey).getD []
  let st : UpSt :=
    { st with relationIndex := aset st.relationIndex modelKey (aset bucket invKey true) }
  match invCard with
  | Card.many =>
    let v := match aget st.relationMap invKey with
      | none => RelVal.arr []
      | some RelVal.null => RelVal.arr []
      | some w => w
    match v with
    | RelVal.arr ks =>
        let ks := if modelKey ∈ ks then ks else ks ++ [modelKey]
        Except.ok { st with relationMap := aset st.relationMap invKey (RelVal.arr ks) }
    | RelVal.key s =>
        if strIncludes s modelKey then
          Except.ok { st with relationMap := aset st.relationMap invKey (RelVal.key s) }
        else Except.error JsErr.typeError
    | RelVal.null => Except.ok st
  | Card.one =>
    Except.ok { st with relationMap := aset st.relationMap invKey (RelVal.key modelKey) }

/-- Processing one relation value present on a queued record: stale-inverse
clearing, resolution of each related value into a key plus a queued record,
inverse installation, and the forward relation-table write.  Returns the new
state and the records pushed onto the work queue. -/
def processOneRelation (env : Env) (modelKey cls relName : String)
    (rd : RelationDef) (related : RVal) (st : UpSt) :
    Except JsErr (UpSt × List QItem) := do
  let relationKey := modelKey ++ "|" ++ relName
  let invName : Option String := match rd.inverse with
    | some inv => if inv = "" then none else some inv
    | none => none
  let inverseRelation := invName.bind fun inv => aget (classRelations env rd.target) inv
  let st ← match inverseRelation with
    | none => Except.ok st
    | some invRel =>
      match aget st.relationMap relationKey with
      | some v =>
        if relTruthy (some v) then
          (iterOf v).foldlM
            (clearStaleTarget relationKey modelKey (invName.getD "") invRel.card) st
        else Except.ok st
      | none => Except.ok st
  match rd.card with
  | Card.many => do
    let items ← match related with
      | RVal.arr xs => Except.ok xs
      | _ => Except.error (JsErr.notArray cls relName)
    let res ← items.foldlM
      (fun (acc : UpSt × List String × List QItem) r => do
        let (st, rks, ps) := acc
        let loadable ← isLoadableE r
        let (relatedKey, relatedRecord) ←
          if loadable then
            match r with
            | RVal.obj fs =>
                Except.ok (mkKey rd.target ((aget fs "id").getD RVal.vnull), fs)
            | _ => Except.error JsErr.typeError
          else
            match r with
            | RVal.num n => Except.ok (mkKey rd.target (RVal.num n), [("id", RVal.num n)])
            | RVal.str s => Except.ok (mkKey rd.target (RVal.str s), [("id", RVal.str s)])
            | _ => Except.error (JsErr.unloadable cls relName)
        let st ← match inverseRelation with
          | some invRel => installInverse modelKey (invName.getD "") invRel.card st relatedKey
          | none => Except.ok st
        let bucket := (aget st.relationIndex relatedKey).getD []
        let ri := aset st.relationIndex relatedKey (aset bucket relationKey true)
        let st : UpSt := { st with relationIndex := ri }
        Except.ok (st, relatedKey :: rks, ({ cls := rd.target, record := relatedRecord } : QItem) :: ps))
      (st, ([] : List String), ([] : List QItem))
    let (st, rksRev, psRev) := res
    let rm := aset st.relationMap relationKey (RelVal.arr rksRev.reverse)
    let st : UpSt := { st with relationMap := rm }
    Except.ok (st, psRev.reverse)
  | Card.one => do
    let (relatedKeyOpt, relatedRecOpt) :=
      match related with
      | RVal.vnull => (none, none)
      | RVal.obj fs =>
        if isLoadable (RVal.obj fs) then
          (some (mkKey rd.target ((aget fs "id").getD RVal.vnull)), some fs)
        else (none, none)
      | RVal.str s => (some (mkKey rd.target (RVal.str s)), some [("id", RVal.str s)])
      | RVal.num n => (some (mkKey rd.target (RVal.num n)), some [("id", RVal.num n)])
      | _ => ((none : Option String), (none : Option RawR))
    let fwd := match relatedKeyOpt with | some k => RelVal.key k | none => RelVal.null
    let st : UpSt := { st with relationMap := aset st.relationMap relationKey fwd }
    match relatedRecOpt with
    | none => Except.ok (st, [])
    | some rrec => do
      let relatedKey := relatedKeyOpt.getD ""
      let st ← match inverseRelation with
        | some invRel => installInverse modelKey (invName.getD "") invRel.card st relatedKey
        | none => Except.ok st
      let bucket := (aget st.relationIndex relatedKey).getD []
      let ri := aset st.relationIndex relatedKey (aset bucket relationKey true)
      let st : UpSt := { st with relationIndex := ri }
      Except.ok (st, [({ cls := rd.target, record := rrec } : QItem)])

/-- Processing one queued `(modelClass, record)` item of Phase A: reject
records without a (numeric) identifier, split out every declared relation
present on the record, then merge the relation-free record into the entity
table and stage the key as touched. -/
def processItem (env : Env) (state : ModelState) (errors : AList String String)
    (item : QItem) (st : UpSt) : Except JsErr (UpSt × List QItem) := do
  if !(isLoadable (RVal.obj item.record)) then
    Except.error (JsErr.missingId item.cls)
  else do
    let modelKey := mkKey item.cls ((aget item.record "id").getD RVal.vnull)
    let res ← (classRelations env item.cls).foldlM
      (fun (acc : UpSt × RawR × List QItem) p => do
        let (st, record, pushed) := acc
        if !(ahas record p.1) then Except.ok (st, record, pushed)
        else do
          let related := (aget record p.1).getD RVal.vnull
          let record := adel record p.1
          let (st, ps) ← processOneRelation env modelKey item.cls p.1 p.2 related st
          Except.ok (st, record, pushed ++ ps))
      (st, item.record, ([] : List QItem))
    let (st, record, pushed) := res
    let m ← match aget st.modelMap modelKey with
      | some m0 =>
          modelUpdate env m0 (some state) (some (amerge m0.record record))
            (some errors) none none none
      | none => mkModel env item.cls state record errors [] [] none true
    let mm := aset st.modelMap modelKey m
    let dk := aset st.dirty modelKey true
    let st : UpSt := { st with modelMap := mm, dirty := dk }
    Except.ok (st, pushed)

/-- The Phase A work-queue loop (`while ((item = recordQueue.shift()))`). -/
def runQueue (env : Env) (state : ModelState) (errors : AList String String) :
    Nat → List QItem → UpSt → Except JsErr UpSt
  | _, [], st => Except.ok st
  | 0, _ :: _, _ => Except.error JsErr.stuck
  | fuel + 1, item :: rest, st => do
    let res ← processItem env state errors item st
    runQueue env state errors fuel (rest ++ res.2) res.1

/-- `s.split('|')` on a char list. -/
def splitPipeAux : List Char → List Char → List String
  | [], acc => [String.mk acc.reverse]
  | c :: rest, acc =>
    if c = '|' then String.mk acc.reverse :: splitPipeAux rest []
    else splitPipeAux rest (c :: acc)

/-- JS `s.split('|')`. -/
def splitPipe (s : String) : List String :=
  splitPipeAux s.toList []

/-- `parts.join('|')`. -/
def joinPipe : List String → String
  | [] => ""
  | [s] => s
  | s :: rest => s ++ "|" ++ joinPipe rest

/-- `relationKey.split('|').slice(0, 2).join('|')`: the entity key owning a
relation key. -/
def keyOfRelationKey (rk : String) : String :=
  joinPipe ((splitPipe rk).take 2)

/-- The id part of an entity key (everything after the first separator). -/
def keyIdStr (k : String) : String :=
  joinPipe ((splitPipe k).drop 1)

/-- Parse a decimal integer (the inverse of the id stringification used in
entity keys). -/
def parseIntDec (s : String) : Option Int :=
  let digits : List Char → Option Nat := fun cs =>
    cs.foldl (fun acc c =>
      match acc with
      | none => none
      | some n =>
        if 48 ≤ c.toNat && c.toNat ≤ 57 then some (n * 10 + (c.toNat - 48)) else none)
      (some 0)
  match s.toList with
  | [] => none
  | '-' :: rest => if rest.isEmpty then none else (digits rest).map fun n => -(n : Int)
  | cs => (digits cs).map fun n => (n : Int)

/-- The id part of an entity key, read back as the JS value `model.id`
(entity keys are built from numeric ids, so this round-trips). -/
def keyIdRVal (k : String) : RVal :=
  match parseIntDec (keyIdStr k) with
  | some n => RVal.num n
  | none => RVal.str (keyIdStr k)

/-- The entity keys named by one reverse-index bucket. -/
def riEdges (ri : AList String (AList String Bool)) (k : String) : List String :=
  ((aget ri k).getD []).map fun p => keyOfRelationKey p.1

/-- Termination potential for the Phase B walk: `vW ri d S x` bounds the
number of queue dequeues attributable to an entry for `x` while the keys in
`S` are still unvisited, for any depth budget `d ≥ S.length`.  (An embedding
device: the JS loop terminates because every dequeue marks its key and only
unmarked keys are enqueued.) -/
def vW (ri : AList String (AList String Bool)) : Nat → List String → String → Nat
  | 0, _, _ => 1
  | d + 1, U, x =>
    1 + ((riEdges ri x).filter fun z => z ∈ U).foldl
      (fun n z => n + vW ri d (U.erase z) z) 0

/-- All entity keys reachable through the reverse index. -/
def riUniverse (ri : AList String (AList String Bool)) : List String :=
  ((ri.map Prod.fst) ++ ri.foldl
    (fun (acc : List String) (p : String × AList String Bool) =>
      acc ++ p.2.map fun q => keyOfRelationKey q.1) []).dedup

/-- Fuel bound for the Phase B walk, derived from the termination potential. -/
def walkFuelBound (ri : AList String (AList String Bool))
    (dirty : AList String Bool) (dq : List String) : Nat :=
  let S0 := (riUniverse ri).filter fun k => !(ahas dirty k)
  (dq.foldl (fun n k => n + vW ri S0.length (S0.erase k) k) 0) + dq.length + 1

/-- The Phase B propagation loop: walk outward through the reverse index from
every touched key; every neighbour not yet marked dirty is re-derived with an
empty patch and enqueued.  (As in the source, a key is marked only when it is
dequeued, so a key can be enqueued — and re-derived — more than once.) -/
def walkQueue (env : Env) (ri : AList String (AList String Bool)) :
    Nat → List String → AList String Bool → AList String ModelV →
    Except JsErr (AList String Bool × AList String ModelV)
  | _, [], dirty, mm => Except.ok (dirty, mm)
  | 0, _ :: _, _, _ => Except.error JsErr.stuck
  | fuel + 1, k :: rest, dirty, mm => do
    let dirty := aset dirty k true
    let res ← ((aget ri k).getD []).foldlM
      (fun (acc : List String × AList String Bool × AList String ModelV) p => do
        let (qa, dirty, mm) := acc
        let relatedModelKey := keyOfRelationKey p.1
        if ahas dirty relatedModelKey then Except.ok (qa, dirty, mm)
        else do
          let m ← match aget mm relatedModelKey with
            | some m => Except.ok m
            | none => Except.error JsErr.typeError
          let mUpd ← modelUpdate env m none none none none none none
          Except.ok (qa ++ [relatedModelKey], dirty, aset mm relatedModelKey mUpd))
      (([] : List String), dirty, mm)
    let (qa, dirty, mm) := res
    walkQueue env ri fuel (rest ++ qa) dirty mm

/-- Re-resolving one relation slot from a relation-table value
(`(value as string[]).map(...)` / `value ? modelMap[value] : null`). -/
def resolveSlot (card : Card) (v : RelVal) : Except JsErr Slot :=
  match card, v with
  | Card.many, RelVal.arr ks => Except.ok (Slot.many ks)
  | Card.many, _ => Except.error JsErr.typeError
  | Card.one, RelVal.key s => Except.ok (Slot.one (some s))
  | Card.one, RelVal.null => Except.ok (Slot.one none)
  | Card.one, RelVal.arr _ => Except.ok (Slot.one none)

/-- The body of the final loop of `Repo#upsert` for one touched key: re-resolve
every declared relation slot present in the relation table, then rewrite the
matching rows (positional match by identifier) of every query listed for this
key in the pre-call query index. -/
def finalizeOne (env : Env) (rm : AList String RelVal)
    (qIdx0 : AList String (AList String Bool))
    (acc : AList String ModelV × AList String QueryV) (modelKey : String) :
    Except JsErr (AList String ModelV × AList String QueryV) := do
  let (mm, qm) := acc
  let m ← match aget mm modelKey with
    | some m => Except.ok m
    | none => Except.error JsErr.typeError
  let rels ← (classRelations env m.cls).foldlM
    (fun (slots : AList String Slot) p => do
      match aget rm (modelKey ++ "|" ++ p.1) with
      | none => Except.ok slots
      | some v => do
        let s ← resolveSlot p.2.card v
        Except.ok (aset slots p.1 s))
    m.relations
  let m : ModelV := { m with relations := rels }
  let mm := aset mm modelKey m
  let idStr := keyIdStr modelKey
  let qm ← ((aget qIdx0 modelKey).getD []).foldlM
    (fun (qm : AList String QueryV) p => do
      let q ← match aget qm p.1 with
        | some q => Except.ok q
        | none => Except.error JsErr.typeError
      let rows := q.models.map fun row =>
        match row with
        | some rk => if keyIdStr rk = idStr then some modelKey else some rk
        | none => none
      Except.ok (aset qm p.1 (queryUpdate q none (some rows) none none)))
    qm
  Except.ok (mm, qm)

/-- Fuel weight of one JS value for the Phase A queue (an embedding device:
the queue of the source shrinks because pushed records come from inside the
processed record). -/
def rvalFuel : RVal → Nat
  | .num _ => 3
  | .str _ => 3
  | .bool _ => 3
  | .vnull => 3
  | .obj fs => 2 + fieldsFuel fs
  | .arr xs => 1 + itemsFuel xs
where
  fieldsFuel : List (String × RVal) → Nat
    | [] => 0
    | (_, v) :: t => 1 + rvalFuel v + fieldsFuel t
  itemsFuel : List RVal → Nat
    | [] => 0
    | v :: t => 1 + rvalFuel v + itemsFuel t

/-- Fuel weight of one record. -/
def recordFuel (r : RawR) : Nat :=
  1 + rvalFuel.fieldsFuel r

/-- `Repo#upsert` together with its touched-key trace: the result snapshot,
the keys staged by Phase A (the keys named by the ingested records), and the
full dirty set after the Phase B reverse-index walk. -/
def upsertTrace (env : Env) (repo : RepoV) (cls : String) (records : List RawR)
    (state : ModelState) (errors : AList String String) :
    Except JsErr (RepoV × AList String Bool × AList String Bool) := do
  let queue := records.map fun r => ({ cls := cls, record := r } : QItem)
  let fuelA := 1 + 4 * records.foldl (fun n r => n + recordFuel r) 0
  let st0 : UpSt := { modelMap := repo.modelMap, relationMap := repo.relationMap,
                      relationIndex := repo.relationIndex,
                      queryMap := repo.queryMap, dirty := [] }
  let st ← runQueue env state errors fuelA queue st0
  let dq := st.dirty.map Prod.fst
  let fuelB := walkFuelBound st.relationIndex st.dirty dq
  let res ← walkQueue env st.relationIndex fuelB dq st.dirty st.modelMap
  let (dirty, mm) := res
  let fin ← (dirty.map Prod.fst).foldlM
    (finalizeOne env st.relationMap repo.queryIndex) (mm, st.queryMap)
  Except.ok ({ modelMap := fin.1, relationMap := st.relationMap, queryMap := fin.2,
               relationIndex := st.relationIndex, queryIndex := repo.queryIndex },
             st.dirty, dirty)

/-- `Repo#upsert`: Phase A (decompose and stage), Phase B (propagate through
the reverse index), then the final loop (re-resolve relation slots and rewrite
query rows).  The query index is not modified by upsert. -/
def upsert (env : Env) (repo : RepoV) (cls : String) (records : List RawR)
    (state : ModelState) (errors : AList String String) : Except JsErr RepoV :=
  (upsertTrace env repo cls records state errors).map fun t => t.1

/-- `Repo#upsertQuery`: ingest the supplied records (if any), then create or
derive the Query Result keyed by `(type, hash(options))`, splicing a paged
batch in at `page * pageSize` over a row sequence held at length `count`, and
update `pendingPages` and the query index. -/
def upsertQuery (env : Env) (repo : RepoV) (cls : String) (options : RawR)
    (records : Option (List RawR)) (state : QueryState) (page : Nat)
    (paging : Option (Nat × Nat)) (error : Option String) :
    Except JsErr RepoV := do
  let res ← match records with
    | some recs => do
        let r ← upsert env repo cls recs ModelState.loaded []
        Except.ok (r, some (recs.map fun rec => mkKey cls ((aget rec "id").getD RVal.vnull)))
    | none => Except.ok (repo, (none : Option (List String)))
  let (repo, loadedKeys) := res
  let queryId := mkQueryId cls options
  let query : QueryV :=
    match aget repo.queryMap queryId with
    | none =>
      let models :=
        match loadedKeys, paging with
        | some lks, some pg =>
            jsSplice (setLength ([] : List (Option String)) pg.2) (page * pg.1)
              lks.length (lks.map some)
        | some lks, none => lks.map some
        | none, _ => []
      { cls := cls, state := state, options := options, error := error,
        pageSize := paging.map Prod.fst, models := models,
        pendingPages := if state = QueryState.getting then [(page, true)] else [] }
    | some q =>
      let models : Option (List (Option String)) :=
        match loadedKeys, paging with
        | some lks, some pg =>
            some (jsSplice (setLength q.models pg.2) (page * pg.1) lks.length (lks.map some))
        | some lks, none => some (lks.map some)
        | none, _ => none
      let pendingPages :=
        if state = QueryState.getting then aset q.pendingPages page true
        else adel q.pendingPages page
      queryUpdate q (some state) models (some pendingPages) error
  let qm := aset repo.queryMap queryId query
  let qIdx := (loadedKeys.getD []).foldl
    (fun (idx : AList String (AList String Bool)) k =>
      aset idx k (aset ((aget idx k).getD []) queryId true))
    repo.queryIndex
  Except.ok { modelMap := repo.modelMap, relationMap := repo.relationMap,
              relationIndex := repo.relationIndex, queryMap := qm, queryIndex := qIdx }

/-- `Repo#expunge`: rewrite every relation edge pointing into the entity (via
its reverse-index bucket) by re-running ingestion with a synthetic patch, then
delete the entity, its outgoing edges and its query-index bucket, and splice
the entity out of every Query Result that lists it.  No-op when the key is
absent.  (As in the source, the relation-index bucket itself is not deleted.) -/
def expunge (env : Env) (repo : RepoV) (cls : String) (idv : RVal) :
    Except JsErr RepoV := do
  let modelKey := mkKey cls idv
  match aget repo.modelMap modelKey with
  | none => Except.ok repo
  | some model => do
    let repo ← ((aget repo.relationIndex modelKey).getD []).foldlM
      (fun (repo : RepoV) (p : String × Bool) => do
        let parts := splitPipe p.1
        let relatedModelKey := joinPipe (parts.take 2)
        let relationName := (parts.drop 2).headD ""
        let relatedModel ← match aget repo.modelMap relatedModelKey with
          | some m => Except.ok m
          | none => Except.error JsErr.typeError
        let relation ← match aget (classRelations env relatedModel.cls) relationName with
          | some rd => Except.ok rd
          | none => Except.error JsErr.typeError
        match relation.card with
        | Card.many => do
          let ks ← match aget relatedModel.relations relationName with
            | some (Slot.many ks) => Except.ok ks
            | _ => Except.error JsErr.typeError
          let ids := (ks.filter fun k => !(keyIdStr k = rvalKeyStr idv)).map keyIdRVal
          upsert env repo relatedModel.cls
            [[("id", modelId relatedModel), (relationName, RVal.arr ids)]]
            ModelState.loaded []
        | Card.one =>
          upsert env repo relatedModel.cls
            [[("id", modelId relatedModel), (relationName, RVal.vnull)]]
            ModelState.loaded [])
      repo
    let mm := adel repo.modelMap modelKey
    let rm := model.relations.foldl
      (fun (rm : AList String RelVal) p => adel rm (modelKey ++ "|" ++ p.1))
      repo.relationMap
    let qm ← ((aget repo.queryIndex modelKey).getD []).foldlM
      (fun (qm : AList String QueryV) (p : String × Bool) =>
        match aget qm p.1 with
        | none => Except.ok qm
        | some q =>
          let idx := q.models.findIdx? fun row =>
            match row with
            | some rk => keyIdStr rk = rvalKeyStr idv
            | none => false
          match idx with
          | some i =>
              Except.ok (aset qm p.1 (queryUpdate q none (some (jsSplice q.models i 1 [])) none none))
          | none => Except.ok qm)
      repo.queryMap
    let qIdx := adel repo.queryIndex modelKey
    Except.ok { modelMap := mm, relationMap := rm, queryMap := qm,
                relationIndex := repo.relationIndex, queryIndex := qIdx }

/-- `Repo#expungeQuery`: delete the Query Result and then expunge every entity
it referenced (a cascading delete). -/
def expungeQuery (env : Env) (repo : RepoV) (cls : String) (options : RawR) :
    Except JsErr RepoV := do
  let query := getQuery repo cls options
  let repo : RepoV := { repo with queryMap := adel repo.queryMap (mkQueryId cls options) }
  match query with
  | none => Except.ok repo
  | some q =>
    q.models.foldlM
      (fun (repo : RepoV) row =>
        match row with
        | none => Except.ok repo
        | some rk => expunge env repo cls (keyIdRVal rk))
      repo

/-- The tagged outcome of one resolved Mapper call (`MapperResult`). -/
inductive MapperResult where
  | fetchSuccess (cls : String) (record : RawR)
  | fetchError (cls : String) (idv : RVal) (error : String)
  | querySuccess (cls : String) (options : RawR) (records : List RawR)
      (paging : Option (Nat × Nat × Nat))
  | queryError (cls : String) (options : RawR) (error : String)
  | createSuccess (cls : String) (record : RawR)
  | createError (model : ModelV)
  | updateSuccess (cls : String) (record : RawR)
  | updateError (model : ModelV)
  | deleteSuccess (cls : String) (idv : RVal)
  | deleteError (model : ModelV)

/-- `Repo#processMapperResult`: fold one outcome back into the store.  Success
outcomes ingest or remove; error outcomes attach errors without discarding
data; `create:error` returns the snapshot unchanged. -/
def processMapperResult (env : Env) (repo : RepoV) :
    MapperResult → Except JsErr RepoV
  | .fetchSuccess cls record =>
      upsert env repo cls [record] ModelState.loaded []
  | .fetchError cls idv err =>
      upsert env repo cls [[("id", idv)]] ModelState.loaded [("base", err)]
  | .querySuccess cls options records paging =>
      upsertQuery env repo cls options (some records) QueryState.loaded
        ((paging.map fun p => p.1).getD 0)
        (paging.map fun p => (p.2.1, p.2.2)) none
  | .queryError cls options err =>
      upsertQuery env repo cls options none QueryState.error 0 none (some err)
  | .createSuccess cls record =>
      upsert env repo cls [record] ModelState.loaded []
  | .updateSuccess cls record =>
      upsert env repo cls [record] ModelState.loaded []
  | .deleteSuccess cls idv => expunge env repo cls idv
  | .createError _ => Except.ok repo
  | .updateError m =>
      upsert env repo m.cls [m.record] ModelState.loaded m.errors
  | .deleteError m =>
      upsert env repo m.cls [m.record] ModelState.loaded m.errors

/-- The relation slot `rel` of the entity stored at key `k`. -/
def slotAt (repo : RepoV) (k rel : String) : Option Slot :=
  (aget repo.modelMap k).bind fun m => aget m.relations rel

/-- The record of the entity stored at key `k`. -/
def recordAt (repo : RepoV) (k : String) : Option RawR :=
  (aget repo.modelMap k).map fun m => m.record

/-- An example environment with the `Post` / `Author` / `Comment` classes of
the repository's own tests: `Post.comments ↔ Comment.post`,
`Post.author ↔ Author.posts`, `Comment.author ↔ Author.comments`; no schema
defaults and a vacuous validator. -/
def exEnv : Env :=
  { classes :=
      [("Post", [("author", { card := .one, target := "Author", inverse := some "posts" }),
                 ("comments", { card := .many, target := "Comment", inverse := some "post" })]),
       ("Author", [("posts", { card := .many, target := "Post", inverse := some "author" }),
                   ("comments", { card := .many, target := "Comment", inverse := some "author" })]),
       ("Comment", [("author", { card := .one, target := "Author", inverse := some "comments" }),
                    ("post", { card := .one, target := "Post", inverse := some "posts" })])],
    defaults := fun _ => [],
    validate := fun _ _ => true }

/-- The store after ingesting `Post 1 → Author 9` and expunging the post: the
author is still present, but its reverse-index bucket still holds the
expunged post's outgoing relation key. -/
def c3Repo : Except JsErr RepoV := do
  let r1 ← upsert exEnv emptyRepo "Post" [[("id", RVal.num 1), ("author", RVal.num 9)]]
    ModelState.loaded []
  expunge exEnv r1 "Post" (RVal.num 1)

/-- Two posts ingested in one call both claiming comment 5, whose `post`
inverse slot is to-one. -/
def c1Repo : Except JsErr RepoV :=
  upsert exEnv emptyRepo "Post"
    [[("id", RVal.num 1), ("comments", RVal.arr [RVal.num 5])],
     [("id", RVal.num 2), ("comments", RVal.arr [RVal.num 5])]]
    ModelState.loaded []

/-- A paged `upsertQuery` whose paging metadata is inconsistent: three records
spliced in at page 1 of size 3 into a row sequence of declared count 4. -/
def c4Repo : Except JsErr RepoV :=
  upsertQuery exEnv emptyRepo "Author" []
    (some [[("id", RVal.num 7)], [("id", RVal.num 8)], [("id", RVal.num 9)]])
    QueryState.loaded 1 (some (3, 4)) none

/-- An environment whose external validator rejects any record carrying the
attribute "bad". -/
def valEnv : Env :=
  { classes := [("Post", [])], defaults := fun _ => [],
    validate := fun _ r => !(ahas r "bad") }

/-- A valid `Post` entity with no dirty attributes. -/
def c6Model : ModelV :=
  { cls := "Post", state := ModelState.loaded, record := [("id", RVal.num 1)],
    errors := [], dirty := [], dirtyRelations := [], relations := [] }

/-- The row sequence of the query stored at `qid` (empty when the query is
absent). -/
def queryRowsAt (repo : RepoV) (qid : String) : List (Option String) :=
  match aget repo.queryMap qid with
  | some q => q.models
  | none => []

/-- The entity references a batch of ingested records contributes to a Query
Result's row sequence. -/
def pageRefs (cls : String) (records : List RawR) : List (Option String) :=
  records.map fun r => some (mkKey cls ((aget r "id").getD RVal.vnull))

/-- The `upsertTrace` of the one-record ingest used to witness the paged
splice theorem. -/
def w4tr : RepoV × AList String Bool × AList String Bool :=
  (upsertTrace exEnv emptyRepo "Author" [[("id", RVal.num 7)]]
    ModelState.loaded []).toOption.getD ⟨emptyRepo, [], []⟩

/-- The store produced by the witnessing paged `upsertQuery` call: one record
spliced in at page 1 of size 2 into a fresh Query Result of count 5. -/
def w4repo : RepoV :=
  (upsertQuery exEnv emptyRepo "Author" [] (some [[("id", RVal.num 7)]])
    QueryState.loaded 1 (some (2, 5)) none).toOption.getD emptyRepo

/-- Base store for the preservation witness: one post linked to one author. -/
def w9repo : RepoV :=
  (upsert exEnv emptyRepo "Post" [[("id", RVal.num 1), ("author", RVal.num 9)]]
    ModelState.loaded []).toOption.getD emptyRepo

/-- The post entity stored in `w9repo`. -/
def w9post : ModelV :=
  (aget w9repo.modelMap "Post|1").getD
    { cls := "", state := ModelState.new, record := [], errors := [],
      dirty := [], dirtyRelations := [], relations := [] }

/-- The author entity stored in `w9repo`. -/
def w9author : ModelV :=
  (aget w9repo.modelMap "Author|9").getD
    { cls := "", state := ModelState.new, record := [], errors := [],
      dirty := [], dirtyRelations := [], relations := [] }

/-- The trace of ingesting a comment on the stored post into `w9repo`: the
author is re-derived by propagation only. -/
def w9tr : RepoV × AList String Bool × AList String Bool :=
  (upsertTrace exEnv w9repo "Comment" [[("id", RVal.num 5), ("post", RVal.num 1)]]
    ModelState.loaded []).toOption.getD ⟨emptyRepo, [], []⟩

/-- A one-entity store used to witness the fetch-error theorems: a loaded
`Post` with a non-id attribute and no relations ingested. -/
def w7repo : RepoV :=
  (upsert exEnv emptyRepo "Post"
    [[("id", RVal.num 1), ("title", RVal.str "t")]]
    ModelState.loaded []).toOption.getD emptyRepo

/-- The post entity stored in `w7repo`. -/
def w7post : ModelV :=
  (aget w7repo.modelMap "Post|1").getD
    { cls := "", state := ModelState.new, record := [], errors := [],
      dirty := [], dirtyRelations := [], relations := [] }

/-- A one-entity store holding a `Post` in lifecycle state `fetching`. -/
def w10repo : RepoV :=
  (upsert exEnv emptyRepo "Post" [[("id", RVal.num 3)]]
    ModelState.fetching []).toOption.getD emptyRepo

/-- The fetching post stored in `w10repo`. -/
def w10post : ModelV :=
  (aget w10repo.modelMap "Post|3").getD
    { cls := "", state := ModelState.new, record := [], errors := [],
      dirty := [], dirtyRelations := [], relations := [] }

/-- A two-entity store — a post and an author ingested by separate calls,
with no links — used to witness the inverse-installation theorem. -/
def w1repo : RepoV :=
  ((upsert exEnv emptyRepo "Post" [[("id", RVal.num 1)]]
    ModelState.loaded []).bind fun r =>
      upsert exEnv r "Author" [[("id", RVal.num 9)]]
        ModelState.loaded []).toOption.getD emptyRepo

/-- The post stored in `w1repo`. -/
def w1post : ModelV :=
  (aget w1repo.modelMap "Post|1").getD
    { cls := "", state := ModelState.new, record := [], errors := [],
      dirty := [], dirtyRelations := [], relations := [] }

/-- The author stored in `w1repo`. -/
def w1author : ModelV :=
  (aget w1repo.modelMap "Author|9").getD
    { cls := "", state := ModelState.new, record := [], errors := [],
      dirty := [], dirtyRelations := [], relations := [] }

/-! ### Basic lemmas about the JS-object operations -/

theorem aget_aset_self {κ α : Type} [DecidableEq κ] (m : AList κ α) (k : κ) (v : α) :
    aget (aset m k v) k = some v := by
  induction m with
  | nil => simp [aget, aset]
  | cons p rest ih =>
    by_cases h : p.1 = k
    · simp [aset, aget, h]
    · simp [aset, aget, h, ih]

theorem aget_aset_ne {κ α : Type} [DecidableEq κ] (m : AList κ α) {k k₂ : κ} (v : α)
    (h : k ≠ k₂) : aget (aset m k v) k₂ = aget m k₂ := by
  induction m with
  | nil => simp [aget, aset, h]
  | cons p rest ih =>
    by_cases hp : p.1 = k
    · simp [aset, aget, hp, h]
    · simp only [aset, if_neg hp]
      by_cases hp2 : p.1 = k₂
      · simp [aget, hp2]
      · simp [aget, hp2, ih]

theorem aset_ne_nil {κ α : Type} [DecidableEq κ] (m : AList κ α) (k : κ) (v : α) :
    aset m k v ≠ [] := by
  cases m with
  | nil => simp [aset]
  | cons p rest =>
    simp only [aset]
    split <;> simp

theorem amerge_ne_nil_left {κ α : Type} [DecidableEq κ] (a b : AList κ α) (ha : a ≠ []) :
    amerge a b ≠ [] := by
  induction b generalizing a with
  | nil => simpa [amerge] using ha
  | cons p t ih => exact ih (aset a p.1 p.2) (aset_ne_nil a p.1 p.2)

theorem amerge_ne_nil_right {κ α : Type} [DecidableEq κ] (a b : AList κ α) (hb : b ≠ []) :
    amerge a b ≠ [] := by
  cases b with
  | nil => exact absurd rfl hb
  | cons p t => exact amerge_ne_nil_left (aset a p.1 p.2) t (aset_ne_nil a p.1 p.2)

theorem aset_self {κ α : Type} [DecidableEq κ] (m : AList κ α) (k : κ) (v : α)
    (h : aget m k = some v) : aset m k v = m := by
  induction m with
  | nil => simp [aget] at h
  | cons p rest ih =>
    by_cases hp : p.1 = k
    · simp only [aget, if_pos hp] at h
      cases p
      simp_all [aset]
    · simp only [aget, if_neg hp] at h
      simp [aset, hp, ih h]

theorem except_bind_ok {ε α β : Type} (a : α) (f : α → Except ε β) :
    (Except.ok a >>= f) = f a := rfl

theorem except_bind_error {ε α β : Type} (e : ε) (f : α → Except ε β) :
    ((Except.error e : Except ε α) >>= f) = Except.error e := rfl

theorem except_ok_of_bind_ok {ε α β : Type} {x : Except ε α} {f : α → Except ε β} {b : β}
    (h : (x >>= f) = Except.ok b) : ∃ a, x = Except.ok a ∧ f a = Except.ok b := by
  cases x with
  | error e => simp [Bind.bind, Except.bind] at h
  | ok a => exact ⟨a, rfl, h⟩

/-- Invariant preservation through `List.foldlM` in the `Except` monad. -/
theorem foldlM_invariant {ε α β : Type} (P : β → Prop) (f : β → α → Except ε β) (b1 : β) :
    ∀ (l : List α) (b0 : β),
      (∀ b a, a ∈ l → ∀ b2, f b a = Except.ok b2 → P b → P b2) →
      l.foldlM f b0 = Except.ok b1 → P b0 → P b1
  | [], b0, _, hrun, h0 => by
    simp only [List.foldlM_nil] at hrun
    cases hrun
    exact h0
  | a :: t, b0, hf, hrun, h0 => by
    rw [List.foldlM_cons] at hrun
    obtain ⟨b2, hb2, hrest⟩ := except_ok_of_bind_ok hrun
    exact foldlM_invariant P f b1 t b2
      (fun b x hx => hf b x (List.mem_cons_of_mem a hx)) hrest
      (hf b0 a (List.mem_cons_self a t) b2 hb2 h0)

theorem setLength_length {α : Type} (l : List (Option α)) (n : Nat) :
    (setLength l n).length = n := by
  unfold setLength
  split
  · simp
    omega
  · simp
    omega

theorem setLength_get_lt {α : Type} (l : List (Option α)) (n j : Nat)
    (hj : j < l.length) (hjn : j < n) :
    (setLength l n)[j]? = l[j]? := by
  unfold setLength
  split
  · rw [List.getElem?_take_of_lt hjn]
  · rw [List.getElem?_append, if_pos hj]

theorem jsSplice_length {α : Type} (l : List α) (s d : Nat) (items : List α)
    (hs : s ≤ l.length) (hd : s + d ≤ l.length) :
    (jsSplice l s d items).length = l.length - d + items.length := by
  unfold jsSplice
  rw [min_eq_left hs, min_eq_left (by omega : d ≤ l.length - s)]
  simp only [List.length_append, List.length_take, List.length_drop]
  omega

theorem jsSplice_get_inserted {α : Type} (l : List α) (s d : Nat) (items : List α)
    (hs : s ≤ l.length) (i : Nat) (hi : i < items.length) :
    (jsSplice l s d items)[s + i]? = items[i]? := by
  unfold jsSplice
  rw [min_eq_left hs]
  have hlen : (l.take s).length = s := by
    simp
    omega
  have hlen2 : (l.take s ++ items).length = s + items.length := by
    simp [hlen]
  rw [List.getElem?_append, hlen2, if_pos (by omega)]
  rw [List.getElem?_append, hlen, if_neg (by omega)]
  have h1 : s + i - s = i := by omega
  rw [h1]

theorem jsSplice_get_before {α : Type} (l : List α) (s d : Nat) (items : List α)
    (hs : s ≤ l.length) (j : Nat) (hj : j < s) :
    (jsSplice l s d items)[j]? = l[j]? := by
  unfold jsSplice
  rw [min_eq_left hs]
  have hlen : (l.take s).length = s := by
    simp
    omega
  have hlen2 : (l.take s ++ items).length = s + items.length := by
    simp [hlen]
  rw [List.getElem?_append, hlen2, if_pos (by omega)]
  rw [List.getElem?_append, hlen, if_pos hj, List.getElem?_take_of_lt hj]

theorem jsSplice_get_after {α : Type} (l : List α) (s d : Nat) (items : List α)
    (hs : s ≤ l.length) (hd : d = items.length) (j : Nat)
    (hj : s + items.length ≤ j) :
    (jsSplice l s d items)[j]? = l[j]? := by
  subst hd
  unfold jsSplice
  rw [min_eq_left hs]
  have hlen : (l.take s).length = s := by
    simp
    omega
  have hlen2 : (l.take s ++ items).length = s + items.length := by
    simp [hlen]
  by_cases hfit : items.length ≤ l.length - s
  · rw [min_eq_left hfit]
    rw [List.getElem?_append, hlen2, if_neg (by omega)]
    rw [List.getElem?_drop]
    congr 1
    omega
  · rw [min_eq_right (by omega : l.length - s ≤ items.length)]
    rw [List.getElem?_append, hlen2, if_neg (by omega)]
    rw [List.getElem?_drop]
    rw [List.getElem?_eq_none (by omega), List.getElem?_eq_none (by omega)]

theorem setLength_get_ge {α : Type} (l : List (Option α)) (n j : Nat)
    (hj : l.length ≤ j) (hjn : j < n) :
    (setLength l n)[j]? = some none := by
  unfold setLength
  split
  · omega
  · rw [List.getElem?_append, if_neg (by omega), List.getElem?_replicate,
      if_pos (by omega)]

/-! ### Phase A, the walk and the final loop never touch an unlisted query -/

theorem clearStaleTarget_queryMap {relationKey modelKey inverseName : String}
    {invCard : Card} {st st' : UpSt} {relatedKey : String}
    (h : clearStaleTarget relationKey modelKey inverseName invCard st relatedKey
      = Except.ok st') : st'.queryMap = st.queryMap := by
  simp only [clearStaleTarget, except_bind_ok, except_bind_error] at h
  repeat' split at h
  all_goals first
    | (cases h
       rfl)
    | cases h

theorem installInverse_queryMap {modelKey inverseName : String} {invCard : Card}
    {st st' : UpSt} {relatedKey : String}
    (h : installInverse modelKey inverseName invCard st relatedKey = Except.ok st') :
    st'.queryMap = st.queryMap := by
  simp only [installInverse, except_bind_ok, except_bind_error] at h
  repeat' split at h
  all_goals first
    | (cases h
       rfl)
    | cases h

set_option maxHeartbeats 2000000 in
theorem processOneRelation_queryMap {env : Env} {modelKey cls relName : String}
    {rd : RelationDef} {related : RVal} {st : UpSt} {res : UpSt × List QItem}
    (h : processOneRelation env modelKey cls relName rd related st = Except.ok res) :
    res.1.queryMap = st.queryMap := by
  simp only [processOneRelation, except_bind_ok, except_bind_error] at h
  repeat' split at h
  all_goals first
    | (cases h
       rfl)
    | cases h
    | skip
  all_goals first
    | (obtain ⟨sb, hsb, hs4⟩ := except_ok_of_bind_ok h
       try simp only [] at hs4
       cases hs4
       have e4 := installInverse_queryMap hsb
       exact e4)
    | skip
  all_goals obtain ⟨acc, hacc, h4⟩ := except_ok_of_bind_ok h
  all_goals try simp only [] at h4
  all_goals first
    | (have e2 : acc.1.queryMap = st.queryMap :=
         foldlM_invariant (fun a => a.1.queryMap = st.queryMap) _ acc _ _
           (fun a r _ a2 hstep hP => by
             obtain ⟨loadable, hl, hs2⟩ := except_ok_of_bind_ok hstep
             try simp only [] at hs2
             repeat' split at hs2
             all_goals first
               | (cases hs2
                  exact hP)
               | cases hs2
               | (obtain ⟨sb, hsb, hs6⟩ := except_ok_of_bind_ok hs2
                  try simp only [] at hs6
                  cases hs6
                  have e6 := installInverse_queryMap hsb
                  exact e6.trans hP))
           hacc rfl
       rcases acc with ⟨s2a, rksa, psa⟩
       cases h4
       exact e2)
    | skip
  all_goals (have e1 : acc.queryMap = st.queryMap :=
               foldlM_invariant (fun (s : UpSt) => s.queryMap = st.queryMap) _ acc _ st
                 (fun s rk _ s2 hstep hP => (clearStaleTarget_queryMap hstep).trans hP)
                 hacc rfl)
  all_goals try simp only [except_bind_ok, except_bind_error] at h4
  all_goals repeat' split at h4
  all_goals first
    | (cases h4
       exact e1)
    | cases h4
    | skip
  all_goals first
    | (obtain ⟨sb, hsb, hs4⟩ := except_ok_of_bind_ok h4
       try simp only [] at hs4
       cases hs4
       have e4 := installInverse_queryMap hsb
       exact e4.trans e1)
    | skip
  all_goals obtain ⟨acc2, hacc2, h5⟩ := except_ok_of_bind_ok h4
  all_goals try simp only [] at h5
  all_goals (have e2 : acc2.1.queryMap = st.queryMap :=
               foldlM_invariant (fun a => a.1.queryMap = st.queryMap) _ acc2 _ _
                 (fun a r _ a2 hstep hP => by
                   obtain ⟨loadable, hl, hs2⟩ := except_ok_of_bind_ok hstep
                   try simp only [] at hs2
                   repeat' split at hs2
                   all_goals first
                     | (cases hs2
                        exact hP)
                     | cases hs2
                     | (obtain ⟨sb, hsb, hs6⟩ := except_ok_of_bind_ok hs2
                        try simp only [] at hs6
                        cases hs6
                        have e6 := installInverse_queryMap hsb
                        exact e6.trans hP))
                 hacc2 e1)
  all_goals rcases acc2 with ⟨s2b, rksb, psb⟩
  all_goals cases h5
  all_goals exact e2



theorem processItem_queryMap {env : Env} {state : ModelState}
    {errors : AList String String} {item : QItem} {st : UpSt}
    {res : UpSt × List QItem}
    (h : processItem env state errors item st = Except.ok res) :
    res.1.queryMap = st.queryMap := by
  simp only [processItem, except_bind_ok, except_bind_error] at h
  split at h
  · cases h
  · obtain ⟨acc, hacc, h2⟩ := except_ok_of_bind_ok h
    have e1 : acc.1.queryMap = st.queryMap :=
      foldlM_invariant (fun a => a.1.queryMap = st.queryMap) _ acc _ _
        (fun a p _ a2 hstep hP => by
          rcases a with ⟨sa, ra, pa⟩
          split at hstep
          · cases hstep
            exact hP
          · obtain ⟨pr, hpr, h4⟩ := except_ok_of_bind_ok hstep
            rcases pr with ⟨sb, ps⟩
            cases h4
            exact (processOneRelation_queryMap hpr).trans hP)
        hacc rfl
    rcases acc with ⟨s1, record, pushed⟩
    split at h2
    · obtain ⟨m, hm, h3⟩ := except_ok_of_bind_ok h2
      cases h3
      exact e1
    · obtain ⟨m, hm, h3⟩ := except_ok_of_bind_ok h2
      cases h3
      exact e1

theorem runQueue_queryMap (env : Env) (state : ModelState)
    (errors : AList String String) :
    ∀ (fuel : Nat) (queue : List QItem) (st st' : UpSt),
      runQueue env state errors fuel queue st = Except.ok st' →
      st'.queryMap = st.queryMap := by
  intro fuel
  induction fuel with
  | zero =>
    intro queue st st' h
    cases queue with
    | nil =>
      simp only [runQueue] at h
      cases h
      rfl
    | cons a t =>
      simp only [runQueue] at h
      cases h
  | succ n ih =>
    intro queue st st' h
    cases queue with
    | nil =>
      simp only [runQueue] at h
      cases h
      rfl
    | cons item rest =>
      simp only [runQueue] at h
      obtain ⟨pr, hpr, h2⟩ := except_ok_of_bind_ok h
      exact (ih (rest ++ pr.2) pr.1 st' h2).trans (processItem_queryMap hpr)

theorem finalizeOne_queryMap_untouched {env : Env} {rm : AList String RelVal}
    {qIdx0 : AList String (AList String Bool)}
    {acc acc' : AList String ModelV × AList String QueryV} {k qid : String}
    (h : finalizeOne env rm qIdx0 acc k = Except.ok acc')
    (hq : ∀ p ∈ (aget qIdx0 k).getD [], p.1 ≠ qid) :
    aget acc'.2 qid = aget acc.2 qid := by
  simp only [finalizeOne, except_bind_ok, except_bind_error] at h
  rcases acc with ⟨mm, qm⟩
  split at h
  · obtain ⟨rels, hrels, h2⟩ := except_ok_of_bind_ok h
    obtain ⟨qm2, hqm, h3⟩ := except_ok_of_bind_ok h2
    cases h3
    exact foldlM_invariant (fun q => aget q qid = aget qm qid) _ qm2 _ qm
      (fun qcur p hp q2 hstep hP => by
        try simp only [] at hstep
        try simp only [except_bind_ok, except_bind_error] at hstep
        split at hstep
        · cases hstep
          rw [aget_aset_ne _ _ (hq p hp)]
          exact hP
        · cases hstep)
      hqm rfl
  · cases h

theorem upsertTrace_queryMap_untouched {env : Env} {repo : RepoV} {cls : String}
    {records : List RawR} {state : ModelState} {errors : AList String String}
    {tr : RepoV × AList String Bool × AList String Bool} {qid : String}
    (htr : upsertTrace env repo cls records state errors = Except.ok tr)
    (hidx : ∀ p ∈ tr.2.2, ∀ qp ∈ (aget repo.queryIndex p.1).getD [], qp.1 ≠ qid) :
    aget tr.1.queryMap qid = aget repo.queryMap qid := by
  unfold upsertTrace at htr
  obtain ⟨st, hst, h2⟩ := except_ok_of_bind_ok htr
  obtain ⟨res, hres, h3⟩ := except_ok_of_bind_ok h2
  rcases res with ⟨dirty, mm⟩
  obtain ⟨fin, hfin, h4⟩ := except_ok_of_bind_ok h3
  cases h4
  have e1 : st.queryMap = repo.queryMap :=
    runQueue_queryMap env state errors _ _ _ _ hst
  exact foldlM_invariant (fun a => aget a.2 qid = aget repo.queryMap qid) _ fin _ _
    (fun a k hk a2 hstep hP => by
      obtain ⟨p, hp, hpk⟩ := List.mem_map.mp hk
      refine (finalizeOne_queryMap_untouched hstep ?_).trans hP
      intro qp hqp
      rw [← hpk] at hqp
      exact hidx p hp qp hqp)
    hfin (by rw [e1])

/-! ### Small key-membership lemmas -/

theorem ahas_aset_self {κ α : Type} [DecidableEq κ] (m : AList κ α) (k : κ) (v : α) :
    ahas (aset m k v) k = true := by
  simp [ahas, aget_aset_self]

theorem ahas_aset_ne {κ α : Type} [DecidableEq κ] (m : AList κ α) {k k₂ : κ} (v : α)
    (h : k ≠ k₂) : ahas (aset m k v) k₂ = ahas m k₂ := by
  simp [ahas, aget_aset_ne m v h]

theorem ahas_aset_mono {κ α : Type} [DecidableEq κ] (m : AList κ α) (k : κ) (v : α)
    (k₂ : κ) (h : ahas m k₂ = true) : ahas (aset m k v) k₂ = true := by
  by_cases hk : k = k₂
  · subst hk
    exact ahas_aset_self m k v
  · rw [ahas_aset_ne m v hk]
    exact h

theorem ahas_aset_false {κ α : Type} [DecidableEq κ] {m : AList κ α} {k : κ} {v : α}
    {k₂ : κ} (h : ahas (aset m k v) k₂ = false) : k ≠ k₂ ∧ ahas m k₂ = false := by
  by_cases hk : k = k₂
  · subst hk
    rw [ahas_aset_self] at h
    cases h
  · rw [ahas_aset_ne m v hk] at h
    exact ⟨hk, h⟩

theorem ahas_false_key_ne {κ α : Type} [DecidableEq κ] :
    ∀ {m : AList κ α} {k : κ}, ahas m k = false → ∀ p ∈ m, p.1 ≠ k := by
  intro m
  induction m with
  | nil =>
    intro k _ p hp
    cases hp
  | cons q t ih =>
    intro k h p hp
    rcases q with ⟨k0, v0⟩
    simp only [ahas, aget] at h
    split at h
    · cases h
    · cases hp with
      | head =>
        simpa using (show ¬ k0 = k by assumption)
      | tail _ hp => exact ih h p hp

theorem aget_mem {κ α : Type} [DecidableEq κ] :
    ∀ {m : AList κ α} {k : κ} {v : α}, aget m k = some v → (k, v) ∈ m := by
  intro m
  induction m with
  | nil =>
    intro k v h
    cases h
  | cons q t ih =>
    intro k v h
    rcases q with ⟨k0, v0⟩
    simp only [aget] at h
    split at h
    · cases h
      subst (by assumption : k0 = k)
      exact List.mem_cons_self _ _
    · exact List.mem_cons_of_mem _ (ih h)

/-- `Model#update` with no arguments rebuilds the same entity when the schema
defaults are already folded into its attributes. -/
theorem modelUpdate_noop {env : Env} {m mUpd : ModelV}
    (hrec : amerge (env.defaults m.cls) m.record = m.record)
    (h : modelUpdate env m none none none none none none = Except.ok mUpd) :
    mUpd = m := by
  simp only [modelUpdate, mkModel, Option.getD_none, Option.getD_some] at h
  rw [hrec] at h
  split at h
  · cases h
  · cases h
    rfl

/-! ### Phase A touches the entity table only at the staged key -/

theorem clearStaleTarget_mmdirty {relationKey modelKey inverseName : String}
    {invCard : Card} {st st' : UpSt} {relatedKey : String}
    (h : clearStaleTarget relationKey modelKey inverseName invCard st relatedKey
      = Except.ok st') : st'.modelMap = st.modelMap ∧ st'.dirty = st.dirty := by
  simp only [clearStaleTarget, except_bind_ok, except_bind_error] at h
  repeat' split at h
  all_goals first
    | (cases h
       exact ⟨rfl, rfl⟩)
    | cases h

theorem installInverse_mmdirty {modelKey inverseName : String} {invCard : Card}
    {st st' : UpSt} {relatedKey : String}
    (h : installInverse modelKey inverseName invCard st relatedKey = Except.ok st') :
    st'.modelMap = st.modelMap ∧ st'.dirty = st.dirty := by
  simp only [installInverse, except_bind_ok, except_bind_error] at h
  repeat' split at h
  all_goals first
    | (cases h
       exact ⟨rfl, rfl⟩)
    | cases h

theorem processOneRelation_mmdirty {env : Env} {modelKey cls relName : String}
    {rd : RelationDef} {related : RVal} {st : UpSt} {res : UpSt × List QItem}
    (h : processOneRelation env modelKey cls relName rd related st = Except.ok res) :
    res.1.modelMap = st.modelMap ∧ res.1.dirty = st.dirty := by
  simp only [processOneRelation, except_bind_ok, except_bind_error] at h
  repeat' split at h
  all_goals first
    | (cases h
       exact ⟨rfl, rfl⟩)
    | cases h
    | skip
  all_goals first
    | (obtain ⟨sb, hsb, hs4⟩ := except_ok_of_bind_ok h
       try simp only [] at hs4
       cases hs4
       have e4 := installInverse_mmdirty hsb
       exact ⟨e4.1, e4.2⟩)
    | skip
  all_goals obtain ⟨acc, hacc, h4⟩ := except_ok_of_bind_ok h
  all_goals try simp only [] at h4
  all_goals first
    | (have e2 : acc.1.modelMap = st.modelMap ∧ acc.1.dirty = st.dirty :=
         foldlM_invariant
           (fun (a : UpSt × List String × List QItem) =>
             a.1.modelMap = st.modelMap ∧ a.1.dirty = st.dirty) _ acc _ _
           (fun a r _ a2 hstep hP => by
             rcases a with ⟨sa, rks, ps⟩
             obtain ⟨loadable, hl, hs2⟩ := except_ok_of_bind_ok hstep
             try simp only [] at hs2
             repeat' split at hs2
             all_goals first
               | (cases hs2
                  exact hP)
               | cases hs2
               | (obtain ⟨sb, hsb, hs6⟩ := except_ok_of_bind_ok hs2
                  try simp only [] at hs6
                  cases hs6
                  have e6 := installInverse_mmdirty hsb
                  exact ⟨e6.1.trans hP.1, e6.2.trans hP.2⟩))
           hacc ⟨rfl, rfl⟩
       rcases acc with ⟨s2a, rksa, psa⟩
       cases h4
       exact e2)
    | skip
  all_goals (have e1 : acc.modelMap = st.modelMap ∧ acc.dirty = st.dirty :=
               foldlM_invariant
                 (fun (s : UpSt) => s.modelMap = st.modelMap ∧ s.dirty = st.dirty)
                 _ acc _ st
                 (fun s rk _ s2 hstep hP => by
                   have e := clearStaleTarget_mmdirty hstep
                   exact ⟨e.1.trans hP.1, e.2.trans hP.2⟩)
                 hacc ⟨rfl, rfl⟩)
  all_goals try simp only [except_bind_ok, except_bind_error] at h4
  all_goals repeat' split at h4
  all_goals first
    | (cases h4
       exact e1)
    | cases h4
    | skip
  all_goals first
    | (obtain ⟨sb, hsb, hs4⟩ := except_ok_of_bind_ok h4
       try simp only [] at hs4
       cases hs4
       have e4 := installInverse_mmdirty hsb
       exact ⟨e4.1.trans e1.1, e4.2.trans e1.2⟩)
    | skip
  all_goals obtain ⟨acc2, hacc2, h5⟩ := except_ok_of_bind_ok h4
  all_goals try simp only [] at h5
  all_goals (have e2 : acc2.1.modelMap = st.modelMap ∧ acc2.1.dirty = st.dirty :=
               foldlM_invariant
                 (fun (a : UpSt × List String × List QItem) =>
                   a.1.modelMap = st.modelMap ∧ a.1.dirty = st.dirty) _ acc2 _ _
                 (fun a r _ a2 hstep hP => by
                   rcases a with ⟨sa, rks, ps⟩
                   obtain ⟨loadable, hl, hs2⟩ := except_ok_of_bind_ok hstep
                   try simp only [] at hs2
                   repeat' split at hs2
                   all_goals first
                     | (cases hs2
                        exact hP)
                     | cases hs2
                     | (obtain ⟨sb, hsb, hs6⟩ := except_ok_of_bind_ok hs2
                        try simp only [] at hs6
                        cases hs6
                        have e6 := installInverse_mmdirty hsb
                        exact ⟨e6.1.trans hP.1, e6.2.trans hP.2⟩))
                 hacc2 e1)
  all_goals rcases acc2 with ⟨s2b, rksb, psb⟩
  all_goals cases h5
  all_goals exact e2

/-- `processItem` writes the entity table and the touched-key set exactly at
the staged key. -/
theorem processItem_shape {env : Env} {state : ModelState}
    {errors : AList String String} {item : QItem} {st : UpSt}
    {res : UpSt × List QItem}
    (h : processItem env state errors item st = Except.ok res) :
    ∃ mk m, res.1.modelMap = aset st.modelMap mk m ∧
      res.1.dirty = aset st.dirty mk true := by
  simp only [processItem, except_bind_ok, except_bind_error] at h
  split at h
  · cases h
  · obtain ⟨acc, hacc, h2⟩ := except_ok_of_bind_ok h
    have e1 : acc.1.modelMap = st.modelMap ∧ acc.1.dirty = st.dirty :=
      foldlM_invariant
        (fun (a : UpSt × RawR × List QItem) =>
          a.1.modelMap = st.modelMap ∧ a.1.dirty = st.dirty) _ acc _ _
        (fun a p _ a2 hstep hP => by
          rcases a with ⟨sa, ra, pa⟩
          split at hstep
          · cases hstep
            exact hP
          · obtain ⟨pr, hpr, h4⟩ := except_ok_of_bind_ok hstep
            rcases pr with ⟨sb, ps⟩
            cases h4
            have e := processOneRelation_mmdirty hpr
            exact ⟨e.1.trans hP.1, e.2.trans hP.2⟩)
        hacc ⟨rfl, rfl⟩
    rcases acc with ⟨s1, record, pushed⟩
    have e1a : s1.modelMap = st.modelMap := e1.1
    have e1b : s1.dirty = st.dirty := e1.2
    split at h2
    · obtain ⟨m, hm, h3⟩ := except_ok_of_bind_ok h2
      cases h3
      refine ⟨mkKey item.cls ((aget item.record "id").getD RVal.vnull), m, ?_, ?_⟩
      · rw [e1a]
      · rw [e1b]
    · obtain ⟨m, hm, h3⟩ := except_ok_of_bind_ok h2
      cases h3
      refine ⟨mkKey item.cls ((aget item.record "id").getD RVal.vnull), m, ?_, ?_⟩
      · rw [e1a]
      · rw [e1b]

/-- Keys not in the final touched set keep their entity-table entry through
Phase A; presence and touched-ness are monotone. -/
theorem runQueue_untouched (env : Env) (state : ModelState)
    (errors : AList String String) :
    ∀ (fuel : Nat) (queue : List QItem) (st st' : UpSt),
      runQueue env state errors fuel queue st = Except.ok st' →
      (∀ k, ahas st'.dirty k = false → aget st'.modelMap k = aget st.modelMap k)
      ∧ (∀ k, ahas st.modelMap k = true → ahas st'.modelMap k = true)
      ∧ (∀ k, ahas st.dirty k = true → ahas st'.dirty k = true) := by
  intro fuel
  induction fuel with
  | zero =>
    intro queue st st' h
    cases queue with
    | nil =>
      simp only [runQueue] at h
      cases h
      exact ⟨fun k _ => rfl, fun k hk => hk, fun k hk => hk⟩
    | cons a t =>
      simp only [runQueue] at h
      cases h
  | succ n ih =>
    intro queue st st' h
    cases queue with
    | nil =>
      simp only [runQueue] at h
      cases h
      exact ⟨fun k _ => rfl, fun k hk => hk, fun k hk => hk⟩
    | cons item rest =>
      simp only [runQueue] at h
      obtain ⟨pr, hpr, h2⟩ := except_ok_of_bind_ok h
      obtain ⟨mk, m, hmm, hdd⟩ := processItem_shape hpr
      obtain ⟨ih1, ih2, ih3⟩ := ih (rest ++ pr.2) pr.1 st' h2
      refine ⟨?_, ?_, ?_⟩
      · intro k hk
        have hk2 : ahas pr.1.dirty k = false := by
          cases hcase : ahas pr.1.dirty k
          · rfl
          · rw [ih3 k hcase] at hk
            cases hk
        rw [hdd] at hk2
        obtain ⟨hne, _⟩ := ahas_aset_false hk2
        rw [ih1 k hk, hmm, aget_aset_ne _ _ hne]
      · intro k hk
        refine ih2 k ?_
        rw [hmm]
        exact ahas_aset_mono _ _ _ _ hk
      · intro k hk
        refine ih3 k ?_
        rw [hdd]
        exact ahas_aset_mono _ _ _ _ hk

/-- Under folded defaults, the Phase B walk only re-derives entities into
themselves: the entity table is left unchanged, and the touched set grows. -/
theorem walkQueue_noop (env : Env) (ri : AList String (AList String Bool))
    (B : AList String ModelV)
    (hdefB : ∀ k m, aget B k = some m →
      amerge (env.defaults m.cls) m.record = m.record) :
    ∀ (fuel : Nat) (queue : List String) (dirty : AList String Bool)
      (mm : AList String ModelV) (out : AList String Bool × AList String ModelV),
      (∀ z, ahas dirty z = false → aget mm z = aget B z) →
      walkQueue env ri fuel queue dirty mm = Except.ok out →
      out.2 = mm ∧ (∀ k, ahas dirty k = true → ahas out.1 k = true) := by
  intro fuel
  induction fuel with
  | zero =>
    intro queue dirty mm out hbase h
    cases queue with
    | nil =>
      simp only [walkQueue] at h
      cases h
      exact ⟨rfl, fun k hk => hk⟩
    | cons a t =>
      simp only [walkQueue] at h
      cases h
  | succ n ih =>
    intro queue dirty mm out hbase h
    cases queue with
    | nil =>
      simp only [walkQueue] at h
      cases h
      exact ⟨rfl, fun k hk => hk⟩
    | cons k rest =>
      simp only [walkQueue, except_bind_ok, except_bind_error] at h
      obtain ⟨acc, hacc, h2⟩ := except_ok_of_bind_ok h
      have hinner : acc.2.1 = aset dirty k true ∧ acc.2.2 = mm :=
        foldlM_invariant
          (fun (a : List String × AList String Bool × AList String ModelV) =>
            a.2.1 = aset dirty k true ∧ a.2.2 = mm) _ acc _ _
          (fun a p _ a2 hstep hP => by
            rcases a with ⟨qa2, d2, m2⟩
            try simp only [] at hstep
            split at hstep
            · cases hstep
              exact hP
            · split at hstep
              · obtain ⟨mUpd, hmu, h3⟩ := except_ok_of_bind_ok hstep
                try simp only [] at h3
                cases h3
                refine ⟨hP.1, ?_⟩
                rename_i hcond hx m hgetm
                have hPd : d2 = aset dirty k true := hP.1
                have hPm : m2 = mm := hP.2
                have hg : ahas d2 (keyOfRelationKey p.1) = false :=
                  Bool.of_not_eq_true hcond
                rw [hPd] at hg
                obtain ⟨_, hg0⟩ := ahas_aset_false hg
                have hBz := hbase (keyOfRelationKey p.1) hg0
                have hgetmm : aget mm (keyOfRelationKey p.1) = some m := by
                  rw [← hPm]
                  exact hgetm
                have hBm : aget B (keyOfRelationKey p.1) = some m := by
                  rw [← hBz]
                  exact hgetmm
                have hno : mUpd = m := modelUpdate_noop (hdefB _ m hBm) hmu
                have hsame : aset m2 (keyOfRelationKey p.1) mUpd = m2 := by
                  rw [hno]
                  refine aset_self _ _ _ ?_
                  rw [hPm]
                  exact hgetmm
                exact hsame.trans hPm
              · cases hstep)
          hacc ⟨rfl, rfl⟩
      rcases acc with ⟨qa, dirty2, mm2⟩
      have hd2 : dirty2 = aset dirty k true := hinner.1
      have hm2 : mm2 = mm := hinner.2
      subst hd2
      subst hm2
      try simp only [] at h2
      obtain ⟨ho1, ho2⟩ := ih (rest ++ qa) (aset dirty k true) mm2 out
        (fun z hz => hbase z (ahas_aset_false hz).2) h2
      exact ⟨ho1, fun k2 hk2 => ho2 k2 (ahas_aset_mono _ _ _ _ hk2)⟩

/-- The final loop rewrites exactly the listed keys, replacing only the
relation slots of the stored entity. -/
theorem finalizeOne_shape {env : Env} {rm : AList String RelVal}
    {qIdx0 : AList String (AList String Bool)}
    {acc acc' : AList String ModelV × AList String QueryV} {k : String}
    (h : finalizeOne env rm qIdx0 acc k = Except.ok acc') :
    ∃ m rels, aget acc.1 k = some m ∧
      acc'.1 = aset acc.1 k { m with relations := rels } := by
  simp only [finalizeOne, except_bind_ok, except_bind_error] at h
  rcases acc with ⟨mm, qm⟩
  split at h
  · obtain ⟨rels, hrels, h2⟩ := except_ok_of_bind_ok h
    obtain ⟨qm2, hqm, h3⟩ := except_ok_of_bind_ok h2
    cases h3
    rename_i m hm
    exact ⟨m, rels, hm, rfl⟩
  · cases h

/-- The final loop over the touched keys: unlisted keys keep their entry;
listed entries keep class, state, attributes and errors. -/
theorem finalize_fold_models {env : Env} {rm : AList String RelVal}
    {qIdx0 : AList String (AList String Bool)} :
    ∀ (l : List String) (acc fin : AList String ModelV × AList String QueryV),
      l.foldlM (finalizeOne env rm qIdx0) acc = Except.ok fin →
      (∀ k, (∀ x ∈ l, x ≠ k) → aget fin.1 k = aget acc.1 k) ∧
      (∀ k m, aget acc.1 k = some m → ∃ m', aget fin.1 k = some m' ∧
        m'.cls = m.cls ∧ m'.state = m.state ∧ m'.record = m.record ∧
        m'.errors = m.errors)
  | [], acc, fin, h => by
    simp only [List.foldlM_nil] at h
    cases h
    exact ⟨fun k _ => rfl, fun k m hm => ⟨m, hm, rfl, rfl, rfl, rfl⟩⟩
  | x :: t, acc, fin, h => by
    rw [List.foldlM_cons] at h
    obtain ⟨acc1, h1, h2⟩ := except_ok_of_bind_ok h
    obtain ⟨m0, rels, hm0, hset⟩ := finalizeOne_shape h1
    obtain ⟨ih1, ih2⟩ := finalize_fold_models t acc1 fin h2
    constructor
    · intro k hk
      rw [ih1 k (fun y hy => hk y (List.mem_cons_of_mem x hy)), hset,
        aget_aset_ne _ _ (hk x (List.mem_cons_self x t))]
    · intro k m hm
      by_cases hkx : x = k
      · subst hkx
        rw [hm0] at hm
        injection hm with hm
        subst hm
        have hacc1 : aget acc1.1 x = some { m0 with relations := rels } := by
          rw [hset]
          exact aget_aset_self _ _ _
        obtain ⟨m2, hm2, hcls, hst, hrec, herr⟩ := ih2 x _ hacc1
        exact ⟨m2, hm2, hcls, hst, hrec, herr⟩
      · have hacc1 : aget acc1.1 k = some m := by
          rw [hset, aget_aset_ne _ _ hkx]
          exact hm
        exact ih2 k m hacc1

/-! ### Arithmetic of the Phase B termination potential -/

theorem foldl_add_eq_sum {α : Type} (f : α → Nat) :
    ∀ (l : List α) (n : Nat), l.foldl (fun n z => n + f z) n = n + (l.map f).sum
  | [], n => by simp
  | a :: t, n => by
    simp only [List.foldl_cons, List.map_cons, List.sum_cons]
    rw [foldl_add_eq_sum f t (n + f a)]
    omega

theorem vW_succ (ri : AList String (AList String Bool)) (d : Nat)
    (U : List String) (x : String) :
    vW ri (d + 1) U x =
      1 + (((riEdges ri x).filter fun z => z ∈ U).map
        fun z => vW ri d (U.erase z) z).sum := by
  simp only [vW]
  rw [foldl_add_eq_sum]
  omega

theorem vW_pos (ri : AList String (AList String Bool)) (d : Nat)
    (U : List String) (x : String) : 1 ≤ vW ri d U x := by
  cases d with
  | zero => simp [vW]
  | succ b =>
    rw [vW_succ]
    omega

theorem vW_nil (ri : AList String (AList String Bool)) (d : Nat) (x : String) :
    vW ri d [] x = 1 := by
  cases d with
  | zero => rfl
  | succ b =>
    rw [vW_succ]
    simp

theorem sum_map_filter_le {l : List String} (p q : String → Bool) (f g : String → Nat)
    (hpq : ∀ z ∈ l, p z = true → q z = true)
    (hfg : ∀ z ∈ l, p z = true → f z ≤ g z) :
    ((l.filter p).map f).sum ≤ ((l.filter q).map g).sum := by
  induction l with
  | nil => simp
  | cons a t ih =>
    have iht := ih (fun z hz => hpq z (List.mem_cons_of_mem _ hz))
      (fun z hz => hfg z (List.mem_cons_of_mem _ hz))
    by_cases hp : p a = true
    · rw [List.filter_cons_of_pos hp,
        List.filter_cons_of_pos (hpq a (List.mem_cons_self a t) hp)]
      simp only [List.map_cons, List.sum_cons]
      exact Nat.add_le_add (hfg a (List.mem_cons_self a t) hp) iht
    · rw [List.filter_cons_of_neg hp]
      by_cases hq : q a = true
      · rw [List.filter_cons_of_pos hq]
        simp only [List.map_cons, List.sum_cons]
        exact le_trans iht (Nat.le_add_left _ _)
      · rw [List.filter_cons_of_neg hq]
        exact iht

/-- The termination potential is monotone under shrinking the unvisited set
(and is insensitive to the depth argument once it covers the set's size). -/
theorem vW_le (ri : AList String (AList String Bool)) :
    ∀ (d' d : Nat) (U' U : List String) (x : String),
      U'.Nodup → U.Nodup → (∀ z ∈ U', z ∈ U) →
      U'.length ≤ d' → U.length ≤ d →
      vW ri d' U' x ≤ vW ri d U x
  | 0, d, U', U, x, _, _, _, _, _ => by
    have h1 : vW ri 0 U' x = 1 := by simp [vW]
    rw [h1]
    exact vW_pos ri d U x
  | d' + 1, d, U', U, x, hn', hn, hsub, hl', hl => by
    cases d with
    | zero =>
      have hU : U = [] := List.length_eq_zero.mp (Nat.le_zero.mp hl)
      subst hU
      have hU' : U' = [] := List.eq_nil_iff_forall_not_mem.mpr
        (fun z hz => absurd (hsub z hz) (List.not_mem_nil z))
      subst hU'
      rw [vW_nil, vW_nil]
    | succ b =>
      rw [vW_succ, vW_succ]
      refine Nat.add_le_add_left ?_ 1
      refine sum_map_filter_le _ _ _ _ ?_ ?_
      · intro z _ hpz
        exact decide_eq_true (hsub z (of_decide_eq_true hpz))
      · intro z _ hpz
        have hzU' : z ∈ U' := of_decide_eq_true hpz
        have hzU : z ∈ U := hsub z hzU'
        refine vW_le ri d' b (U'.erase z) (U.erase z) z (hn'.erase z) (hn.erase z)
          ?_ ?_ ?_
        · intro w hw
          have hwne : w ≠ z := ((hn'.mem_erase_iff).mp hw).1
          have hwU : w ∈ U := hsub w (List.mem_of_mem_erase hw)
          exact (List.mem_erase_of_ne hwne).mpr hwU
        · rw [List.length_erase_of_mem hzU']
          omega
        · rw [List.length_erase_of_mem hzU]
          omega

/-- Depth stabilization: any two depth budgets covering the set's size give
the same potential. -/
theorem vW_stab (ri : AList String (AList String Bool)) (d' d : Nat)
    (U : List String) (x : String) (hn : U.Nodup)
    (hl' : U.length ≤ d') (hl : U.length ≤ d) :
    vW ri d' U x = vW ri d U x :=
  Nat.le_antisymm
    (vW_le ri d' d U U x hn hn (fun z hz => hz) hl' hl)
    (vW_le ri d d' U U x hn hn (fun z hz => hz) hl hl')

/-- How the unvisited set evolves when a key is marked. -/
theorem filter_aset_erase {S : List String} (hS : S.Nodup)
    (dirty : AList String Bool) (k : String) :
    (S.filter fun z => !(ahas (aset dirty k true) z)) =
      if ahas dirty k = true then S.filter fun z => !(ahas dirty z)
      else (S.filter fun z => !(ahas dirty z)).erase k := by
  by_cases hk : ahas dirty k = true
  · rw [if_pos hk]
    refine List.filter_congr ?_
    intro z _
    by_cases hz : k = z
    · subst hz
      rw [ahas_aset_self, hk]
    · rw [ahas_aset_ne dirty true hz]
  · rw [if_neg hk]
    have hkf : ahas dirty k = false := Bool.of_not_eq_true hk
    induction S with
    | nil => rfl
    | cons a t ih =>
      have hat : a ∉ t := (List.nodup_cons.mp hS).1
      have ht : t.Nodup := (List.nodup_cons.mp hS).2
      by_cases hak : a = k
      · subst hak
        rw [List.filter_cons_of_neg (by simp [ahas_aset_self]),
          List.filter_cons_of_pos (by simp [hkf]),
          List.erase_cons_head]
        refine List.filter_congr ?_
        intro z hz
        have hza : a ≠ z := fun he => hat (he ▸ hz)
        rw [ahas_aset_ne dirty true hza]
      · by_cases had : ahas dirty a = true
        · rw [List.filter_cons_of_neg (by simp [ahas_aset_ne dirty true (Ne.symm hak), had]),
            List.filter_cons_of_neg (by simp [had])]
          exact ih ht
        · have hadf : ahas dirty a = false := Bool.of_not_eq_true had
          rw [List.filter_cons_of_pos (by simp [ahas_aset_ne dirty true (Ne.symm hak), hadf]),
            List.filter_cons_of_pos (by simp [hadf]),
            List.erase_cons_tail (by simpa using hak)]
          rw [ih ht]

theorem foldl_append_mem {α : Type} (f : α → List String) :
    ∀ (l : List α) (acc : List String) (x : String),
      (x ∈ acc ∨ ∃ p ∈ l, x ∈ f p) →
      x ∈ l.foldl (fun a p => a ++ f p) acc
  | [], acc, x, h => by
    rcases h with h | ⟨p, hp, _⟩
    · exact h
    · cases hp
  | p :: t, acc, x, h => by
    simp only [List.foldl_cons]
    refine foldl_append_mem f t (acc ++ f p) x ?_
    rcases h with h | ⟨q, hq, hx⟩
    · exact Or.inl (List.mem_append_left _ h)
    · rcases List.mem_cons.mp hq with hq2 | hq2
      · subst hq2
        exact Or.inl (List.mem_append_right _ hx)
      · exact Or.inr ⟨q, hq2, hx⟩

/-- Every reverse-index edge target is part of the reverse-index universe. -/
theorem edges_mem_universe (ri : AList String (AList String Bool)) (k z : String)
    (hz : z ∈ riEdges ri k) : z ∈ riUniverse ri := by
  unfold riEdges at hz
  unfold riUniverse
  rw [List.mem_dedup]
  cases hb : aget ri k with
  | none =>
    rw [hb] at hz
    cases hz
  | some bucket =>
    rw [hb] at hz
    refine List.mem_append_right _ ?_
    refine foldl_append_mem
      (fun (p : String × AList String Bool) => p.2.map fun q => keyOfRelationKey q.1)
      ri [] z (Or.inr ?_)
    exact ⟨(k, bucket), aget_mem hb, hz⟩

/-- A no-argument `Model#update` on a valid, defaults-folded entity succeeds
and rebuilds the same entity. -/
theorem modelUpdate_noop_ok {env : Env} {m : ModelV}
    (hrec : amerge (env.defaults m.cls) m.record = m.record)
    (hval : env.validate m.cls m.record = true) :
    modelUpdate env m none none none none none none = Except.ok m := by
  simp only [modelUpdate, mkModel, Option.getD_none, Option.getD_some]
  rw [hrec, hval]
  simp

/-- Characterization of the inner bucket loop of the Phase B walk under a
well-formed store: it succeeds, touches nothing, and enqueues exactly the
bucket's unmarked owner keys. -/
theorem bucketFold_ok (env : Env) (B : AList String ModelV)
    (hdefB : ∀ k m, aget B k = some m →
      amerge (env.defaults m.cls) m.record = m.record)
    (hvalB : ∀ k m, aget B k = some m → env.validate m.cls m.record = true) :
    ∀ (bl : List (String × Bool)) (qa0 : List String)
      (dirty1 : AList String Bool) (mm : AList String ModelV),
      (∀ z, ahas dirty1 z = false → aget mm z = aget B z) →
      (∀ p ∈ bl, ahas B (keyOfRelationKey p.1) = true) →
      bl.foldlM
        (fun (acc : List String × AList String Bool × AList String ModelV) p =>
          if ahas acc.2.1 (keyOfRelationKey p.1) = true then
            Except.ok (acc.1, acc.2.1, acc.2.2)
          else
            match aget acc.2.2 (keyOfRelationKey p.1) with
            | some m =>
                modelUpdate env m none none none none none none >>= fun mUpd =>
                  Except.ok (acc.1 ++ [keyOfRelationKey p.1], acc.2.1,
                    aset acc.2.2 (keyOfRelationKey p.1) mUpd)
            | none => Except.error JsErr.typeError)
        (qa0, dirty1, mm)
        = Except.ok
            (qa0 ++ ((bl.map fun p => keyOfRelationKey p.1).filter
              fun z => !(ahas dirty1 z)), dirty1, mm)
  | [], qa0, dirty1, mm, _, _ => by
    simp only [List.foldlM_nil, List.map_nil, List.filter_nil, List.append_nil]
    rfl
  | p :: t, qa0, dirty1, mm, hbase, hpres => by
    rw [List.foldlM_cons]
    simp only []
    cases hz : ahas dirty1 (keyOfRelationKey p.1) with
    | true =>
      rw [if_pos rfl, except_bind_ok,
        bucketFold_ok env B hdefB hvalB t qa0 dirty1 mm hbase
          (fun q hq => hpres q (List.mem_cons_of_mem p hq))]
      rw [List.map_cons]
      rw [@List.filter_cons_of_neg String (fun z => !ahas dirty1 z)
        (keyOfRelationKey p.1) (t.map fun q => keyOfRelationKey q.1)
        (by simp [hz])]
    | false =>
      have hmB : ahas B (keyOfRelationKey p.1) = true :=
        hpres p (List.mem_cons_self p t)
      obtain ⟨m, hmB2⟩ := Option.isSome_iff_exists.mp hmB
      have hmm : aget mm (keyOfRelationKey p.1) = some m := by
        rw [hbase _ hz]
        exact hmB2
      rw [if_neg (by simp), hmm]
      try simp only []
      rw [modelUpdate_noop_ok (hdefB _ m hmB2) (hvalB _ m hmB2), except_bind_ok]
      try simp only []
      rw [aset_self _ _ _ hmm, except_bind_ok]
      try simp only []
      rw [bucketFold_ok env B hdefB hvalB t (qa0 ++ [keyOfRelationKey p.1]) dirty1 mm
          hbase (fun q hq => hpres q (List.mem_cons_of_mem p hq))]
      rw [List.map_cons]
      rw [@List.filter_cons_of_pos String (fun z => !ahas dirty1 z)
        (keyOfRelationKey p.1) (t.map fun q => keyOfRelationKey q.1)
        (by simp [hz])]
      simp

theorem sum_map_le {α : Type} (l : List α) (f g : α → Nat)
    (h : ∀ x ∈ l, f x ≤ g x) : (l.map f).sum ≤ (l.map g).sum := by
  induction l with
  | nil => simp
  | cons a t ih =>
    simp only [List.map_cons, List.sum_cons]
    exact Nat.add_le_add (h a (List.mem_cons_self a t))
      (ih fun x hx => h x (List.mem_cons_of_mem a hx))

/-- The Phase B walk succeeds — leaving the entity table untouched — whenever
the store is well formed and the fuel covers the termination potential. -/
theorem walkQueue_success (env : Env) (ri : AList String (AList String Bool))
    (B : AList String ModelV)
    (hdefB : ∀ k m, aget B k = some m →
      amerge (env.defaults m.cls) m.record = m.record)
    (hvalB : ∀ k m, aget B k = some m → env.validate m.cls m.record = true)
    (hbuckets : ∀ k bucket, aget ri k = some bucket →
      ∀ p ∈ bucket, ahas B (keyOfRelationKey p.1) = true) :
    ∀ (fuel : Nat) (queue : List String) (dirty : AList String Bool)
      (mm : AList String ModelV),
      (∀ z, ahas dirty z = false → aget mm z = aget B z) →
      (∀ x ∈ queue, ahas dirty x = true ∨ ahas mm x = true) →
      ((queue.map fun x =>
        vW ri ((riUniverse ri).filter fun z => !(ahas dirty z)).length
          (((riUniverse ri).filter fun z => !(ahas dirty z)).erase x) x).sum ≤ fuel) →
      ∃ dirty', walkQueue env ri fuel queue dirty mm = Except.ok (dirty', mm) ∧
        (∀ k, ahas dirty k = true → ahas dirty' k = true) ∧
        (∀ k, ahas dirty' k = true → ahas dirty k = true ∨ ahas mm k = true) := by
  intro fuel
  induction fuel with
  | zero =>
    intro queue dirty mm hbase hq hfuel
    cases queue with
    | nil =>
      exact ⟨dirty, rfl, fun k hk => hk, fun k hk => Or.inl hk⟩
    | cons k rest =>
      rw [List.map_cons, List.sum_cons] at hfuel
      have := vW_pos ri ((riUniverse ri).filter fun z => !(ahas dirty z)).length
        (((riUniverse ri).filter fun z => !(ahas dirty z)).erase k) k
      omega
  | succ n ih =>
    intro queue dirty mm hbase hq hfuel
    cases queue with
    | nil =>
      exact ⟨dirty, rfl, fun k hk => hk, fun k hk => Or.inl hk⟩
    | cons k rest =>
      have hS : (riUniverse ri).Nodup := by
        unfold riUniverse
        exact List.nodup_dedup _
      have hUn : ((riUniverse ri).filter fun z => !(ahas dirty z)).Nodup :=
        hS.filter _
      have hVn : (((riUniverse ri).filter fun z => !(ahas dirty z)).erase k).Nodup :=
        hUn.erase k
      have hbase1 : ∀ z, ahas (aset dirty k true) z = false →
          aget mm z = aget B z :=
        fun z hz => hbase z (ahas_aset_false hz).2
      have hpres1 : ∀ p ∈ (aget ri k).getD [],
          ahas B (keyOfRelationKey p.1) = true := by
        cases hb : aget ri k with
        | none =>
          intro p hp
          simp at hp
        | some bucket =>
          intro p hp
          exact hbuckets k bucket hb p hp
      have hfold := bucketFold_ok env B hdefB hvalB ((aget ri k).getD []) []
        (aset dirty k true) mm hbase1 hpres1
      simp only [walkQueue, except_bind_ok, except_bind_error]
      rw [hfold, except_bind_ok]
      simp only [List.nil_append]
      have hU' : ((riUniverse ri).filter fun z => !(ahas (aset dirty k true) z))
          = ((riUniverse ri).filter fun z => !(ahas dirty z)).erase k := by
        rw [filter_aset_erase hS dirty k]
        by_cases hk : ahas dirty k = true
        · rw [if_pos hk, List.erase_of_not_mem]
          intro hmem
          have := List.of_mem_filter hmem
          rw [hk] at this
          simp at this
        · rw [if_neg hk]
      have hmemV : ∀ z, z ∈ (((aget ri k).getD []).map
            fun p => keyOfRelationKey p.1) →
          (!(ahas (aset dirty k true) z)) = true →
          z ∈ ((riUniverse ri).filter fun z => !(ahas dirty z)).erase k := by
        intro z hzm hzp
        have hzd1 : ahas (aset dirty k true) z = false := by
          cases hcase : ahas (aset dirty k true) z
          · rfl
          · rw [hcase] at hzp
            simp at hzp
        obtain ⟨hkz, hzd⟩ := ahas_aset_false hzd1
        have hzu : z ∈ riUniverse ri := edges_mem_universe ri k z hzm
        have hzU : z ∈ (riUniverse ri).filter fun w => !(ahas dirty w) :=
          List.mem_filter.mpr ⟨hzu, by rw [hzd]; rfl⟩
        exact (List.mem_erase_of_ne (fun he => hkz he.symm)).mpr hzU
      have hqa : ∀ x ∈ rest ++ ((((aget ri k).getD []).map
            fun p => keyOfRelationKey p.1).filter
            fun z => !(ahas (aset dirty k true) z)),
          ahas (aset dirty k true) x = true ∨ ahas mm x = true := by
        intro x hx
        rcases List.mem_append.mp hx with hx | hx
        · rcases hq x (List.mem_cons_of_mem k hx) with hd | hm
          · exact Or.inl (ahas_aset_mono _ _ _ _ hd)
          · exact Or.inr hm
        · obtain ⟨hxm, hxp⟩ := List.mem_filter.mp hx
          have hxd1 : ahas (aset dirty k true) x = false := by
            cases hcase : ahas (aset dirty k true) x
            · rfl
            · rw [hcase] at hxp
              simp at hxp
          have hxd : ahas dirty x = false := (ahas_aset_false hxd1).2
          obtain ⟨p, hp, hpx⟩ := List.mem_map.mp hxm
          right
          show (aget mm x).isSome = true
          rw [hbase x hxd]
          show ahas B x = true
          rw [← hpx]
          exact hpres1 p hp
      rw [List.map_cons, List.sum_cons] at hfuel
      have hcle : ∀ x ∈ rest,
          vW ri (((riUniverse ri).filter fun z => !(ahas dirty z)).erase k).length
            ((((riUniverse ri).filter fun z => !(ahas dirty z)).erase k).erase x) x ≤
          vW ri ((riUniverse ri).filter fun z => !(ahas dirty z)).length
            (((riUniverse ri).filter fun z => !(ahas dirty z)).erase x) x := by
        intro x _
        refine vW_le ri _ _ _ _ x (hVn.erase x) (hUn.erase x) ?_
          (List.length_erase_le _ _) (List.length_erase_le _ _)
        intro w hw
        have hwx : w ≠ x := (hVn.mem_erase_iff.mp hw).1
        have hwV := List.mem_of_mem_erase hw
        have hwU := List.mem_of_mem_erase hwV
        exact (List.mem_erase_of_ne hwx).mpr hwU
      have hqacost : (((((aget ri k).getD []).map
            fun p => keyOfRelationKey p.1).filter
            fun z => !(ahas (aset dirty k true) z)).map
            fun x => vW ri
              (((riUniverse ri).filter fun z => !(ahas dirty z)).erase k).length
              ((((riUniverse ri).filter fun z => !(ahas dirty z)).erase k).erase x)
              x).sum ≤
          vW ri ((riUniverse ri).filter fun z => !(ahas dirty z)).length
            (((riUniverse ri).filter fun z => !(ahas dirty z)).erase k) k - 1 := by
        cases hUl : ((riUniverse ri).filter fun z => !(ahas dirty z)).length with
        | zero =>
          have hUnil : ((riUniverse ri).filter fun z => !(ahas dirty z)) = [] :=
            List.length_eq_zero.mp hUl
          have hqanil : ((((aget ri k).getD []).map
              fun p => keyOfRelationKey p.1).filter
              fun z => !(ahas (aset dirty k true) z)) = [] := by
            rw [List.eq_nil_iff_forall_not_mem]
            intro z hz
            obtain ⟨hzm, hzp⟩ := List.mem_filter.mp hz
            have := hmemV z hzm hzp
            rw [hUnil] at this
            simp at this
          rw [hqanil]
          simp
        | succ b =>
          rw [vW_succ]
          simp only [riEdges]
          have hb1 : ∀ z ∈ (((aget ri k).getD []).map
              fun p => keyOfRelationKey p.1),
              (!(ahas (aset dirty k true) z)) = true →
              decide (z ∈ ((riUniverse ri).filter
                fun z => !(ahas dirty z)).erase k) = true :=
            fun z hzm hzp => decide_eq_true (hmemV z hzm hzp)
          have hb2 : ∀ z ∈ (((aget ri k).getD []).map
              fun p => keyOfRelationKey p.1),
              (!(ahas (aset dirty k true) z)) = true →
              vW ri (((riUniverse ri).filter fun w => !(ahas dirty w)).erase k).length
                ((((riUniverse ri).filter fun w => !(ahas dirty w)).erase k).erase z)
                z ≤
              vW ri b
                ((((riUniverse ri).filter fun w => !(ahas dirty w)).erase k).erase z)
                z := by
            intro z hzm hzp
            have hzV := hmemV z hzm hzp
            have hlen : ((((riUniverse ri).filter
                fun w => !(ahas dirty w)).erase k).erase z).length =
                (((riUniverse ri).filter fun w => !(ahas dirty w)).erase k).length
                  - 1 :=
              List.length_erase_of_mem hzV
            have hVle : (((riUniverse ri).filter
                fun w => !(ahas dirty w)).erase k).length ≤ b + 1 := by
              have := List.length_erase_le k
                ((riUniverse ri).filter fun w => !(ahas dirty w))
              omega
            refine le_of_eq (vW_stab ri _ _ _ z (hVn.erase z) ?_ ?_)
            · rw [hlen]
              exact Nat.sub_le _ _
            · rw [hlen]
              omega
          have := sum_map_filter_le
            (fun z => !(ahas (aset dirty k true) z))
            (fun z => decide (z ∈ ((riUniverse ri).filter
              fun z => !(ahas dirty z)).erase k))
            (fun x => vW ri
              (((riUniverse ri).filter fun z => !(ahas dirty z)).erase k).length
              ((((riUniverse ri).filter fun z => !(ahas dirty z)).erase k).erase x)
              x)
            (fun z => vW ri b
              ((((riUniverse ri).filter fun w => !(ahas dirty w)).erase k).erase z)
              z)
            hb1 hb2
          omega
      have hfuel2 : (((rest ++ ((((aget ri k).getD []).map
            fun p => keyOfRelationKey p.1).filter
            fun z => !(ahas (aset dirty k true) z))).map fun x =>
          vW ri ((riUniverse ri).filter
            fun z => !(ahas (aset dirty k true) z)).length
            (((riUniverse ri).filter
              fun z => !(ahas (aset dirty k true) z)).erase x) x).sum ≤ n) := by
        rw [hU', List.map_append, List.sum_append]
        have h1 := sum_map_le rest _ _ hcle
        have h2 := hqacost
        have h3 := vW_pos ri ((riUniverse ri).filter fun z => !(ahas dirty z)).length
          (((riUniverse ri).filter fun z => !(ahas dirty z)).erase k) k
        omega
      obtain ⟨dirty', hwalk, hmono, hsrc⟩ := ih (rest ++ ((((aget ri k).getD []).map
        fun p => keyOfRelationKey p.1).filter
        fun z => !(ahas (aset dirty k true) z))) (aset dirty k true) mm
        hbase1 hqa hfuel2
      refine ⟨dirty', hwalk, ?_, ?_⟩
      · intro k2 hk2
        exact hmono k2 (ahas_aset_mono _ _ _ _ hk2)
      · intro k2 hk2
        rcases hsrc k2 hk2 with hd1 | hm
        · by_cases hkk : k = k2
          · subst hkk
            exact hq k (List.mem_cons_self k rest)
          · rw [ahas_aset_ne _ _ hkk] at hd1
            exact Or.inl hd1
        · exact Or.inr hm

/-- A monadic fold succeeds when every step succeeds from any accumulator
satisfying an invariant that the steps preserve. -/
theorem foldlM_ok_inv {ε α β : Type} (P : β → Prop) (f : β → α → Except ε β) :
    ∀ (l : List α) (b : β),
      (∀ b' p, p ∈ l → P b' → ∃ b'', f b' p = Except.ok b'' ∧ P b'') →
      P b → ∃ b2, l.foldlM f b = Except.ok b2 ∧ P b2
  | [], b, _, hP => ⟨b, by simp only [List.foldlM_nil]; rfl, hP⟩
  | x :: t, b, hstep, hP => by
    obtain ⟨b1, hb1, hP1⟩ := hstep b x (List.mem_cons_self x t) hP
    obtain ⟨b2, hb2, hP2⟩ := foldlM_ok_inv P f t b1
      (fun b' p hp => hstep b' p (List.mem_cons_of_mem x hp)) hP1
    exact ⟨b2, by rw [List.foldlM_cons, hb1, except_bind_ok, hb2], hP2⟩

/-- Keys listed in an association list are `ahas`-present. -/
theorem mem_map_fst_ahas {κ α : Type} [DecidableEq κ] :
    ∀ (m : AList κ α) (k : κ), k ∈ m.map Prod.fst → ahas m k = true
  | [], k, h => absurd h (List.not_mem_nil k)
  | (k0, v) :: t, k, h => by
    rw [List.map_cons] at h
    cases h with
    | head => simp [ahas, aget]
    | tail _ h2 =>
      by_cases hk : k0 = k
      · simp [ahas, aget, hk]
      · have := mem_map_fst_ahas t k h2
        simpa [ahas, aget, hk] using this

/-- A singleton object holds exactly its one key. -/
theorem ahas_singleton_eq {κ α : Type} [DecidableEq κ] {k q : κ} {v : α}
    (h : ahas [(k, v)] q = true) : k = q := by
  by_contra hne
  simp [ahas, aget, hne] at h

theorem ahas_singleton_self {κ α : Type} [DecidableEq κ] (k : κ) (v : α) :
    ahas [(k, v)] k = true := by
  simp [ahas, aget]

/-- A one-item Phase A queue that pushes nothing runs in one dequeue. -/
theorem runQueue_single {env : Env} {state : ModelState}
    {errors : AList String String} {item : QItem} {st res : UpSt}
    (h : processItem env state errors item st = Except.ok (res, [])) :
    ∀ fuel, 1 ≤ fuel →
      runQueue env state errors fuel [item] st = Except.ok res := by
  intro fuel hf
  obtain ⟨f, rfl⟩ : ∃ f, fuel = f + 1 := ⟨fuel - 1, by omega⟩
  simp only [runQueue, h, except_bind_ok, List.nil_append]

/-- The fuel bound of the Phase B walk covers the termination potential of the
initial queue. -/
theorem walkFuelBound_ge (ri : AList String (AList String Bool))
    (dirty : AList String Bool) (dq : List String) :
    ((dq.map fun x =>
      vW ri ((riUniverse ri).filter fun z => !(ahas dirty z)).length
        (((riUniverse ri).filter fun z => !(ahas dirty z)).erase x) x).sum ≤
      walkFuelBound ri dirty dq) := by
  simp only [walkFuelBound]
  rw [foldl_add_eq_sum]
  omega

/-- Phase A on a bare id-only record over a store already holding that
entity: no declared relation is named `id`, so the relation fold is the
identity, and — since the record's only attribute already matches the stored
one — the merge collapses onto the stored record. -/
theorem processItem_idonly (env : Env) (state : ModelState)
    (errors : AList String String) (cls : String) (n : Int) (st : UpSt)
    (m0 : ModelV)
    (hidrel : ∀ p ∈ classRelations env cls, p.1 ≠ "id")
    (hget : aget st.modelMap (mkKey cls (RVal.num n)) = some m0)
    (hid : aget m0.record "id" = some (RVal.num n))
    (hdef : amerge (env.defaults m0.cls) m0.record = m0.record)
    (hval : env.validate m0.cls m0.record = true) :
    processItem env state errors ⟨cls, [("id", RVal.num n)]⟩ st =
      Except.ok ({ st with
        modelMap := aset st.modelMap (mkKey cls (RVal.num n))
          { m0 with state := state, errors := errors },
        dirty := aset st.dirty (mkKey cls (RVal.num n)) true }, []) := by
  have hload : isLoadable (RVal.obj [("id", RVal.num n)]) = true := by
    simp [isLoadable, aget]
  have hgetid : (aget ([("id", RVal.num n)] : RawR) "id").getD RVal.vnull
      = RVal.num n := by
    simp [aget]
  simp only [processItem, except_bind_ok, except_bind_error]
  rw [if_neg (by simp [hload])]
  obtain ⟨res, hres, hresP⟩ := foldlM_ok_inv
    (fun b => b = (st, ([("id", RVal.num n)] : RawR), ([] : List QItem)))
    (fun (acc : UpSt × RawR × List QItem) (p : String × RelationDef) =>
      if (!ahas acc.2.1 p.1) = true then Except.ok (acc.1, acc.2.1, acc.2.2)
      else do
        let d ← processOneRelation env
            (mkKey cls ((aget ([("id", RVal.num n)] : RawR) "id").getD RVal.vnull))
            cls p.1 p.2 ((aget acc.2.1 p.1).getD RVal.vnull) acc.1
        Except.ok (d.1, adel acc.2.1 p.1, acc.2.2 ++ d.2))
    (classRelations env cls) (st, [("id", RVal.num n)], [])
    (by
      intro b' p hp hb
      subst hb
      have hh : ahas ([("id", RVal.num n)] : RawR) p.1 = false := by
        simp [ahas, aget, Ne.symm (hidrel p hp)]
      refine ⟨(st, [("id", RVal.num n)], []), ?_, rfl⟩
      simp only []
      rw [if_pos (by rw [hh]; rfl)])
    rfl
  subst hresP
  rw [hres, except_bind_ok]
  simp only []
  rw [hgetid, hget]
  simp only []
  have hmerge : amerge m0.record [("id", RVal.num n)] = m0.record := by
    have h1 : amerge m0.record [("id", RVal.num n)]
        = aset m0.record "id" (RVal.num n) := rfl
    rw [h1]
    exact aset_self _ _ _ hid
  rw [hmerge]
  have hupd : modelUpdate env m0 (some state) (some m0.record) (some errors)
      none none none
      = Except.ok { m0 with state := state, errors := errors } := by
    simp only [modelUpdate, mkModel, Option.getD_some]
    rw [hdef, hval]
    simp
  rw [hupd, except_bind_ok]

/-- One step of the final loop succeeds when the key's entity is stored, the
relation table resolves against its declared relations, and the query index
lists only queries present in the reference query table, whose entries the
step preserves. -/
theorem finalizeOne_ok {env : Env} {rm : AList String RelVal}
    {qIdx0 : AList String (AList String Bool)} (qm0 : AList String QueryV)
    {acc : AList String ModelV × AList String QueryV} {x : String} {m : ModelV}
    (hm : aget acc.1 x = some m)
    (hrelI : ∀ p ∈ classRelations env m.cls, ∀ v,
      aget rm (x ++ "|" ++ p.1) = some v → ∃ s, resolveSlot p.2.card v = Except.ok s)
    (hqidx : ∀ bucket, aget qIdx0 x = some bucket →
      ∀ p ∈ bucket, ahas qm0 p.1 = true)
    (hqp : ∀ z, ahas qm0 z = true → ahas acc.2 z = true) :
    ∃ acc', finalizeOne env rm qIdx0 acc x = Except.ok acc' ∧
      (∀ z, ahas qm0 z = true → ahas acc'.2 z = true) := by
  rcases acc with ⟨mm, qm⟩
  simp only [finalizeOne, except_bind_ok, except_bind_error]
  rw [hm]
  simp only []
  obtain ⟨rels, hrels, -⟩ := foldlM_ok_inv (fun _ => True)
    (fun (slots : AList String Slot) (p : String × RelationDef) =>
      match aget rm (x ++ "|" ++ p.1) with
      | none => Except.ok slots
      | some v => do
        let s ← resolveSlot p.2.card v
        Except.ok (aset slots p.1 s))
    (classRelations env m.cls) m.relations
    (by
      intro b' p hp _
      simp only []
      cases hv : aget rm (x ++ "|" ++ p.1) with
      | none => exact ⟨b', rfl, trivial⟩
      | some v =>
        obtain ⟨s, hs⟩ := hrelI p hp v hv
        refine ⟨aset b' p.1 s, ?_, trivial⟩
        simp only []
        rw [hs, except_bind_ok])
    trivial
  rw [hrels, except_bind_ok]
  obtain ⟨qm2, hqm2, hq2⟩ := foldlM_ok_inv
    (fun qm' : AList String QueryV => ∀ z, ahas qm0 z = true → ahas qm' z = true)
    (fun (qm' : AList String QueryV) (p : String × Bool) =>
      match aget qm' p.1 with
      | some q =>
        Except.ok
          (aset qm' p.1
            (queryUpdate q none
              (some
                (List.map
                  (fun row =>
                    match row with
                    | some rk => if keyIdStr rk = keyIdStr x then some x else some rk
                    | none => none)
                  q.models))
              none none))
      | none => Except.error JsErr.typeError)
    ((aget qIdx0 x).getD []) qm
    (by
      intro b' p hp hPb
      have hbucket : ∃ bucket, aget qIdx0 x = some bucket ∧ p ∈ bucket := by
        cases hb : aget qIdx0 x with
        | none =>
          rw [hb] at hp
          simp at hp
        | some bucket =>
          rw [hb] at hp
          exact ⟨bucket, rfl, hp⟩
      obtain ⟨bucket, hb, hpb⟩ := hbucket
      have hpres : ahas b' p.1 = true := hPb p.1 (hqidx bucket hb p hpb)
      obtain ⟨q, hq⟩ := Option.isSome_iff_exists.mp hpres
      refine ⟨aset b' p.1 (queryUpdate q none (some (q.models.map fun row =>
        match row with
        | some rk => if keyIdStr rk = keyIdStr x then some x else some rk
        | none => none)) none none), ?_, ?_⟩
      · simp only []
        rw [hq]
      · intro z hz
        exact ahas_aset_mono _ _ _ _ (hPb z hz))
    hqp
  refine ⟨(aset mm x (ModelV.mk m.cls m.state m.record m.errors m.dirty
    m.dirtyRelations rels), qm2), ?_, ?_⟩
  · rw [hqm2, except_bind_ok]
  · exact hq2

/-- The final loop succeeds when every listed key is stored, the relation
table resolves against each stored entity's declared relations, and the query
index never names a query absent from the reference query table. -/
theorem finalize_fold_ok {env : Env} {rm : AList String RelVal}
    {qIdx0 : AList String (AList String Bool)} (qm0 : AList String QueryV) :
    ∀ (l : List String) (acc : AList String ModelV × AList String QueryV),
      (∀ x ∈ l, ahas acc.1 x = true) →
      (∀ k m, aget acc.1 k = some m → ∀ p ∈ classRelations env m.cls, ∀ v,
        aget rm (k ++ "|" ++ p.1) = some v →
        ∃ s, resolveSlot p.2.card v = Except.ok s) →
      (∀ k bucket, aget qIdx0 k = some bucket →
        ∀ p ∈ bucket, ahas qm0 p.1 = true) →
      (∀ z, ahas qm0 z = true → ahas acc.2 z = true) →
      ∃ fin, l.foldlM (finalizeOne env rm qIdx0) acc = Except.ok fin
  | [], acc, _, _, _, _ => ⟨acc, by simp only [List.foldlM_nil]; rfl⟩
  | x :: t, acc, hpres, hrelI, hqidx, hqp => by
    have hx := hpres x (List.mem_cons_self x t)
    obtain ⟨m, hm⟩ := Option.isSome_iff_exists.mp hx
    obtain ⟨acc1, hacc1, hqp1⟩ := finalizeOne_ok qm0 hm (hrelI x m hm)
      (fun b hb => hqidx x b hb) hqp
    obtain ⟨m2, rels, hm2, hset⟩ := finalizeOne_shape hacc1
    have hpres1 : ∀ y ∈ t, ahas acc1.1 y = true := by
      intro y hy
      rw [hset]
      exact ahas_aset_mono _ _ _ _ (hpres y (List.mem_cons_of_mem x hy))
    have hrelI1 : ∀ k m', aget acc1.1 k = some m' →
        ∀ p ∈ classRelations env m'.cls, ∀ v,
        aget rm (k ++ "|" ++ p.1) = some v →
        ∃ s, resolveSlot p.2.card v = Except.ok s := by
      intro k m' hk p hp v hv
      rw [hset] at hk
      by_cases hxk : x = k
      · subst hxk
        rw [aget_aset_self] at hk
        injection hk with hk
        subst hk
        exact hrelI x m2 hm2 p hp v hv
      · rw [aget_aset_ne _ _ hxk] at hk
        exact hrelI k m' hk p hp v hv
    obtain ⟨fin, hfin⟩ := finalize_fold_ok qm0 t acc1 hpres1 hrelI1 hqidx hqp1
    exact ⟨fin, by rw [List.foldlM_cons, hacc1, except_bind_ok, hfin]⟩

/-- A bare `{id}` ingest over a well-formed store holding that entity
succeeds and yields the same entity with only its lifecycle state and errors
replaced.  Well-formedness: schema defaults folded in, validators passing,
no reverse-index bucket naming an absent entity, relation-table values
resolving against the declared cardinalities, and no query-index entry naming
an absent query; additionally no relation of the ingested class is called
`id` and the stored entity's id attribute matches its key. -/
theorem upsert_idonly_ok (env : Env) (repo : RepoV) (cls : String) (n : Int)
    (state : ModelState) (errors : AList String String) (m0 : ModelV)
    (hget : aget repo.modelMap (mkKey cls (RVal.num n)) = some m0)
    (hid : aget m0.record "id" = some (RVal.num n))
    (hidrel : ∀ p ∈ classRelations env cls, p.1 ≠ "id")
    (hdef : ∀ k m, aget repo.modelMap k = some m →
      amerge (env.defaults m.cls) m.record = m.record)
    (hval : ∀ k m, aget repo.modelMap k = some m →
      env.validate m.cls m.record = true)
    (hbuckets : ∀ k bucket, aget repo.relationIndex k = some bucket →
      ∀ p ∈ bucket, ahas repo.modelMap (keyOfRelationKey p.1) = true)
    (hrel : ∀ k m, aget repo.modelMap k = some m →
      ∀ p ∈ classRelations env m.cls, ∀ v,
        aget repo.relationMap (k ++ "|" ++ p.1) = some v →
        ∃ s, resolveSlot p.2.card v = Except.ok s)
    (hqidx : ∀ k bucket, aget repo.queryIndex k = some bucket →
      ∀ p ∈ bucket, ahas repo.queryMap p.1 = true) :
    ∃ repo' m', upsert env repo cls [[("id", RVal.num n)]] state errors
        = Except.ok repo' ∧
      aget repo'.modelMap (mkKey cls (RVal.num n)) = some m' ∧
      m'.cls = m0.cls ∧ m'.state = state ∧ m'.record = m0.record ∧
      m'.errors = errors := by
  have hA := processItem_idonly env state errors cls n
    { modelMap := repo.modelMap, relationMap := repo.relationMap,
      relationIndex := repo.relationIndex, queryMap := repo.queryMap,
      dirty := [] } m0 hidrel hget hid (hdef _ _ hget) (hval _ _ hget)
  simp only [upsert, upsertTrace, List.map_cons, List.map_nil]
  have hrun := runQueue_single hA
    (1 + 4 * List.foldl (fun n r => n + recordFuel r) 0 [[("id", RVal.num n)]])
    (by omega)
  rw [hrun, except_bind_ok]
  simp only [aset, List.map_cons, List.map_nil]
  obtain ⟨dirty', hwalk, hmono, hsub⟩ := walkQueue_success env repo.relationIndex
    repo.modelMap hdef hval hbuckets
    (walkFuelBound repo.relationIndex [(mkKey cls (RVal.num n), true)]
      [mkKey cls (RVal.num n)])
    [mkKey cls (RVal.num n)]
    [(mkKey cls (RVal.num n), true)]
    (aset repo.modelMap (mkKey cls (RVal.num n))
      (ModelV.mk m0.cls state m0.record errors m0.dirty m0.dirtyRelations
        m0.relations))
    (by
      intro z hz
      refine aget_aset_ne _ _ ?_
      intro he
      rw [he] at hz
      rw [ahas_singleton_self] at hz
      exact Bool.noConfusion hz)
    (by
      intro x hx
      cases hx with
      | head => exact Or.inl (ahas_singleton_self _ _)
      | tail _ h2 => cases h2)
    (walkFuelBound_ge repo.relationIndex [(mkKey cls (RVal.num n), true)]
      [mkKey cls (RVal.num n)])
  rw [hwalk, except_bind_ok]
  simp only []
  have hpres : ∀ x ∈ dirty'.map Prod.fst,
      ahas (aset repo.modelMap (mkKey cls (RVal.num n))
        (ModelV.mk m0.cls state m0.record errors m0.dirty m0.dirtyRelations
          m0.relations)) x = true := by
    intro x hx
    have hd := mem_map_fst_ahas dirty' x hx
    cases hsub x hd with
    | inl h1 =>
      have he : mkKey cls (RVal.num n) = x := ahas_singleton_eq h1
      rw [← he]
      show (aget (aset repo.modelMap (mkKey cls (RVal.num n))
        (ModelV.mk m0.cls state m0.record errors m0.dirty m0.dirtyRelations
          m0.relations)) (mkKey cls (RVal.num n))).isSome = true
      rw [aget_aset_self]
      rfl
    | inr h2 => exact h2
  have hrelI : ∀ k m, aget (aset repo.modelMap (mkKey cls (RVal.num n))
      (ModelV.mk m0.cls state m0.record errors m0.dirty m0.dirtyRelations
        m0.relations)) k = some m →
      ∀ p ∈ classRelations env m.cls, ∀ v,
      aget repo.relationMap (k ++ "|" ++ p.1) = some v →
      ∃ s, resolveSlot p.2.card v = Except.ok s := by
    intro k m hk p hp v hv
    by_cases hxk : mkKey cls (RVal.num n) = k
    · subst hxk
      rw [aget_aset_self] at hk
      injection hk with hk
      subst hk
      exact hrel _ m0 hget p hp v hv
    · rw [aget_aset_ne _ _ hxk] at hk
      exact hrel k m hk p hp v hv
  obtain ⟨fin, hfin⟩ := finalize_fold_ok repo.queryMap (dirty'.map Prod.fst)
    (aset repo.modelMap (mkKey cls (RVal.num n))
      (ModelV.mk m0.cls state m0.record errors m0.dirty m0.dirtyRelations
        m0.relations), repo.queryMap)
    hpres hrelI hqidx (fun z hz => hz)
  rw [hfin, except_bind_ok]
  obtain ⟨-, hF2⟩ := finalize_fold_models (dirty'.map Prod.fst)
    (aset repo.modelMap (mkKey cls (RVal.num n))
      (ModelV.mk m0.cls state m0.record errors m0.dirty m0.dirtyRelations
        m0.relations), repo.queryMap) fin hfin
  obtain ⟨m', hm', hcls, hstt, hrec, herr⟩ := hF2 (mkKey cls (RVal.num n))
    (ModelV.mk m0.cls state m0.record errors m0.dirty m0.dirtyRelations
      m0.relations)
    (aget_aset_self _ _ _)
  exact ⟨{ modelMap := fin.1, relationMap := repo.relationMap,
           queryMap := fin.2, relationIndex := repo.relationIndex,
           queryIndex := repo.queryIndex }, m', rfl, hm', hcls, hstt, hrec, herr⟩

/-- Keys `ahas`-present in an association list are listed. -/
theorem ahas_mem_map_fst {κ α : Type} [DecidableEq κ] {m : AList κ α} {k : κ}
    (h : ahas m k = true) : k ∈ m.map Prod.fst := by
  obtain ⟨v, hv⟩ := Option.isSome_iff_exists.mp h
  exact List.mem_map.mpr ⟨(k, v), aget_mem hv, rfl⟩

/-- A two-item Phase A run: the first item pushes one record, the second
pushes none. -/
theorem runQueue_two {env : Env} {state : ModelState}
    {errors : AList String String} {item1 item2 : QItem} {st st1 st2 : UpSt}
    (h1 : processItem env state errors item1 st = Except.ok (st1, [item2]))
    (h2 : processItem env state errors item2 st1 = Except.ok (st2, [])) :
    ∀ fuel, 2 ≤ fuel →
      runQueue env state errors fuel [item1] st = Except.ok st2 := by
  intro fuel hf
  obtain ⟨f, rfl⟩ : ∃ f, fuel = f + 2 := ⟨fuel - 2, by omega⟩
  simp only [runQueue, h1, except_bind_ok, List.nil_append]
  simp only [runQueue, h2, except_bind_ok, List.nil_append]

/-- `installInverse` when the prior inverse value is absent, null, or a
well-formed array: the source's reverse-index bucket gains the inverse edge
and the inverse relation entry is written (overwritten for a to-one inverse,
appended without duplication for a to-many inverse). -/
theorem installInverse_onenum (modelKey invName : String) (invCard : Card)
    (st : UpSt) (relatedKey : String) (invVal : RelVal)
    (hinvval :
      (invCard = Card.one ∧ invVal = RelVal.key modelKey) ∨
      (invCard = Card.many ∧ ∃ ks0,
        ((ks0 = [] ∧
          (aget st.relationMap (relatedKey ++ "|" ++ invName) = none ∨
           aget st.relationMap (relatedKey ++ "|" ++ invName)
              = some RelVal.null)) ∨
         aget st.relationMap (relatedKey ++ "|" ++ invName)
            = some (RelVal.arr ks0)) ∧
        invVal = RelVal.arr (if modelKey ∈ ks0 then ks0
          else ks0 ++ [modelKey]))) :
    installInverse modelKey invName invCard st relatedKey =
      Except.ok { st with
        relationMap := aset st.relationMap (relatedKey ++ "|" ++ invName) invVal,
        relationIndex := aset st.relationIndex modelKey
          (aset ((aget st.relationIndex modelKey).getD [])
            (relatedKey ++ "|" ++ invName) true) } := by
  rcases hinvval with ⟨hc, hv⟩ | ⟨hc, ks0, hks, hv⟩
  · subst hc
    subst hv
    simp only [installInverse, except_bind_ok, except_bind_error]
  · subst hc
    subst hv
    simp only [installInverse, except_bind_ok, except_bind_error]
    rcases hks with ⟨hks0, hpr | hpr⟩ | hpr
    · subst hks0
      rw [hpr]
    · subst hks0
      rw [hpr]
    · rw [hpr]

/-- `processOneRelation` for a to-one relation populated with a bare numeric
id, over a state whose forward relation entry is empty: the forward key is
written, the inverse is installed on the related key, both reverse-index
buckets gain their edge, and the bare `{id}` record is pushed. -/
theorem processOneRelation_onenum (env : Env) (cls rel invName : String)
    (rd invRel : RelationDef) (n j : Int) (st : UpSt) (invVal : RelVal)
    (hcard : rd.card = Card.one)
    (hinv : rd.inverse = some invName)
    (hinvne : ¬(invName = ""))
    (hinvdef : aget (classRelations env rd.target) invName = some invRel)
    (hfwdnone : aget st.relationMap (mkKey cls (RVal.num n) ++ "|" ++ rel) = none)
    (hne : ¬(mkKey cls (RVal.num n) ++ "|" ++ rel
      = mkKey rd.target (RVal.num j) ++ "|" ++ invName))
    (hskt : ¬(mkKey cls (RVal.num n) = mkKey rd.target (RVal.num j)))
    (hinvval :
      (invRel.card = Card.one ∧ invVal = RelVal.key (mkKey cls (RVal.num n))) ∨
      (invRel.card = Card.many ∧ ∃ ks0,
        ((ks0 = [] ∧
          (aget st.relationMap (mkKey rd.target (RVal.num j) ++ "|" ++ invName)
              = none ∨
           aget st.relationMap (mkKey rd.target (RVal.num j) ++ "|" ++ invName)
              = some RelVal.null)) ∨
         aget st.relationMap (mkKey rd.target (RVal.num j) ++ "|" ++ invName)
            = some (RelVal.arr ks0)) ∧
        invVal = RelVal.arr (if mkKey cls (RVal.num n) ∈ ks0 then ks0
          else ks0 ++ [mkKey cls (RVal.num n)]))) :
    processOneRelation env (mkKey cls (RVal.num n)) cls rel rd (RVal.num j) st =
      Except.ok ({ st with
        relationMap := aset (aset st.relationMap
            (mkKey cls (RVal.num n) ++ "|" ++ rel)
            (RelVal.key (mkKey rd.target (RVal.num j))))
            (mkKey rd.target (RVal.num j) ++ "|" ++ invName) invVal,
        relationIndex := aset (aset st.relationIndex (mkKey cls (RVal.num n))
            (aset ((aget st.relationIndex (mkKey cls (RVal.num n))).getD [])
              (mkKey rd.target (RVal.num j) ++ "|" ++ invName) true))
            (mkKey rd.target (RVal.num j))
            (aset ((aget st.relationIndex (mkKey rd.target (RVal.num j))).getD [])
              (mkKey cls (RVal.num n) ++ "|" ++ rel) true) },
        [⟨rd.target, [("id", RVal.num j)]⟩]) := by
  have hinvres : ((if invName = "" then none else some invName).bind
      fun a => aget (classRelations env rd.target) a) = some invRel := by
    rw [if_neg hinvne]
    exact hinvdef
  simp only [processOneRelation, except_bind_ok, except_bind_error, hinv, hcard]
  rw [hinvres]
  simp only []
  rw [hfwdnone]
  simp only [if_neg hinvne, Option.getD_some]
  have hinst := installInverse_onenum (mkKey cls (RVal.num n)) invName
    invRel.card
    { modelMap := st.modelMap,
      relationMap := aset st.relationMap (mkKey cls (RVal.num n) ++ "|" ++ rel)
        (RelVal.key (mkKey rd.target (RVal.num j))),
      relationIndex := st.relationIndex, queryMap := st.queryMap,
      dirty := st.dirty }
    (mkKey rd.target (RVal.num j)) invVal
    (by
      rcases hinvval with ⟨hc, hv⟩ | ⟨hc, ks0, hks, hv⟩
      · exact Or.inl ⟨hc, hv⟩
      · refine Or.inr ⟨hc, ks0, ?_, hv⟩
        have hg : aget (aset st.relationMap
            (mkKey cls (RVal.num n) ++ "|" ++ rel)
            (RelVal.key (mkKey rd.target (RVal.num j))))
            (mkKey rd.target (RVal.num j) ++ "|" ++ invName)
            = aget st.relationMap
                (mkKey rd.target (RVal.num j) ++ "|" ++ invName) :=
          aget_aset_ne _ _ hne
        rcases hks with ⟨hks0, hpr | hpr⟩ | hpr
        · exact Or.inl ⟨hks0, Or.inl (hg.trans hpr)⟩
        · exact Or.inl ⟨hks0, Or.inr (hg.trans hpr)⟩
        · exact Or.inr (hg.trans hpr))
  rw [hinst, except_bind_ok]
  simp only []
  rw [aget_aset_ne _ _ hskt]

/-- The Phase A relation fold on the record `(id := n, rel := j)`: every
relation before `rel` is skipped (the record lacks it), the first `rel` entry
is processed by `processOneRelation`, and everything after is skipped (the
record has shrunk to its bare id). -/
theorem onerel_fold (env : Env) (cls rel invName : String)
    (rd invRel : RelationDef) (n j : Int) (st : UpSt) (invVal : RelVal)
    (hcard : rd.card = Card.one)
    (hinv : rd.inverse = some invName)
    (hinvne : ¬(invName = ""))
    (hinvdef : aget (classRelations env rd.target) invName = some invRel)
    (hfwdnone : aget st.relationMap (mkKey cls (RVal.num n) ++ "|" ++ rel) = none)
    (hne : ¬(mkKey cls (RVal.num n) ++ "|" ++ rel
      = mkKey rd.target (RVal.num j) ++ "|" ++ invName))
    (hskt : ¬(mkKey cls (RVal.num n) = mkKey rd.target (RVal.num j)))
    (hinvval :
      (invRel.card = Card.one ∧ invVal = RelVal.key (mkKey cls (RVal.num n))) ∨
      (invRel.card = Card.many ∧ ∃ ks0,
        ((ks0 = [] ∧
          (aget st.relationMap (mkKey rd.target (RVal.num j) ++ "|" ++ invName)
              = none ∨
           aget st.relationMap (mkKey rd.target (RVal.num j) ++ "|" ++ invName)
              = some RelVal.null)) ∨
         aget st.relationMap (mkKey rd.target (RVal.num j) ++ "|" ++ invName)
            = some (RelVal.arr ks0)) ∧
        invVal = RelVal.arr (if mkKey cls (RVal.num n) ∈ ks0 then ks0
          else ks0 ++ [mkKey cls (RVal.num n)]))) :
    ∀ (l : List (String × RelationDef)) (ps0 : List QItem),
      (∀ p ∈ l, p.1 ≠ "id") → (∀ p ∈ l, p.1 = rel → p.2 = rd) →
      rel ∈ l.map Prod.fst →
      l.foldlM
        (fun (acc : UpSt × RawR × List QItem) (p : String × RelationDef) =>
          if (!ahas acc.2.1 p.1) = true then Except.ok (acc.1, acc.2.1, acc.2.2)
          else do
            let d ← processOneRelation env (mkKey cls (RVal.num n)) cls p.1 p.2
                ((aget acc.2.1 p.1).getD RVal.vnull) acc.1
            Except.ok (d.1, adel acc.2.1 p.1, acc.2.2 ++ d.2))
        (st, [("id", RVal.num n), (rel, RVal.num j)], ps0) =
      Except.ok ({ st with
          relationMap := aset (aset st.relationMap
              (mkKey cls (RVal.num n) ++ "|" ++ rel)
              (RelVal.key (mkKey rd.target (RVal.num j))))
              (mkKey rd.target (RVal.num j) ++ "|" ++ invName) invVal,
          relationIndex := aset (aset st.relationIndex (mkKey cls (RVal.num n))
              (aset ((aget st.relationIndex (mkKey cls (RVal.num n))).getD [])
                (mkKey rd.target (RVal.num j) ++ "|" ++ invName) true))
              (mkKey rd.target (RVal.num j))
              (aset ((aget st.relationIndex (mkKey rd.target (RVal.num j))).getD [])
                (mkKey cls (RVal.num n) ++ "|" ++ rel) true) },
        [("id", RVal.num n)],
        ps0 ++ [⟨rd.target, [("id", RVal.num j)]⟩])
  | [], ps0, _, _, hmem => absurd hmem (by simp)
  | p :: t, ps0, hnid, huniq, hmem => by
    have hpid : p.1 ≠ "id" := hnid p (List.mem_cons_self p t)
    rw [List.foldlM_cons]
    by_cases hprel : p.1 = rel
    · have hrd : p.2 = rd := huniq p (List.mem_cons_self p t) hprel
      have hrelid : ¬((("id" : String)) = rel) := by
        intro he
        exact hpid (hprel.trans he.symm)
      have hhas : ahas ([("id", RVal.num n), (rel, RVal.num j)] : RawR) p.1
          = true := by
        rw [hprel]
        simp [ahas, aget, hrelid]
      have hrget : (aget ([("id", RVal.num n), (rel, RVal.num j)] : RawR) p.1).getD
          RVal.vnull = RVal.num j := by
        rw [hprel]
        simp [aget, hrelid]
      have hdel : adel ([("id", RVal.num n), (rel, RVal.num j)] : RawR) rel
          = [("id", RVal.num n)] := by
        simp [adel, hrelid]
      simp only []
      rw [if_neg (by rw [hhas]; simp)]
      rw [hrget, hprel, hrd]
      rw [processOneRelation_onenum env cls rel invName rd invRel n j st invVal
        hcard hinv hinvne hinvdef hfwdnone hne hskt hinvval, except_bind_ok]
      simp only []
      rw [hdel]
      rw [except_bind_ok]
      obtain ⟨b2, hb2, hP2⟩ := foldlM_ok_inv
        (fun b => b = ({ st with
            relationMap := aset (aset st.relationMap
                (mkKey cls (RVal.num n) ++ "|" ++ rel)
                (RelVal.key (mkKey rd.target (RVal.num j))))
                (mkKey rd.target (RVal.num j) ++ "|" ++ invName) invVal,
            relationIndex := aset (aset st.relationIndex (mkKey cls (RVal.num n))
                (aset ((aget st.relationIndex (mkKey cls (RVal.num n))).getD [])
                  (mkKey rd.target (RVal.num j) ++ "|" ++ invName) true))
                (mkKey rd.target (RVal.num j))
                (aset ((aget st.relationIndex (mkKey rd.target (RVal.num j))).getD [])
                  (mkKey cls (RVal.num n) ++ "|" ++ rel) true) },
          ([("id", RVal.num n)] : RawR),
          ps0 ++ [(⟨rd.target, [("id", RVal.num j)]⟩ : QItem)]))
        (fun (acc : UpSt × RawR × List QItem) (p : String × RelationDef) =>
          if (!ahas acc.2.1 p.1) = true then Except.ok (acc.1, acc.2.1, acc.2.2)
          else do
            let d ← processOneRelation env (mkKey cls (RVal.num n)) cls p.1 p.2
                ((aget acc.2.1 p.1).getD RVal.vnull) acc.1
            Except.ok (d.1, adel acc.2.1 p.1, acc.2.2 ++ d.2))
        t _
        (by
          intro b' q hq hb
          subst hb
          have hh : ahas ([("id", RVal.num n)] : RawR) q.1 = false := by
            simp [ahas, aget, Ne.symm (hnid q (List.mem_cons_of_mem p hq))]
          refine ⟨_, ?_, rfl⟩
          simp only []
          rw [if_pos (by rw [hh]; rfl)])
        rfl
      rw [hb2]
      rw [hP2]
    · have hh : ahas ([("id", RVal.num n), (rel, RVal.num j)] : RawR) p.1
          = false := by
        simp [ahas, aget, Ne.symm hpid, Ne.symm hprel]
      simp only []
      rw [if_pos (by rw [hh]; rfl), except_bind_ok]
      have hmem2 : rel ∈ t.map Prod.fst := by
        rw [List.map_cons] at hmem
        cases hmem with
        | head => exact absurd rfl hprel
        | tail _ h2 => exact h2
      exact onerel_fold env cls rel invName rd invRel n j st invVal hcard hinv
        hinvne hinvdef hfwdnone hne hskt hinvval t ps0
        (fun q hq => hnid q (List.mem_cons_of_mem p hq))
        (fun q hq => huniq q (List.mem_cons_of_mem p hq)) hmem2

/-- Phase A on the record `(id := n, rel := j)` — a single to-one relation
populated with a bare numeric id — over a store already holding the source
entity: the relation is split out and processed, the relation-free record
merges onto the stored record, and the bare `{id}` related record is pushed
onto the queue. -/
theorem processItem_onerel (env : Env) (state : ModelState)
    (errors : AList String String) (cls rel invName : String)
    (rd invRel : RelationDef) (n j : Int) (st : UpSt) (ms : ModelV)
    (invVal : RelVal)
    (hidrel : ∀ p ∈ classRelations env cls, p.1 ≠ "id")
    (huniq : ∀ p ∈ classRelations env cls, p.1 = rel → p.2 = rd)
    (hmemrel : rel ∈ (classRelations env cls).map Prod.fst)
    (hcard : rd.card = Card.one)
    (hinv : rd.inverse = some invName)
    (hinvne : ¬(invName = ""))
    (hinvdef : aget (classRelations env rd.target) invName = some invRel)
    (hfwdnone : aget st.relationMap (mkKey cls (RVal.num n) ++ "|" ++ rel) = none)
    (hne : ¬(mkKey cls (RVal.num n) ++ "|" ++ rel
      = mkKey rd.target (RVal.num j) ++ "|" ++ invName))
    (hskt : ¬(mkKey cls (RVal.num n) = mkKey rd.target (RVal.num j)))
    (hinvval :
      (invRel.card = Card.one ∧ invVal = RelVal.key (mkKey cls (RVal.num n))) ∨
      (invRel.card = Card.many ∧ ∃ ks0,
        ((ks0 = [] ∧
          (aget st.relationMap (mkKey rd.target (RVal.num j) ++ "|" ++ invName)
              = none ∨
           aget st.relationMap (mkKey rd.target (RVal.num j) ++ "|" ++ invName)
              = some RelVal.null)) ∨
         aget st.relationMap (mkKey rd.target (RVal.num j) ++ "|" ++ invName)
            = some (RelVal.arr ks0)) ∧
        invVal = RelVal.arr (if mkKey cls (RVal.num n) ∈ ks0 then ks0
          else ks0 ++ [mkKey cls (RVal.num n)])))
    (hget : aget st.modelMap (mkKey cls (RVal.num n)) = some ms)
    (hid : aget ms.record "id" = some (RVal.num n))
    (hdef : amerge (env.defaults ms.cls) ms.record = ms.record)
    (hval : env.validate ms.cls ms.record = true) :
    processItem env state errors ⟨cls, [("id", RVal.num n), (rel, RVal.num j)]⟩
        st =
      Except.ok ({ st with
        modelMap := aset st.modelMap (mkKey cls (RVal.num n))
          { ms with state := state, errors := errors },
        relationMap := aset (aset st.relationMap
            (mkKey cls (RVal.num n) ++ "|" ++ rel)
            (RelVal.key (mkKey rd.target (RVal.num j))))
            (mkKey rd.target (RVal.num j) ++ "|" ++ invName) invVal,
        relationIndex := aset (aset st.relationIndex (mkKey cls (RVal.num n))
            (aset ((aget st.relationIndex (mkKey cls (RVal.num n))).getD [])
              (mkKey rd.target (RVal.num j) ++ "|" ++ invName) true))
            (mkKey rd.target (RVal.num j))
            (aset ((aget st.relationIndex (mkKey rd.target (RVal.num j))).getD [])
              (mkKey cls (RVal.num n) ++ "|" ++ rel) true),
        dirty := aset st.dirty (mkKey cls (RVal.num n)) true },
        [⟨rd.target, [("id", RVal.num j)]⟩]) := by
  have hload : isLoadable (RVal.obj [("id", RVal.num n), (rel, RVal.num j)])
      = true := by
    simp [isLoadable, aget]
  have hgetid : (aget ([("id", RVal.num n), (rel, RVal.num j)] : RawR)
      "id").getD RVal.vnull = RVal.num n := by
    simp [aget]
  simp only [processItem, except_bind_ok, except_bind_error]
  rw [if_neg (by simp [hload])]
  simp only [hgetid]
  rw [onerel_fold env cls rel invName rd invRel n j st invVal hcard hinv hinvne
    hinvdef hfwdnone hne hskt hinvval (classRelations env cls) [] hidrel huniq
    hmemrel, except_bind_ok]
  simp only [List.nil_append]
  rw [hget]
  simp only []
  have hmerge : amerge ms.record [("id", RVal.num n)] = ms.record := by
    have h1 : amerge ms.record [("id", RVal.num n)]
        = aset ms.record "id" (RVal.num n) := rfl
    rw [h1]
    exact aset_self _ _ _ hid
  rw [hmerge]
  have hupd : modelUpdate env ms (some state) (some ms.record) (some errors)
      none none none
      = Except.ok { ms with state := state, errors := errors } := by
    simp only [modelUpdate, mkModel, Option.getD_some]
    rw [hdef, hval]
    simp
  rw [hupd, except_bind_ok]

/-- Members of an `aset`-written object are the written pair or prior
members. -/
theorem mem_aset {κ α : Type} [DecidableEq κ] :
    ∀ (b : AList κ α) (k : κ) (v : α) (p : κ × α),
      p ∈ aset b k v → p = (k, v) ∨ p ∈ b
  | [], k, v, p, h => by
    simp only [aset] at h
    cases h with
    | head => exact Or.inl rfl
    | tail _ h2 => cases h2
  | (k0, v0) :: rest, k, v, p, h => by
    simp only [aset] at h
    by_cases hk : k0 = k
    · rw [if_pos hk] at h
      cases h with
      | head => exact Or.inl (by rw [hk])
      | tail _ h2 => exact Or.inr (List.mem_cons_of_mem _ h2)
    · rw [if_neg hk] at h
      cases h with
      | head => exact Or.inr (List.mem_cons_self _ _)
      | tail _ h2 =>
        cases mem_aset rest k v p h2 with
        | inl h3 => exact Or.inl h3
        | inr h3 => exact Or.inr (List.mem_cons_of_mem _ h3)

/-- `resolveSlot` for a to-many cardinality succeeds only on arrays. -/
theorem resolveSlot_many_inv {v : RelVal} {s : Slot}
    (h : resolveSlot Card.many v = Except.ok s) :
    ∃ ks, v = RelVal.arr ks ∧ s = Slot.many ks := by
  cases v with
  | arr ks =>
    simp only [resolveSlot] at h
    cases h
    exact ⟨ks, rfl, rfl⟩
  | key k => cases h
  | null => cases h

/-- Inversion of one final-loop step, exposing the re-resolved slot table. -/
theorem finalizeOne_rels {env : Env} {rm : AList String RelVal}
    {qIdx0 : AList String (AList String Bool)}
    {acc acc' : AList String ModelV × AList String QueryV} {x : String}
    (h : finalizeOne env rm qIdx0 acc x = Except.ok acc') :
    ∃ m rels, aget acc.1 x = some m ∧
      (classRelations env m.cls).foldlM
        (fun (slots : AList String Slot) (p : String × RelationDef) =>
          match aget rm (x ++ "|" ++ p.1) with
          | none => Except.ok slots
          | some v => do
            let s ← resolveSlot p.2.card v
            Except.ok (aset slots p.1 s)) m.relations = Except.ok rels ∧
      acc'.1 = aset acc.1 x { m with relations := rels } := by
  simp only [finalizeOne, except_bind_ok, except_bind_error] at h
  rcases acc with ⟨mm, qm⟩
  split at h
  · obtain ⟨rels, hrels, h2⟩ := except_ok_of_bind_ok h
    obtain ⟨qm2, hqm, h3⟩ := except_ok_of_bind_ok h2
    cases h3
    rename_i m hm
    exact ⟨m, rels, hm, hrels, rfl⟩
  · cases h

/-- The slot-resolution fold preserves an already-written inverse slot. -/
theorem slots_fold_preserve (rm : AList String RelVal)
    (tKey invName : String) (invRel : RelationDef) (invVal : RelVal) (s : Slot)
    (hrm : aget rm (tKey ++ "|" ++ invName) = some invVal)
    (hres : resolveSlot invRel.card invVal = Except.ok s) :
    ∀ (l : List (String × RelationDef)) (slots rels : AList String Slot),
      (∀ p ∈ l, p.1 = invName → p.2 = invRel) →
      l.foldlM
        (fun (slots : AList String Slot) (p : String × RelationDef) =>
          match aget rm (tKey ++ "|" ++ p.1) with
          | none => Except.ok slots
          | some v => do
            let s ← resolveSlot p.2.card v
            Except.ok (aset slots p.1 s)) slots = Except.ok rels →
      aget slots invName = some s → aget rels invName = some s
  | [], slots, rels, _, h, hbase => by
    simp only [List.foldlM_nil] at h
    cases h
    exact hbase
  | p :: t, slots, rels, huniq, h, hbase => by
    rw [List.foldlM_cons] at h
    obtain ⟨slots1, hs1, h2⟩ := except_ok_of_bind_ok h
    have hstep : aget slots1 invName = some s := by
      by_cases hp1 : p.1 = invName
      · have hrd : p.2 = invRel := huniq p (List.mem_cons_self p t) hp1
        rw [hp1, hrm] at hs1
        simp only [] at hs1
        rw [hrd, hres, except_bind_ok] at hs1
        cases hs1
        exact aget_aset_self _ _ _
      · cases hv : aget rm (tKey ++ "|" ++ p.1) with
        | none =>
          rw [hv] at hs1
          cases hs1
          exact hbase
        | some v =>
          rw [hv] at hs1
          simp only [] at hs1
          obtain ⟨s2, hs2, h3⟩ := except_ok_of_bind_ok hs1
          cases h3
          rw [aget_aset_ne _ _ hp1]
          exact hbase
    exact slots_fold_preserve rm tKey invName invRel invVal s hrm hres t
      slots1 rels (fun q hq => huniq q (List.mem_cons_of_mem p hq)) h2 hstep

/-- The slot-resolution fold writes the inverse slot whenever the inverse
relation is declared. -/
theorem slots_fold_sets (rm : AList String RelVal)
    (tKey invName : String) (invRel : RelationDef) (invVal : RelVal) (s : Slot)
    (hrm : aget rm (tKey ++ "|" ++ invName) = some invVal)
    (hres : resolveSlot invRel.card invVal = Except.ok s) :
    ∀ (l : List (String × RelationDef)) (slots rels : AList String Slot),
      (invName, invRel) ∈ l →
      (∀ p ∈ l, p.1 = invName → p.2 = invRel) →
      l.foldlM
        (fun (slots : AList String Slot) (p : String × RelationDef) =>
          match aget rm (tKey ++ "|" ++ p.1) with
          | none => Except.ok slots
          | some v => do
            let s ← resolveSlot p.2.card v
            Except.ok (aset slots p.1 s)) slots = Except.ok rels →
      aget rels invName = some s
  | [], _, _, hmem, _, _ => absurd hmem (List.not_mem_nil _)
  | p :: t, slots, rels, hmem, huniq, h => by
    rw [List.foldlM_cons] at h
    obtain ⟨slots1, hs1, h2⟩ := except_ok_of_bind_ok h
    cases hmem with
    | head =>
      rw [hrm] at hs1
      simp only [] at hs1
      rw [hres, except_bind_ok] at hs1
      cases hs1
      exact slots_fold_preserve rm tKey invName invRel invVal s hrm hres t
        _ rels (fun q hq => huniq q (List.mem_cons_of_mem _ hq)) h2
        (aget_aset_self _ _ _)
    | tail _ hmem2 =>
      exact slots_fold_sets rm tKey invName invRel invVal s hrm hres t
        slots1 rels hmem2 (fun q hq => huniq q (List.mem_cons_of_mem p hq)) h2

/-- Through the final loop, a listed key whose stored entity has the inverse
relation declared ends up with the re-resolved inverse slot on its relation
table. -/
theorem finalize_fold_slot {env : Env} {rm : AList String RelVal}
    {qIdx0 : AList String (AList String Bool)}
    (tKey invName cls2 : String) (invRel : RelationDef) (invVal : RelVal)
    (s : Slot)
    (hrm : aget rm (tKey ++ "|" ++ invName) = some invVal)
    (hres : resolveSlot invRel.card invVal = Except.ok s)
    (hmemInv : (invName, invRel) ∈ classRelations env cls2)
    (huniqInv : ∀ p ∈ classRelations env cls2, p.1 = invName → p.2 = invRel) :
    ∀ (l : List String) (acc fin : AList String ModelV × AList String QueryV),
      l.foldlM (finalizeOne env rm qIdx0) acc = Except.ok fin →
      (∀ m, aget acc.1 tKey = some m → m.cls = cls2) →
      (tKey ∈ l ∨
        (∃ m, aget acc.1 tKey = some m ∧ aget m.relations invName = some s)) →
      ∃ m, aget fin.1 tKey = some m ∧ aget m.relations invName = some s
  | [], acc, fin, h, hcls, hst => by
    simp only [List.foldlM_nil] at h
    cases h
    cases hst with
    | inl h1 => exact absurd h1 (List.not_mem_nil _)
    | inr h1 => exact h1
  | x :: t, acc, fin, h, hcls, hst => by
    rw [List.foldlM_cons] at h
    obtain ⟨acc1, hacc1, h2⟩ := except_ok_of_bind_ok h
    obtain ⟨m2, rels, hm2, hrels, hset⟩ := finalizeOne_rels hacc1
    by_cases hxt : x = tKey
    · subst hxt
      have hc : m2.cls = cls2 := hcls m2 hm2
      rw [hc] at hrels
      have hrinv : aget rels invName = some s :=
        slots_fold_sets rm x invName invRel invVal s hrm hres
          (classRelations env cls2) m2.relations rels hmemInv huniqInv hrels
      refine finalize_fold_slot x invName cls2 invRel invVal s hrm hres
        hmemInv huniqInv t acc1 fin h2 ?_ (Or.inr ?_)
      · intro m hm
        rw [hset, aget_aset_self] at hm
        injection hm with hm
        rw [← hm]
        exact hc
      · refine ⟨{ m2 with relations := rels }, ?_, hrinv⟩
        rw [hset, aget_aset_self]
    · have hcls1 : ∀ m, aget acc1.1 tKey = some m → m.cls = cls2 := by
        intro m hm
        rw [hset, aget_aset_ne _ _ hxt] at hm
        exact hcls m hm
      refine finalize_fold_slot tKey invName cls2 invRel invVal s hrm hres
        hmemInv huniqInv t acc1 fin h2 hcls1 ?_
      cases hst with
      | inl h1 =>
        cases h1 with
        | head => exact absurd rfl hxt
        | tail _ h3 => exact Or.inl h3
      | inr h1 =>
        obtain ⟨m, hm, hminv⟩ := h1
        refine Or.inr ⟨m, ?_, hminv⟩
        rw [hset, aget_aset_ne _ _ hxt]
        exact hm

/-! ### Claim theorems -/

/-- Claim C8: for every store and every `create:error` outcome,
`processMapperResult` returns the same store snapshot unchanged — the entity
table, relation table, query table and reverse indexes are all identical to
the input snapshot's (the result is the very same snapshot value). -/
theorem createError_leaves_snapshot_unchanged (env : Env) (repo : RepoV) (m : ModelV) :
    processMapperResult env repo (MapperResult.createError m) = Except.ok repo :=
  rfl

/-- Claim C5 (code slip in `isLoadable`): the spec says upsert raises the
missing-identifier error exactly when a processed record lacks an id of
number or string type, but the source checks
`typeof x.id === 'number' || typeof x === 'string'` — the second conjunct can
never hold for an object — so a record carrying a string id is rejected with
the missing-identifier error.  This theorem evaluates the embedded code at the
failing input: a record with the string id "abc" raises the error, a record
with a numeric id does not, and a record with no id at all raises it. -/
theorem upsert_rejects_string_id_record :
    upsert exEnv emptyRepo "Post" [[("id", RVal.str "abc"), ("title", RVal.str "t")]]
        ModelState.loaded [] = Except.error (JsErr.missingId "Post") ∧
    isLoadable (RVal.obj [("id", RVal.str "abc")]) = false ∧
    (upsert exEnv emptyRepo "Post" [[("id", RVal.num 1)]] ModelState.loaded []).map
        (fun _ => 0) = Except.ok 0 ∧
    upsert exEnv emptyRepo "Post" [[("title", RVal.str "t")]] ModelState.loaded []
      = Except.error (JsErr.missingId "Post") :=
  ⟨rfl, rfl, rfl, rfl⟩

/-- Claim C3 (code bug in `Repo#expunge`): the source's own comment says
"delete from relationIndex", but expunge never removes the expunged entity's
outgoing relation keys from the reverse-index buckets of its neighbours.
After `upsert(Post (id 1, author 9))` and `expunge(Post, 1)`, the bucket of
`Author|9` still lists the dead relation key `Post|1|author`; the subsequent
`expunge(Author, 9)` dereferences the missing owner (`relatedModel.ctor` on
`undefined`) and throws a `TypeError` instead of returning the cleaned store
the claim describes. -/
theorem expunge_dangling_reverse_index_crash :
    (c3Repo.map fun r =>
      ((aget r.modelMap "Author|9").isSome, (aget r.relationIndex "Author|9").getD []))
      = Except.ok (true, [("Post|1|author", true)]) ∧
    (c3Repo >>= fun r => expunge exEnv r "Author" (RVal.num 9)).map (fun _ => 0)
      = Except.error JsErr.typeError :=
  ⟨rfl, rfl⟩

/-- Claim C1, counterexample: `Post|1` is ingested with its `comments`
relation populated by `Comment|5` (a relation whose declared inverse `post`
is to-one), and after the call `Post|1.comments` still lists `Comment|5` —
yet the inverse slot read from `Comment|5` equals `Post|2`, the later-
processed link, not `Post|1`.  The claim as stated is therefore false for
calls that link the same related entity through a to-one inverse twice. -/
theorem inverse_slot_counterexample :
    (c1Repo.map fun r => (slotAt r "Post|1" "comments", slotAt r "Comment|5" "post"))
      = Except.ok (some (Slot.many ["Comment|5"]), some (Slot.one (some "Post|2"))) ∧
    Slot.one (some "Post|2") ≠ Slot.one (some "Post|1") :=
  ⟨rfl, by decide⟩

/-- Claim C4, counterexample: with count 4, pageSize 3, page 1 and three
records, `Array.prototype.splice` can delete at most one row past position 3,
so the resulting row sequence has length 6, not the claimed `count` of 4. -/
theorem paged_upsertQuery_length_counterexample :
    (c4Repo.map fun r => (getQuery r "Author" []).map fun q => (q.models.length, q.models))
      = Except.ok (some (6, [none, none, none, some "Author|7", some "Author|8", some "Author|9"])) ∧
    (6 : Nat) ≠ 4 :=
  ⟨rfl, by decide⟩

/-- Claim C6, counterexample: `Model#set` with the non-empty patch
`(bad := 2)` shallow-merges the patch and marks it dirty, but — because the
merged dirty map is non-empty — it does not re-run validation: the call
succeeds even though the resulting attributes fail the schema validator, as
the conjoined constructor call (which does validate that record) shows. -/
theorem modelSet_skips_validation_counterexample :
    (modelSet valEnv c6Model [("bad", RVal.num 2)]).map
        (fun m => (valEnv.validate "Post" m.record, m.record, m.dirty))
      = Except.ok (false, [("id", RVal.num 1), ("bad", RVal.num 2)], [("bad", true)]) ∧
    mkModel valEnv "Post" ModelState.loaded [("id", RVal.num 1), ("bad", RVal.num 2)]
        [] [] [] none true
      = Except.error (JsErr.validation "Post") :=
  ⟨rfl, rfl⟩

/-- Claim C6, amended: for every entity and every non-empty attribute patch,
`deriveWithAttributes` (`Model#set`) returns a new entity with the patch
shallow-merged over the schema defaults and every touched attribute marked
dirty — but schema validation is not re-run: validation is skipped whenever
the resulting dirty map is non-empty, which a non-empty patch always makes it
(it is re-run only by bookkeeping updates whose dirty map is empty). -/
theorem modelSet_merges_and_marks_dirty (env : Env) (m : ModelV) (patch : RawR)
    (h : patch ≠ []) :
    modelSet env m patch =
      Except.ok { cls := m.cls, state := m.state,
                  record := amerge (env.defaults m.cls) (amerge m.record patch),
                  errors := m.errors,
                  dirty := amerge m.dirty (patch.map fun p => (p.1, true)),
                  dirtyRelations := m.dirtyRelations,
                  relations := m.relations } := by
  have hmap : (patch.map fun p => ((p.1 : String), true)) ≠ [] := by
    cases patch with
    | nil => exact absurd rfl h
    | cons a t => simp
  have hne := amerge_ne_nil_right m.dirty _ hmap
  have hfalse : (amerge m.dirty (patch.map fun p => ((p.1 : String), true))).isEmpty = false := by
    cases hcase : amerge m.dirty (patch.map fun p => ((p.1 : String), true)) with
    | nil => exact absurd hcase hne
    | cons a t => rfl
  simp [modelSet, modelUpdate, mkModel, hfalse]

/-- Witness for the amended C6 theorem at a concrete entity and patch. -/
theorem modelSet_merges_and_marks_dirty_witness :
    modelSet valEnv c6Model [("t", RVal.num 2)] =
      Except.ok { cls := c6Model.cls, state := c6Model.state,
                  record := amerge (valEnv.defaults c6Model.cls)
                    (amerge c6Model.record [("t", RVal.num 2)]),
                  errors := c6Model.errors,
                  dirty := amerge c6Model.dirty
                    ([(("t" : String), RVal.num 2)].map fun p => (p.1, true)),
                  dirtyRelations := c6Model.dirtyRelations,
                  relations := c6Model.relations } :=
  modelSet_merges_and_marks_dirty valEnv c6Model [("t", RVal.num 2)] (by simp)


/-- C4 (amended): a paged `upsertQuery` call with records whose batch fits
inside the declared count (`page * pageSize + |records| ≤ count`), and whose
embedded ingest touches no entity listed for this query in the query index,
yields a Query Result whose row sequence has length exactly `count`, carries
the batch's entity references at positions `page * pageSize + i`, and keeps
every other position below `count` exactly as it was before the call
(positions beyond the old row sequence are unpopulated holes). -/
theorem upsertQuery_paged_splice (env : Env) (repo : RepoV) (cls : String)
    (options : RawR) (records : List RawR) (state : QueryState) (page s c : Nat)
    (err : Option String) (repo' : RepoV)
    (tr : RepoV × AList String Bool × AList String Bool)
    (htr : upsertTrace env repo cls records ModelState.loaded [] = Except.ok tr)
    (hidx : ∀ p ∈ tr.2.2, ∀ qp ∈ (aget repo.queryIndex p.1).getD [],
      qp.1 ≠ mkQueryId cls options)
    (hok : upsertQuery env repo cls options (some records) state page
      (some (s, c)) err = Except.ok repo')
    (hfit : page * s + records.length ≤ c) :
    ∃ q', getQuery repo' cls options = some q' ∧
      q'.models.length = c ∧
      (∀ i, i < records.length →
        q'.models[page * s + i]? = (pageRefs cls records)[i]?) ∧
      (∀ j, j < c → (j < page * s ∨ page * s + records.length ≤ j) →
        q'.models[j]? =
          if j < (queryRowsAt repo (mkQueryId cls options)).length then
            (queryRowsAt repo (mkQueryId cls options))[j]?
          else some none) := by
  have hup : upsert env repo cls records ModelState.loaded [] = Except.ok tr.1 := by
    unfold upsert
    rw [htr]
    rfl
  have hpres := upsertTrace_queryMap_untouched htr hidx
  simp only [upsertQuery, except_bind_ok, except_bind_error] at hok
  obtain ⟨r1, h1, h2⟩ := except_ok_of_bind_ok hok
  rw [hup] at h1
  cases h1
  try simp only [] at h2
  cases h2
  rw [hpres]
  have hmap : (records.map fun rec => mkKey cls ((aget rec "id").getD RVal.vnull)).length
      = records.length := List.length_map _ _
  have hmap2 : ((records.map fun rec =>
        mkKey cls ((aget rec "id").getD RVal.vnull)).map some).length
      = records.length := by
    rw [List.length_map, hmap]
  have hpr : (records.map fun rec => mkKey cls ((aget rec "id").getD RVal.vnull)).map some
      = pageRefs cls records := by
    rw [List.map_map]
    rfl
  have key : ∀ R : List (Option String),
      ((jsSplice (setLength R c) (page * s)
          (records.map fun rec => mkKey cls ((aget rec "id").getD RVal.vnull)).length
          ((records.map fun rec =>
            mkKey cls ((aget rec "id").getD RVal.vnull)).map some)).length = c)
      ∧ (∀ i, i < records.length →
          (jsSplice (setLength R c) (page * s)
            (records.map fun rec => mkKey cls ((aget rec "id").getD RVal.vnull)).length
            ((records.map fun rec =>
              mkKey cls ((aget rec "id").getD RVal.vnull)).map some))[page * s + i]?
            = (pageRefs cls records)[i]?)
      ∧ (∀ j, j < c → (j < page * s ∨ page * s + records.length ≤ j) →
          (jsSplice (setLength R c) (page * s)
            (records.map fun rec => mkKey cls ((aget rec "id").getD RVal.vnull)).length
            ((records.map fun rec =>
              mkKey cls ((aget rec "id").getD RVal.vnull)).map some))[j]?
            = if j < R.length then R[j]? else some none) := by
    intro R
    have hsl : (setLength R c).length = c := setLength_length _ _
    have hs1 : page * s ≤ (setLength R c).length := by
      rw [hsl]
      omega
    refine ⟨?_, ?_, ?_⟩
    · rw [jsSplice_length _ _ _ _ hs1 (by rw [hsl, hmap]; omega), hsl, hmap, hmap2]
      omega
    · intro i hi
      rw [jsSplice_get_inserted _ _ _ _ hs1 i (by rw [hmap2]; omega), hpr]
    · intro j hjc hside
      rcases hside with hlt | hge
      · rw [jsSplice_get_before _ _ _ _ hs1 j hlt]
        by_cases hjR : j < R.length
        · rw [if_pos hjR, setLength_get_lt _ _ _ hjR hjc]
        · rw [if_neg hjR, setLength_get_ge _ _ _ (by omega) hjc]
      · rw [jsSplice_get_after _ _ _ _ hs1 (List.length_map _ _).symm j
            (by rw [hmap2]; omega)]
        by_cases hjR : j < R.length
        · rw [if_pos hjR, setLength_get_lt _ _ _ hjR hjc]
        · rw [if_neg hjR, setLength_get_ge _ _ _ (by omega) hjc]
  rcases hcase : aget repo.queryMap (mkQueryId cls options) with _ | q
  · simp only [queryRowsAt, hcase]
    refine ⟨_, aget_aset_self _ _ _, (key []).1, fun i hi => (key []).2.1 i hi,
      fun j hjc hside => (key []).2.2 j hjc hside⟩
  · simp only [queryRowsAt, hcase]
    refine ⟨_, aget_aset_self _ _ _, (key q.models).1, fun i hi => (key q.models).2.1 i hi,
      fun j hjc hside => (key q.models).2.2 j hjc hside⟩


/-- Witness for the amended paged-splice theorem: one record ingested at
page 1 of size 2 into a fresh Query Result of declared count 5. -/
theorem upsertQuery_paged_splice_witness :
    ∃ q', getQuery w4repo "Author" [] = some q' ∧
      q'.models.length = 5 ∧
      (∀ i, i < ([[("id", RVal.num 7)]] : List RawR).length →
        q'.models[1 * 2 + i]? = (pageRefs "Author" [[("id", RVal.num 7)]])[i]?) ∧
      (∀ j, j < 5 →
        (j < 1 * 2 ∨ 1 * 2 + ([[("id", RVal.num 7)]] : List RawR).length ≤ j) →
        q'.models[j]? =
          if j < (queryRowsAt emptyRepo (mkQueryId "Author" [])).length then
            (queryRowsAt emptyRepo (mkQueryId "Author" []))[j]?
          else some none) :=
  upsertQuery_paged_splice exEnv emptyRepo "Author" [] [[("id", RVal.num 7)]]
    QueryState.loaded 1 2 5 none w4repo w4tr rfl
    (fun p hp qp hqp => absurd hqp (List.not_mem_nil qp))
    rfl (by decide)


/-- C9: `Repo#upsert` never removes or overwrites unrelated data.  For a
store whose entities carry their schema defaults folded in (every store
built by ingestion does): every entity key present before the call is
present after it; every entity key outside the final touched set keeps its
entity-table entry unchanged; and every entity present before the call that
is not staged by Phase A — i.e. neither named in the ingested records nor
decomposed out of them — keeps its attributes, lifecycle state and errors,
even when it is re-derived by the reverse-index propagation. -/
theorem upsert_preserves_unrelated (env : Env) (repo : RepoV) (cls : String)
    (records : List RawR) (state : ModelState) (errors : AList String String)
    (tr : RepoV × AList String Bool × AList String Bool)
    (htr : upsertTrace env repo cls records state errors = Except.ok tr)
    (hdef : ∀ k m, aget repo.modelMap k = some m →
      amerge (env.defaults m.cls) m.record = m.record) :
    (∀ k, ahas repo.modelMap k = true → ahas tr.1.modelMap k = true) ∧
    (∀ k, ahas tr.2.2 k = false → aget tr.1.modelMap k = aget repo.modelMap k) ∧
    (∀ k m, ahas tr.2.1 k = false → aget repo.modelMap k = some m →
      ∃ m', aget tr.1.modelMap k = some m' ∧
        m'.record = m.record ∧ m'.state = m.state ∧ m'.errors = m.errors) := by
  unfold upsertTrace at htr
  obtain ⟨st, hst, h2⟩ := except_ok_of_bind_ok htr
  obtain ⟨res, hres, h3⟩ := except_ok_of_bind_ok h2
  rcases res with ⟨dirty, mm⟩
  obtain ⟨fin, hfin, h4⟩ := except_ok_of_bind_ok h3
  cases h4
  obtain ⟨hA1, hA2, hA3⟩ := runQueue_untouched env state errors _ _ _ _ hst
  have hbase : ∀ z, ahas st.dirty z = false → aget st.modelMap z = aget repo.modelMap z :=
    fun z hz => hA1 z hz
  obtain ⟨hW1, hW2⟩ := walkQueue_noop env st.relationIndex repo.modelMap hdef
    _ _ _ _ _ hbase hres
  have hWm : mm = st.modelMap := hW1
  obtain ⟨hF1, hF2⟩ := finalize_fold_models (dirty.map Prod.fst) (mm, st.queryMap) fin hfin
  refine ⟨?_, ?_, ?_⟩
  · intro k hk
    have hk1 : ahas st.modelMap k = true := hA2 k hk
    have hk2 : ahas mm k = true := by
      rw [hWm]
      exact hk1
    obtain ⟨m, hm⟩ := Option.isSome_iff_exists.mp hk2
    obtain ⟨m2, hm2, _, _, _, _⟩ := hF2 k m hm
    show (aget fin.1 k).isSome = true
    rw [hm2]
    rfl
  · intro k hk
    have hne : ∀ x ∈ dirty.map Prod.fst, x ≠ k := by
      intro x hx
      obtain ⟨p, hp, hpk⟩ := List.mem_map.mp hx
      rw [← hpk]
      exact ahas_false_key_ne hk p hp
    have hsd : ahas st.dirty k = false := by
      cases hcase : ahas st.dirty k
      · rfl
      · rw [hW2 k hcase] at hk
        cases hk
    have e1 : aget fin.1 k = aget mm k := hF1 k hne
    have e2 : aget mm k = aget st.modelMap k := by rw [hWm]
    have e3 : aget st.modelMap k = aget repo.modelMap k := hA1 k hsd
    exact (e1.trans e2).trans e3
  · intro k m hk hm
    have e3 : aget st.modelMap k = aget repo.modelMap k := hA1 k hk
    have hmmk : aget mm k = some m := by
      rw [hWm, e3]
      exact hm
    obtain ⟨m2, hm2, hcls, hstt, hrec, herr⟩ := hF2 k m hmmk
    exact ⟨m2, hm2, hrec, hstt, herr⟩

/-- Witness for the preservation theorem: ingesting a comment on the stored
post into the two-entity store `w9repo`; the hypotheses are discharged by
computation on the two stored entities. -/
theorem upsert_preserves_unrelated_witness :
    (∀ k, ahas w9repo.modelMap k = true → ahas w9tr.1.modelMap k = true) ∧
    (∀ k, ahas w9tr.2.2 k = false → aget w9tr.1.modelMap k = aget w9repo.modelMap k) ∧
    (∀ k m, ahas w9tr.2.1 k = false → aget w9repo.modelMap k = some m →
      ∃ m', aget w9tr.1.modelMap k = some m' ∧
        m'.record = m.record ∧ m'.state = m.state ∧ m'.errors = m.errors) :=
  upsert_preserves_unrelated exEnv w9repo "Comment"
    [[("id", RVal.num 5), ("post", RVal.num 1)]] ModelState.loaded [] w9tr rfl
    (by intro k m hm
        have hmem := aget_mem hm
        rw [show w9repo.modelMap = [("Post|1", w9post), ("Author|9", w9author)]
          from rfl] at hmem
        cases hmem with
        | head => rfl
        | tail _ h2 =>
          cases h2 with
          | head => rfl
          | tail _ h3 => cases h3)

/-- Claim C7, counterexample: the claim's "no exception escapes to the
caller" fails for `fetch:error` outcomes carrying a string id, even though the
outcome's entity key is present in the store — `processMapperResult` re-upserts
`(id := result.id)`, and `isLoadable`'s mistyped check (`typeof x === 'string'`
instead of `typeof x.id === 'string'`) makes the embedded upsert throw the
missing-identifier error for every string id. -/
theorem fetch_error_string_id_crashes :
    ahas w7repo.modelMap (mkKey "Post" (RVal.str "1")) = true ∧
    processMapperResult exEnv w7repo
        (MapperResult.fetchError "Post" (RVal.str "1") "boom")
      = Except.error (JsErr.missingId "Post") :=
  ⟨rfl, rfl⟩

/-- Claim C7 (amended to numeric-id outcomes; string ids crash, see the
counterexample): for every well-formed store — schema defaults folded in,
validators passing, reverse index and query index naming only present
entries, relation-table values resolving against the declared cardinalities —
and every `fetch:error` outcome with a numeric id whose entity key is present
with a matching `id` attribute (and `id` not a declared relation name),
`processMapperResult` succeeds — no exception escapes — and yields that
entity with every attribute value unchanged and its errors mapping holding
exactly the sentinel binding of `base` to the outcome's error message. -/
theorem fetch_error_preserves_attributes (env : Env) (repo : RepoV)
    (cls : String) (n : Int) (err : String) (m0 : ModelV)
    (hget : aget repo.modelMap (mkKey cls (RVal.num n)) = some m0)
    (hid : aget m0.record "id" = some (RVal.num n))
    (hidrel : ∀ p ∈ classRelations env cls, p.1 ≠ "id")
    (hdef : ∀ k m, aget repo.modelMap k = some m →
      amerge (env.defaults m.cls) m.record = m.record)
    (hval : ∀ k m, aget repo.modelMap k = some m →
      env.validate m.cls m.record = true)
    (hbuckets : ∀ k bucket, aget repo.relationIndex k = some bucket →
      ∀ p ∈ bucket, ahas repo.modelMap (keyOfRelationKey p.1) = true)
    (hrel : ∀ k m, aget repo.modelMap k = some m →
      ∀ p ∈ classRelations env m.cls, ∀ v,
        aget repo.relationMap (k ++ "|" ++ p.1) = some v →
        ∃ s, resolveSlot p.2.card v = Except.ok s)
    (hqidx : ∀ k bucket, aget repo.queryIndex k = some bucket →
      ∀ p ∈ bucket, ahas repo.queryMap p.1 = true) :
    ∃ repo' m', processMapperResult env repo
        (MapperResult.fetchError cls (RVal.num n) err) = Except.ok repo' ∧
      aget repo'.modelMap (mkKey cls (RVal.num n)) = some m' ∧
      m'.record = m0.record ∧ m'.errors = [("base", err)] := by
  obtain ⟨repo', m', heq, hm', hcls, hstt, hrec, herr⟩ :=
    upsert_idonly_ok env repo cls n ModelState.loaded [("base", err)] m0
      hget hid hidrel hdef hval hbuckets hrel hqidx
  exact ⟨repo', m', heq, hm', hrec, herr⟩

/-- Witness for the amended C7 theorem: a fetch error for the stored post of
the one-entity store `w7repo`. -/
theorem fetch_error_preserves_attributes_witness :
    ∃ repo' m', processMapperResult exEnv w7repo
        (MapperResult.fetchError "Post" (RVal.num 1) "boom") = Except.ok repo' ∧
      aget repo'.modelMap (mkKey "Post" (RVal.num 1)) = some m' ∧
      m'.record = w7post.record ∧ m'.errors = [("base", "boom")] :=
  fetch_error_preserves_attributes exEnv w7repo "Post" 1 "boom" w7post
    rfl rfl (by decide)
    (by intro k m hm
        have hmem := aget_mem hm
        rw [show w7repo.modelMap = [("Post|1", w7post)] from rfl] at hmem
        cases hmem with
        | head => rfl
        | tail _ h2 => cases h2)
    (fun _ _ _ => rfl)
    (by intro k b hb
        rw [show w7repo.relationIndex
          = ([] : AList String (AList String Bool)) from rfl] at hb
        exact Option.noConfusion hb)
    (by intro k m hm p hp v hv
        rw [show w7repo.relationMap = ([] : AList String RelVal) from rfl] at hv
        exact Option.noConfusion hv)
    (by intro k b hb
        rw [show w7repo.queryIndex
          = ([] : AList String (AList String Bool)) from rfl] at hb
        exact Option.noConfusion hb)

/-- Claim C10: reducing a `fetch:error` outcome sets the affected entity's
lifecycle state to `loaded` — the ingestion default (`this.upsert` is called
without a `state` argument) — not to `fetching` or any dedicated error state:
over a well-formed store holding the entity in state `fetching` under a
numeric id, `processMapperResult` yields that entity in state `loaded` with
the error attached under the sentinel key `base`. -/
theorem fetch_error_sets_state_loaded (env : Env) (repo : RepoV)
    (cls : String) (n : Int) (err : String) (m0 : ModelV)
    (hstate : m0.state = ModelState.fetching)
    (hget : aget repo.modelMap (mkKey cls (RVal.num n)) = some m0)
    (hid : aget m0.record "id" = some (RVal.num n))
    (hidrel : ∀ p ∈ classRelations env cls, p.1 ≠ "id")
    (hdef : ∀ k m, aget repo.modelMap k = some m →
      amerge (env.defaults m.cls) m.record = m.record)
    (hval : ∀ k m, aget repo.modelMap k = some m →
      env.validate m.cls m.record = true)
    (hbuckets : ∀ k bucket, aget repo.relationIndex k = some bucket →
      ∀ p ∈ bucket, ahas repo.modelMap (keyOfRelationKey p.1) = true)
    (hrel : ∀ k m, aget repo.modelMap k = some m →
      ∀ p ∈ classRelations env m.cls, ∀ v,
        aget repo.relationMap (k ++ "|" ++ p.1) = some v →
        ∃ s, resolveSlot p.2.card v = Except.ok s)
    (hqidx : ∀ k bucket, aget repo.queryIndex k = some bucket →
      ∀ p ∈ bucket, ahas repo.queryMap p.1 = true) :
    ∃ repo' m', processMapperResult env repo
        (MapperResult.fetchError cls (RVal.num n) err) = Except.ok repo' ∧
      aget repo'.modelMap (mkKey cls (RVal.num n)) = some m' ∧
      m'.state = ModelState.loaded ∧ m'.state ≠ ModelState.fetching ∧
      m'.errors = [("base", err)] := by
  obtain ⟨repo', m', heq, hm', hcls, hstt, hrec, herr⟩ :=
    upsert_idonly_ok env repo cls n ModelState.loaded [("base", err)] m0
      hget hid hidrel hdef hval hbuckets hrel hqidx
  refine ⟨repo', m', heq, hm', hstt, ?_, herr⟩
  rw [hstt]
  decide

/-- Witness for the C10 theorem: a fetch error for the fetching post of the
one-entity store `w10repo`. -/
theorem fetch_error_sets_state_loaded_witness :
    ∃ repo' m', processMapperResult exEnv w10repo
        (MapperResult.fetchError "Post" (RVal.num 3) "err") = Except.ok repo' ∧
      aget repo'.modelMap (mkKey "Post" (RVal.num 3)) = some m' ∧
      m'.state = ModelState.loaded ∧ m'.state ≠ ModelState.fetching ∧
      m'.errors = [("base", "err")] :=
  fetch_error_sets_state_loaded exEnv w10repo "Post" 3 "err" w10post
    rfl rfl rfl (by decide)
    (by intro k m hm
        have hmem := aget_mem hm
        rw [show w10repo.modelMap = [("Post|3", w10post)] from rfl] at hmem
        cases hmem with
        | head => rfl
        | tail _ h2 => cases h2)
    (fun _ _ _ => rfl)
    (by intro k b hb
        rw [show w10repo.relationIndex
          = ([] : AList String (AList String Bool)) from rfl] at hb
        exact Option.noConfusion hb)
    (by intro k m hm p hp v hv
        rw [show w10repo.relationMap = ([] : AList String RelVal) from rfl] at hv
        exact Option.noConfusion hv)
    (by intro k b hb
        rw [show w10repo.queryIndex
          = ([] : AList String (AList String Bool)) from rfl] at hb
        exact Option.noConfusion hb)

/-- Claim C1 (amended): over a well-formed store, ingesting a record that
populates a single declared to-one relation with a bare numeric id — the
related entity having been ingested earlier and only the forward side
supplied now — installs the inverse on the related entity: its inverse slot
includes the source key (to-many inverse) or equals it (to-one inverse).
(The unrestricted claim is false: see the to-one-inverse counterexample,
where two links to the same related entity in one call leave only the last
writer.) -/
theorem inverse_installed_on_related (env : Env) (repo : RepoV)
    (cls rel invName : String) (rd invRel : RelationDef) (n j : Int)
    (state : ModelState) (errors : AList String String) (ms mt : ModelV)
    (hmemrel : rel ∈ (classRelations env cls).map Prod.fst)
    (huniq : ∀ p ∈ classRelations env cls, p.1 = rel → p.2 = rd)
    (hcard : rd.card = Card.one)
    (hinv : rd.inverse = some invName)
    (hinvne : ¬(invName = ""))
    (hinvdef : aget (classRelations env rd.target) invName = some invRel)
    (huniqInv : ∀ p ∈ classRelations env rd.target, p.1 = invName → p.2 = invRel)
    (hidrelS : ∀ p ∈ classRelations env cls, p.1 ≠ "id")
    (hidrelT : ∀ p ∈ classRelations env rd.target, p.1 ≠ "id")
    (hgetS : aget repo.modelMap (mkKey cls (RVal.num n)) = some ms)
    (hidS : aget ms.record "id" = some (RVal.num n))
    (hgetT : aget repo.modelMap (mkKey rd.target (RVal.num j)) = some mt)
    (hidT : aget mt.record "id" = some (RVal.num j))
    (hclsT : mt.cls = rd.target)
    (hskt : ¬(mkKey cls (RVal.num n) = mkKey rd.target (RVal.num j)))
    (hne : ¬(mkKey cls (RVal.num n) ++ "|" ++ rel
      = mkKey rd.target (RVal.num j) ++ "|" ++ invName))
    (hkeyS : keyOfRelationKey (mkKey cls (RVal.num n) ++ "|" ++ rel)
      = mkKey cls (RVal.num n))
    (hkeyT : keyOfRelationKey (mkKey rd.target (RVal.num j) ++ "|" ++ invName)
      = mkKey rd.target (RVal.num j))
    (hfwdnone : aget repo.relationMap (mkKey cls (RVal.num n) ++ "|" ++ rel)
      = none)
    (hdef : ∀ k m, aget repo.modelMap k = some m →
      amerge (env.defaults m.cls) m.record = m.record)
    (hval : ∀ k m, aget repo.modelMap k = some m →
      env.validate m.cls m.record = true)
    (hbuckets : ∀ k bucket, aget repo.relationIndex k = some bucket →
      ∀ p ∈ bucket, ahas repo.modelMap (keyOfRelationKey p.1) = true)
    (hrel : ∀ k m, aget repo.modelMap k = some m →
      ∀ p ∈ classRelations env m.cls, ∀ v,
        aget repo.relationMap (k ++ "|" ++ p.1) = some v →
        ∃ s, resolveSlot p.2.card v = Except.ok s)
    (hqidx : ∀ k bucket, aget repo.queryIndex k = some bucket →
      ∀ p ∈ bucket, ahas repo.queryMap p.1 = true)
    (hcoll : ∀ k m, aget repo.modelMap k = some m →
      ∀ p ∈ classRelations env m.cls,
      (k ++ "|" ++ p.1 = mkKey cls (RVal.num n) ++ "|" ++ rel →
        p.2.card = Card.one) ∧
      (k ++ "|" ++ p.1 = mkKey rd.target (RVal.num j) ++ "|" ++ invName →
        p.2.card = invRel.card)) :
    ∃ repo', upsert env repo cls [[("id", RVal.num n), (rel, RVal.num j)]]
        state errors = Except.ok repo' ∧
      (invRel.card = Card.many → ∃ ks,
        slotAt repo' (mkKey rd.target (RVal.num j)) invName
          = some (Slot.many ks) ∧ mkKey cls (RVal.num n) ∈ ks) ∧
      (invRel.card = Card.one →
        slotAt repo' (mkKey rd.target (RVal.num j)) invName
          = some (Slot.one (some (mkKey cls (RVal.num n))))) := by
  have hmemInv : ((invName, invRel) : String × RelationDef)
      ∈ classRelations env rd.target := aget_mem hinvdef
  obtain ⟨invVal, hinvval, s, hres, hsmany, hsone⟩ :
      ∃ invVal,
        ((invRel.card = Card.one
            ∧ invVal = RelVal.key (mkKey cls (RVal.num n))) ∨
         (invRel.card = Card.many ∧ ∃ ks0,
           ((ks0 = [] ∧
             (aget repo.relationMap
                 (mkKey rd.target (RVal.num j) ++ "|" ++ invName) = none ∨
              aget repo.relationMap
                 (mkKey rd.target (RVal.num j) ++ "|" ++ invName)
                 = some RelVal.null)) ∨
            aget repo.relationMap
               (mkKey rd.target (RVal.num j) ++ "|" ++ invName)
               = some (RelVal.arr ks0)) ∧
           invVal = RelVal.arr (if mkKey cls (RVal.num n) ∈ ks0 then ks0
             else ks0 ++ [mkKey cls (RVal.num n)]))) ∧
        ∃ s, resolveSlot invRel.card invVal = Except.ok s ∧
          (invRel.card = Card.many → ∃ ks, s = Slot.many ks
            ∧ mkKey cls (RVal.num n) ∈ ks) ∧
          (invRel.card = Card.one
            → s = Slot.one (some (mkKey cls (RVal.num n)))) := by
    cases hic : invRel.card with
    | one =>
      refine ⟨RelVal.key (mkKey cls (RVal.num n)), Or.inl ⟨rfl, rfl⟩,
        Slot.one (some (mkKey cls (RVal.num n))), rfl, ?_, fun _ => rfl⟩
      intro hmany
      cases hmany
    | many =>
      cases hprior : aget repo.relationMap
          (mkKey rd.target (RVal.num j) ++ "|" ++ invName) with
      | none =>
        refine ⟨RelVal.arr (if mkKey cls (RVal.num n) ∈ ([] : List String)
            then [] else [] ++ [mkKey cls (RVal.num n)]),
          Or.inr ⟨rfl, [], Or.inl ⟨rfl, Or.inl rfl⟩, rfl⟩,
          Slot.many (if mkKey cls (RVal.num n) ∈ ([] : List String)
            then [] else [] ++ [mkKey cls (RVal.num n)]), rfl, ?_, ?_⟩
        · intro _
          refine ⟨_, rfl, ?_⟩
          simp
        · intro hone
          cases hone
      | some v =>
        have hmem2 : ((invName, invRel) : String × RelationDef)
            ∈ classRelations env mt.cls := by
          rw [hclsT]
          exact hmemInv
        obtain ⟨s0, hs0⟩ := hrel _ mt hgetT (invName, invRel) hmem2 v hprior
        rw [hic] at hs0
        obtain ⟨ks0, hv, hs0e⟩ := resolveSlot_many_inv hs0
        subst hv
        refine ⟨RelVal.arr (if mkKey cls (RVal.num n) ∈ ks0 then ks0
            else ks0 ++ [mkKey cls (RVal.num n)]),
          Or.inr ⟨rfl, ks0, Or.inr rfl, rfl⟩,
          Slot.many (if mkKey cls (RVal.num n) ∈ ks0 then ks0
            else ks0 ++ [mkKey cls (RVal.num n)]), rfl, ?_, ?_⟩
        · intro _
          refine ⟨_, rfl, ?_⟩
          by_cases hmem3 : mkKey cls (RVal.num n) ∈ ks0
          · rw [if_pos hmem3]
            exact hmem3
          · rw [if_neg hmem3]
            simp
        · intro hone
          cases hone
  have h1 := processItem_onerel env state errors cls rel invName rd invRel n j
    { modelMap := repo.modelMap, relationMap := repo.relationMap,
      relationIndex := repo.relationIndex, queryMap := repo.queryMap,
      dirty := [] } ms invVal hidrelS huniq hmemrel hcard hinv hinvne hinvdef
    hfwdnone hne hskt hinvval hgetS hidS (hdef _ _ hgetS) (hval _ _ hgetS)
  have h2 := processItem_idonly env state errors rd.target j
    { modelMap := aset repo.modelMap (mkKey cls (RVal.num n))
        { ms with state := state, errors := errors },
      relationMap := aset (aset repo.relationMap
          (mkKey cls (RVal.num n) ++ "|" ++ rel)
          (RelVal.key (mkKey rd.target (RVal.num j))))
          (mkKey rd.target (RVal.num j) ++ "|" ++ invName) invVal,
      relationIndex := aset (aset repo.relationIndex (mkKey cls (RVal.num n))
          (aset ((aget repo.relationIndex (mkKey cls (RVal.num n))).getD [])
            (mkKey rd.target (RVal.num j) ++ "|" ++ invName) true))
          (mkKey rd.target (RVal.num j))
          (aset ((aget repo.relationIndex (mkKey rd.target (RVal.num j))).getD [])
            (mkKey cls (RVal.num n) ++ "|" ++ rel) true),
      queryMap := repo.queryMap,
      dirty := aset [] (mkKey cls (RVal.num n)) true }
    mt hidrelT
    ((aget_aset_ne repo.modelMap
      ({ ms with state := state, errors := errors }) hskt).trans hgetT)
    hidT (hdef _ _ hgetT) (hval _ _ hgetT)
  have hrun := runQueue_two h1 h2
    (1 + 4 * List.foldl (fun n r => n + recordFuel r) 0
      [[("id", RVal.num n), (rel, RVal.num j)]])
    (by
      simp only [List.foldl_cons, List.foldl_nil, recordFuel,
        rvalFuel.fieldsFuel, rvalFuel]
      omega)
  simp only [upsert, upsertTrace, List.map_cons, List.map_nil]
  rw [hrun, except_bind_ok]
  simp only [aset, List.map_cons, List.map_nil]
  simp only [if_neg hskt, List.map_cons, List.map_nil]
  have hpresS : ahas repo.modelMap (mkKey cls (RVal.num n)) = true := by
    show (aget repo.modelMap (mkKey cls (RVal.num n))).isSome = true
    rw [hgetS]
    rfl
  have hpresT : ahas repo.modelMap (mkKey rd.target (RVal.num j)) = true := by
    show (aget repo.modelMap (mkKey rd.target (RVal.num j))).isSome = true
    rw [hgetT]
    rfl
  obtain ⟨dirty', hwalk, hmono, hsub⟩ := walkQueue_success env
    (aset (aset repo.relationIndex (mkKey cls (RVal.num n))
        (aset ((aget repo.relationIndex (mkKey cls (RVal.num n))).getD [])
          (mkKey rd.target (RVal.num j) ++ "|" ++ invName) true))
        (mkKey rd.target (RVal.num j))
        (aset ((aget repo.relationIndex (mkKey rd.target (RVal.num j))).getD [])
          (mkKey cls (RVal.num n) ++ "|" ++ rel) true))
    repo.modelMap hdef hval
    (by
      intro k bucket hb p hp
      by_cases hkt : mkKey rd.target (RVal.num j) = k
      · subst hkt
        rw [aget_aset_self] at hb
        injection hb with hb
        subst hb
        cases mem_aset _ _ _ p hp with
        | inl h3 =>
          rw [h3]
          simp only []
          rw [hkeyS]
          exact hpresS
        | inr h3 =>
          cases hb0 : aget repo.relationIndex (mkKey rd.target (RVal.num j)) with
          | none =>
            rw [hb0] at h3
            cases h3
          | some b0 =>
            rw [hb0] at h3
            exact hbuckets _ b0 hb0 p h3
      · rw [aget_aset_ne _ _ hkt] at hb
        by_cases hks : mkKey cls (RVal.num n) = k
        · subst hks
          rw [aget_aset_self] at hb
          injection hb with hb
          subst hb
          cases mem_aset _ _ _ p hp with
          | inl h3 =>
            rw [h3]
            simp only []
            rw [hkeyT]
            exact hpresT
          | inr h3 =>
            cases hb0 : aget repo.relationIndex (mkKey cls (RVal.num n)) with
            | none =>
              rw [hb0] at h3
              cases h3
            | some b0 =>
              rw [hb0] at h3
              exact hbuckets _ b0 hb0 p h3
        · rw [aget_aset_ne _ _ hks] at hb
          exact hbuckets k bucket hb p hp)
    (walkFuelBound
      (aset (aset repo.relationIndex (mkKey cls (RVal.num n))
          (aset ((aget repo.relationIndex (mkKey cls (RVal.num n))).getD [])
            (mkKey rd.target (RVal.num j) ++ "|" ++ invName) true))
          (mkKey rd.target (RVal.num j))
          (aset ((aget repo.relationIndex (mkKey rd.target (RVal.num j))).getD [])
            (mkKey cls (RVal.num n) ++ "|" ++ rel) true))
      [(mkKey cls (RVal.num n), true), (mkKey rd.target (RVal.num j), true)]
      [mkKey cls (RVal.num n), mkKey rd.target (RVal.num j)])
    [mkKey cls (RVal.num n), mkKey rd.target (RVal.num j)]
    [(mkKey cls (RVal.num n), true), (mkKey rd.target (RVal.num j), true)]
    (aset (aset repo.modelMap (mkKey cls (RVal.num n))
        (ModelV.mk ms.cls state ms.record errors ms.dirty ms.dirtyRelations
          ms.relations))
        (mkKey rd.target (RVal.num j))
        (ModelV.mk mt.cls state mt.record errors mt.dirty mt.dirtyRelations
          mt.relations))
    (by
      intro z hz
      have hzs : mkKey cls (RVal.num n) ≠ z :=
        ahas_false_key_ne hz _ (List.mem_cons_self _ _)
      have hzt : mkKey rd.target (RVal.num j) ≠ z :=
        ahas_false_key_ne hz _ (List.mem_cons_of_mem _ (List.mem_cons_self _ _))
      rw [aget_aset_ne _ _ hzt, aget_aset_ne _ _ hzs]
    )
    (by
      intro x hx
      cases hx with
      | head =>
        refine Or.inl ?_
        simp [ahas, aget]
      | tail _ h3 =>
        cases h3 with
        | head =>
          refine Or.inl ?_
          simp [ahas, aget, hskt]
        | tail _ h4 => cases h4)
    (walkFuelBound_ge _ _ _)
  rw [hwalk, except_bind_ok]
  simp only []
  have hdirty2mem : ∀ x, ahas ([(mkKey cls (RVal.num n), true),
      (mkKey rd.target (RVal.num j), true)] : AList String Bool) x = true →
      x = mkKey cls (RVal.num n) ∨ x = mkKey rd.target (RVal.num j) := by
    intro x hx
    obtain ⟨b, hb⟩ := Option.isSome_iff_exists.mp hx
    have hm := aget_mem hb
    cases hm with
    | head => exact Or.inl rfl
    | tail _ h3 =>
      cases h3 with
      | head => exact Or.inr rfl
      | tail _ h4 => cases h4
  have hpresS2 : ahas (aset (aset repo.modelMap (mkKey cls (RVal.num n))
      (ModelV.mk ms.cls state ms.record errors ms.dirty ms.dirtyRelations
        ms.relations))
      (mkKey rd.target (RVal.num j))
      (ModelV.mk mt.cls state mt.record errors mt.dirty mt.dirtyRelations
        mt.relations)) (mkKey cls (RVal.num n)) = true := by
    show (aget _ (mkKey cls (RVal.num n))).isSome = true
    rw [aget_aset_ne _ _ (fun he => hskt he.symm), aget_aset_self]
    rfl
  have hpresT2 : ahas (aset (aset repo.modelMap (mkKey cls (RVal.num n))
      (ModelV.mk ms.cls state ms.record errors ms.dirty ms.dirtyRelations
        ms.relations))
      (mkKey rd.target (RVal.num j))
      (ModelV.mk mt.cls state mt.record errors mt.dirty mt.dirtyRelations
        mt.relations)) (mkKey rd.target (RVal.num j)) = true := by
    show (aget _ (mkKey rd.target (RVal.num j))).isSome = true
    rw [aget_aset_self]
    rfl
  have hpres : ∀ x ∈ dirty'.map Prod.fst,
      ahas (aset (aset repo.modelMap (mkKey cls (RVal.num n))
        (ModelV.mk ms.cls state ms.record errors ms.dirty ms.dirtyRelations
          ms.relations))
        (mkKey rd.target (RVal.num j))
        (ModelV.mk mt.cls state mt.record errors mt.dirty mt.dirtyRelations
          mt.relations)) x = true := by
    intro x hx
    have hd := mem_map_fst_ahas dirty' x hx
    cases hsub x hd with
    | inl hl =>
      cases hdirty2mem x hl with
      | inl he =>
        rw [he]
        exact hpresS2
      | inr he =>
        rw [he]
        exact hpresT2
    | inr hr => exact hr
  have hrelI : ∀ k m, aget (aset (aset repo.modelMap (mkKey cls (RVal.num n))
      (ModelV.mk ms.cls state ms.record errors ms.dirty ms.dirtyRelations
        ms.relations))
      (mkKey rd.target (RVal.num j))
      (ModelV.mk mt.cls state mt.record errors mt.dirty mt.dirtyRelations
        mt.relations)) k = some m →
      ∀ p ∈ classRelations env m.cls, ∀ v,
      aget (aset (aset repo.relationMap (mkKey cls (RVal.num n) ++ "|" ++ rel)
        (RelVal.key (mkKey rd.target (RVal.num j))))
        (mkKey rd.target (RVal.num j) ++ "|" ++ invName) invVal)
        (k ++ "|" ++ p.1) = some v →
      ∃ s2, resolveSlot p.2.card v = Except.ok s2 := by
    intro k m hk p hp v hv
    have hrepo : ∃ m0, aget repo.modelMap k = some m0 ∧ m0.cls = m.cls := by
      by_cases hkt : mkKey rd.target (RVal.num j) = k
      · subst hkt
        rw [aget_aset_self] at hk
        injection hk with hk
        rw [← hk]
        exact ⟨mt, hgetT, rfl⟩
      · rw [aget_aset_ne _ _ hkt] at hk
        by_cases hks : mkKey cls (RVal.num n) = k
        · subst hks
          rw [aget_aset_self] at hk
          injection hk with hk
          rw [← hk]
          exact ⟨ms, hgetS, rfl⟩
        · rw [aget_aset_ne _ _ hks] at hk
          exact ⟨m, hk, rfl⟩
    obtain ⟨m0, hm0, hcls0⟩ := hrepo
    rw [← hcls0] at hp
    by_cases hKi : mkKey rd.target (RVal.num j) ++ "|" ++ invName
        = k ++ "|" ++ p.1
    · rw [← hKi, aget_aset_self] at hv
      injection hv with hv
      subst hv
      have hc := (hcoll k m0 hm0 p hp).2 hKi.symm
      rw [hc]
      exact ⟨s, hres⟩
    · rw [aget_aset_ne _ _ hKi] at hv
      by_cases hKf : mkKey cls (RVal.num n) ++ "|" ++ rel = k ++ "|" ++ p.1
      · rw [← hKf, aget_aset_self] at hv
        injection hv with hv
        subst hv
        have hc := (hcoll k m0 hm0 p hp).1 hKf.symm
        rw [hc]
        exact ⟨Slot.one (some (mkKey rd.target (RVal.num j))), rfl⟩
      · rw [aget_aset_ne _ _ hKf] at hv
        exact hrel k m0 hm0 p hp v hv
  obtain ⟨fin, hfin⟩ := finalize_fold_ok repo.queryMap (dirty'.map Prod.fst)
    (aset (aset repo.modelMap (mkKey cls (RVal.num n))
        (ModelV.mk ms.cls state ms.record errors ms.dirty ms.dirtyRelations
          ms.relations))
        (mkKey rd.target (RVal.num j))
        (ModelV.mk mt.cls state mt.record errors mt.dirty mt.dirtyRelations
          mt.relations), repo.queryMap)
    hpres hrelI hqidx (fun z hz => hz)
  rw [hfin, except_bind_ok]
  obtain ⟨mF, hmF, hmFs⟩ := finalize_fold_slot (mkKey rd.target (RVal.num j))
    invName rd.target invRel invVal s (aget_aset_self _ _ _) hres hmemInv
    huniqInv (dirty'.map Prod.fst)
    (aset (aset repo.modelMap (mkKey cls (RVal.num n))
        (ModelV.mk ms.cls state ms.record errors ms.dirty ms.dirtyRelations
          ms.relations))
        (mkKey rd.target (RVal.num j))
        (ModelV.mk mt.cls state mt.record errors mt.dirty mt.dirtyRelations
          mt.relations), repo.queryMap)
    fin hfin
    (by
      intro m hm
      rw [aget_aset_self] at hm
      injection hm with hm
      rw [← hm]
      exact hclsT)
    (Or.inl (ahas_mem_map_fst (hmono (mkKey rd.target (RVal.num j))
      (by simp [ahas, aget, hskt]))))
  refine ⟨_, rfl, ?_, ?_⟩
  · intro hmany
    obtain ⟨ks, hks, hmem4⟩ := hsmany hmany
    refine ⟨ks, ?_, hmem4⟩
    simp only [slotAt]
    rw [hmF]
    show aget mF.relations invName = some (Slot.many ks)
    rw [hmFs, hks]
  · intro hone
    have hs1 := hsone hone
    simp only [slotAt]
    rw [hmF]
    show aget mF.relations invName
      = some (Slot.one (some (mkKey cls (RVal.num n))))
    rw [hmFs, hs1]

/-- Witness for the amended C1 theorem: ingesting `Post 1` with `author := 9`
over the two-entity store `w1repo`, whose author was ingested by an earlier,
separate call; the author's to-many `posts` inverse slot gains the post's
key. -/
theorem inverse_installed_on_related_witness :
    ∃ repo', upsert exEnv w1repo "Post"
        [[("id", RVal.num 1), ("author", RVal.num 9)]]
        ModelState.loaded [] = Except.ok repo' ∧
      ((RelationDef.mk Card.many "Post" (some "author")).card = Card.many →
        ∃ ks, slotAt repo' (mkKey "Author" (RVal.num 9)) "posts"
          = some (Slot.many ks) ∧ mkKey "Post" (RVal.num 1) ∈ ks) ∧
      ((RelationDef.mk Card.many "Post" (some "author")).card = Card.one →
        slotAt repo' (mkKey "Author" (RVal.num 9)) "posts"
          = some (Slot.one (some (mkKey "Post" (RVal.num 1))))) :=
  inverse_installed_on_related exEnv w1repo "Post" "author" "posts"
    (RelationDef.mk Card.one "Author" (some "posts"))
    (RelationDef.mk Card.many "Post" (some "author")) 1 9
    ModelState.loaded [] w1post w1author
    (by decide) (by decide) rfl rfl (by decide) rfl (by decide) (by decide)
    (by decide) rfl rfl rfl rfl rfl (by decide) (by decide) rfl rfl rfl
    (by intro k m hm
        have hmem := aget_mem hm
        rw [show w1repo.modelMap = [("Post|1", w1post), ("Author|9", w1author)]
          from rfl] at hmem
        cases hmem with
        | head => rfl
        | tail _ h2 =>
          cases h2 with
          | head => rfl
          | tail _ h3 => cases h3)
    (fun _ _ _ => rfl)
    (by intro k b hb
        rw [show w1repo.relationIndex
          = ([] : AList String (AList String Bool)) from rfl] at hb
        exact Option.noConfusion hb)
    (by intro k m hm p hp v hv
        rw [show w1repo.relationMap = ([] : AList String RelVal) from rfl] at hv
        exact Option.noConfusion hv)
    (by intro k b hb
        rw [show w1repo.queryIndex
          = ([] : AList String (AList String Bool)) from rfl] at hb
        exact Option.noConfusion hb)
    (by intro k m hm
        have hmem := aget_mem hm
        rw [show w1repo.modelMap = [("Post|1", w1post), ("Author|9", w1author)]
          from rfl] at hmem
        cases hmem with
        | head => decide
        | tail _ h2 =>
          cases h2 with
          | head => decide
          | tail _ h3 => cases h3)

end RepoSpec
